import Mathlib

/-!
# akt pca (`vcfpca.cpp`): a shallow embedding and its verified properties

The two entry points of `vcfpca.cpp` are embedded as Lean functions:

* `calcpca` (matrix construction, thinning, rank selection) with its helpers
  `DatatoMatrix` and `DatatoSymmMatrix`;
* `pca` (projection of samples onto a loading panel).

Conventions of the embedding.

* A C `float`/`double` is a value of `Flt`: a finite rational, an infinity or
  NaN.  Arithmetic is exact (no rounding); division by zero, the square root of
  a negative number and the arithmetic of infinities follow IEEE 754.  Zero
  carries no sign: the divisor `0` is the positive zero.  Where rounding
  decides a property, the operations are rounded explicitly with `roundSig`
  (`overlapBelow`, and the definitions whose name ends in `32`).
* `sqrt` is a library function; its value on non-negative finite arguments is
  a parameter `sq : ℚ → ℚ` of every definition that calls it.
* Machine `int`s are `Int`/`Nat` without wrap-around: the counters of this
  program stay far below `2^31`.
* The htslib synced reader is replaced by the list of records it yields
  (`SrLine`); the htslib genotype encoding is a parameter (`GtCodec`).
* The buffer `wts` that `bcf_get_info_float` fills is part of the state of
  `pca` (`PcaState.wts`, `readWts`): htslib reuses it from site to site and
  never shrinks it, and the variable `nwts` is its size.
* `exit(1)`/`die` is `Except.error`.
-/

namespace Akt

/-! ## Floating-point values in exact arithmetic -/

/-- A C floating-point value without rounding: finite, signed infinity
(`inf true` is minus infinity) or NaN. -/
inductive Flt where
  | fin (q : ℚ)
  | inf (neg : Bool)
  | nan
deriving DecidableEq

namespace Flt

/-- Conversion `(float)z` of an integer. -/
def ofInt (z : Int) : Flt := fin z

/-- C `isnan`. -/
def isnan : Flt → Bool
  | nan => true
  | _ => false

/-- Unary minus. -/
def neg : Flt → Flt
  | fin q => fin (-q)
  | inf s => inf (!s)
  | nan => nan

/-- IEEE addition without rounding. -/
def add : Flt → Flt → Flt
  | fin a, fin b => fin (a + b)
  | fin _, inf s => inf s
  | inf s, fin _ => inf s
  | inf s, inf t => if s = t then inf s else nan
  | nan, _ => nan
  | _, nan => nan

/-- IEEE subtraction without rounding. -/
def sub (a b : Flt) : Flt := add a (neg b)

/-- IEEE multiplication without rounding. -/
def mul : Flt → Flt → Flt
  | fin a, fin b => fin (a * b)
  | fin a, inf s => if a = 0 then nan else inf (xor (decide (a < 0)) s)
  | inf s, fin b => if b = 0 then nan else inf (xor s (decide (b < 0)))
  | inf s, inf t => inf (xor s t)
  | nan, _ => nan
  | _, nan => nan

/-- IEEE division without rounding (the zero divisor is `+0`). -/
def div : Flt → Flt → Flt
  | fin a, fin b =>
    if b = 0 then (if a = 0 then nan else inf (decide (a < 0))) else fin (a / b)
  | fin _, inf _ => fin 0
  | inf s, fin b => inf (xor s (decide (b < 0)))
  | inf _, inf _ => nan
  | nan, _ => nan
  | _, nan => nan

/-- C `sqrt`; `sq` is its value on the non-negative finite arguments. -/
def sqrt (sq : ℚ → ℚ) : Flt → Flt
  | fin q => if q < 0 then nan else fin (sq q)
  | inf false => inf false
  | inf true => nan
  | nan => nan

/-- Comparison `a < b` (false as soon as one side is NaN). -/
def lt : Flt → Flt → Bool
  | fin a, fin b => decide (a < b)
  | fin _, inf s => !s
  | inf s, fin _ => s
  | inf s, inf t => s && !t
  | nan, _ => false
  | _, nan => false

/-- Comparison `a <= b` (false as soon as one side is NaN). -/
def le : Flt → Flt → Bool
  | fin a, fin b => decide (a ≤ b)
  | fin _, inf s => !s
  | inf s, fin _ => s
  | inf s, inf t => s || !t
  | nan, _ => false
  | _, nan => false

instance : Add Flt := ⟨add⟩
instance : Sub Flt := ⟨sub⟩
instance : Mul Flt := ⟨mul⟩
instance : Div Flt := ⟨div⟩

end Flt

/-- A square root on the rationals that is exact on squares of rationals; it
serves as the `sq` argument when a definition is evaluated on concrete data. -/
def qsqrt (q : ℚ) : ℚ := (Nat.sqrt q.num.toNat : ℚ) / (Nat.sqrt q.den : ℚ)

/-! ## The external collaborators -/

/-- The genotype encoding of htslib (`vcf.h`), which is not part of this
repository: the value `bcf_gt_missing` and the macro `bcf_gt_allele`. -/
structure GtCodec where
  bcf_gt_missing : Int
  bcf_gt_allele : Int → Int

/-- The encoding htslib really uses: `bcf_gt_missing` is `0` and
`bcf_gt_allele(v)` is `(v >> 1) - 1`. -/
def htslibCodec : GtCodec := ⟨0, fun v => v / 2 - 1⟩

/-- The macro `bcf_gt_is_missing(val)` of htslib, `((val)>>1 ? 0 : 1)`: an
allele is missing whatever its phase bit, so the codes `0` (`.` after `/` or
first) and `1` (`.` after `|`) are the missing alleles.  `vcfpca.cpp` does
not call it; the definitions that follow the words of the specification do. -/
def bcf_gt_is_missing (v : Int) : Bool := decide (v / 2 = 0)

/-- One record yielded by `bcf_sr_next_line`, with what the htslib accessors
return on it.

* `has0`, `has1`: `bcf_sr_has_line(sr,0)` and `bcf_sr_has_line(sr,1)`;
* `gt`: the values `bcf_get_genotypes` decoded from the line of reader 0, and
  `none` when it returned a negative code (its return value is `SrLine.ngt`);
* `af_ret`, `af`: the return value of `bcf_get_info_float(.., "AF", ..)` on the
  line of reader 1 and the first value read;
* `wt`: the values of `INFO/WEIGHT` on the line of reader 1, which
  `bcf_get_info_float(.., "WEIGHT", &wts, &nwts)` writes to the beginning of
  the buffer `wts`, and `none` when it returns a negative code (its return
  value is `SrLine.wt_ret`). -/
structure SrLine where
  has0 : Bool
  has1 : Bool
  gt : Option (List Int)
  af_ret : Int
  af : Flt
  wt : Option (List Flt)

/-- The return value of `bcf_get_genotypes`: the number of values decoded, or
a negative code. -/
def SrLine.ngt (r : SrLine) : Int :=
  match r.gt with
  | some l => l.length
  | none => -1

/-- The return value of `bcf_get_info_float(.., "WEIGHT", ..)`: the number of
values written, or a negative code. -/
def SrLine.wt_ret (r : SrLine) : Int :=
  match r.wt with
  | some l => l.length
  | none => -1

/-- The fatal exits of `vcfpca.cpp` (`exit(1)` and `die`), and `undefined` for
an execution that leaves defined behaviour (division by zero in `count%k`, a
read past the end of a buffer). -/
inductive Fatal where
  | noSamples
  | badGenotypes
  | fixPloidy
  | noMarkers
  | noAF
  | dosageRange
  | noWeights
  | noPCs
  | nanScore
  | lowOverlap
  | noIntersect
  | undefined
deriving DecidableEq

deriving instance DecidableEq for Except

/-- A counted `for (i = 0; i < n; ++i)` loop over a state. -/
def forLoop {σ : Type} (n : Nat) (body : Nat → σ → σ) (s : σ) : σ :=
  (List.range n).foldl (fun s i => body i s) s

/-- A counted `for` loop whose body may exit. -/
def forLoopE {σ : Type} (n : Nat) (body : Nat → σ → Except Fatal σ) (s : σ) :
    Except Fatal σ :=
  (List.range n).foldlM (fun s i => body i s) s

/-! ## `calcpca`: reading the genotypes -/

/-- The variables of the reading loop of `calcpca` (lines 451-536). -/
structure CalcState where
  gt_arr : List Int
  count : Nat
  nkept : Nat
  nline : Nat
  npanel : Nat
  G : List Flt
  AF : List Flt
  sites : List Nat
deriving DecidableEq

/-- The state before the first record: `gt_arr` is the freshly allocated
buffer, whose content `gt0` is whatever `malloc` returned. -/
def CalcState.init (gt0 : List Int) : CalcState :=
  { gt_arr := gt0, count := 0, nkept := 0, nline := 0, npanel := 0,
    G := [], AF := [], sites := [] }

/-- The buffer after `bcf_get_genotypes(.., &gt_arr, &ngt_arr)`: the decoded
values overwrite its beginning (it grows when they do not fit). -/
def readGt (buf : List Int) (r : SrLine) : List Int :=
  match r.gt with
  | some l => l ++ buf.drop l.length
  | none => buf

/-- Lines 482-493: the allele count `mac` and the missing count `nmiss` of the
first `2*N` entries of the buffer. -/
def alleleCount (c : GtCodec) (N : Nat) (gt : List Int) : Int × Int :=
  forLoop (2 * N)
    (fun i p =>
      if gt.getD i 0 ≠ c.bcf_gt_missing then (p.1 + c.bcf_gt_allele (gt.getD i 0), p.2)
      else (p.1, p.2 + 1))
    (0, 0)

/-- Line 494: `frq = (float)mac / (float)(2*N-nmiss)`. -/
def calcFrq (c : GtCodec) (N : Nat) (gt : List Int) : Flt :=
  Flt.ofInt (alleleCount c N gt).1 / Flt.ofInt (2 * N - (alleleCount c N gt).2)

/-- Line 497: the minor allele count. -/
def minorCount (c : GtCodec) (N : Nat) (gt : List Int) : Int :=
  let mac := (alleleCount c N gt).1
  let nmiss := (alleleCount c N gt).2
  if mac > Int.tdiv (2 * N - nmiss) 2 then (2 * N - nmiss) - mac else mac

/-- The test `mac > (2*N-nmiss)*m` of lines 498 and 501. -/
def mafPass (c : GtCodec) (N : Nat) (m : Flt) (gt : List Int) : Bool :=
  Flt.lt (Flt.ofInt (2 * N - (alleleCount c N gt).2) * m) (Flt.ofInt (minorCount c N gt))

/-- Lines 507-523: the dosages of the `N` samples are pushed to `G` and summed
in `mu`; missing genotypes get `2*frq`; a negative entry is fatal. -/
def pushDosages (c : GtCodec) (N : Nat) (gt : List Int) (frq : Flt)
    (G : List Flt) : Except Fatal (List Flt × Flt) :=
  forLoopE N
    (fun i (p : List Flt × Flt) =>
      if gt.getD (2 * i) 0 < 0 ∨ gt.getD (2 * i + 1) 0 < 0 then .error .fixPloidy
      else
        let g : Flt :=
          if gt.getD (2 * i) 0 ≠ c.bcf_gt_missing ∧ gt.getD (2 * i + 1) 0 ≠ c.bcf_gt_missing then
            Flt.ofInt (c.bcf_gt_allele (gt.getD (2 * i) 0) + c.bcf_gt_allele (gt.getD (2 * i + 1) 0))
          else Flt.ofInt 2 * frq
        .ok (p.1 ++ [g], p.2 + g))
    (G, Flt.fin 0)

/-- The configuration of `calcpca` that the reading loop uses: whether a sites
file was given (`pfilename != ""`), the number of samples `N`, the MAF bound
`m` and the thinning stride `k`. -/
structure CalcCfg where
  pfile : Bool
  N : Nat
  m : Flt
  k : Int

/-- Whether `calcpca` reads the record (line 471). -/
def calcReads (cfg : CalcCfg) (r : SrLine) : Bool :=
  if cfg.pfile then (r.has0 && r.has1) else true

/-- Lines 474-526: what `calcpca` does with a record it reads. -/
def calcKeep (c : GtCodec) (cfg : CalcCfg) (s : CalcState) (r : SrLine) :
    Except Fatal CalcState :=
  if r.ngt < 0 then .error .badGenotypes
  else
    let gt := readGt s.gt_arr r
    let frq := calcFrq c cfg.N gt
    let pass := mafPass c cfg.N cfg.m gt
    let count := if pass then s.count + 1 else s.count
    if cfg.k = 0 then .error .undefined
    else if Int.tmod count cfg.k = 0 ∧ pass then
      match pushDosages c cfg.N gt frq s.G with
      | .error e => .error e
      | .ok p =>
        .ok { s with gt_arr := gt, count := count, sites := s.sites ++ [s.nline],
                     G := p.1, AF := s.AF ++ [p.2 / Flt.ofInt cfg.N],
                     nkept := s.nkept + 1 }
    else .ok { s with gt_arr := gt, count := count }

/-- Lines 528-535: the line counters. -/
def calcTally (cfg : CalcCfg) (r : SrLine) (s : CalcState) : CalcState :=
  { s with nline := if r.has0 then s.nline + 1 else s.nline,
           npanel := if cfg.pfile ∧ r.has1 then s.npanel + 1 else s.npanel }

/-- The body of the `while(bcf_sr_next_line(sr))` loop of `calcpca`
(lines 470-535). -/
def calcStep (c : GtCodec) (cfg : CalcCfg) (s : CalcState) (r : SrLine) :
    Except Fatal CalcState :=
  match (if calcReads cfg r then calcKeep c cfg s r else .ok s) with
  | .error e => .error e
  | .ok s1 => .ok (calcTally cfg r s1)

/-- The whole reading loop of `calcpca` over the records of the reader. -/
def calcLoop (c : GtCodec) (cfg : CalcCfg) (s : CalcState) (ls : List SrLine) :
    Except Fatal CalcState :=
  ls.foldlM (calcStep c cfg) s


/-- The record is read by `calcpca` and passes the MAF filter. -/
def qualifies (c : GtCodec) (cfg : CalcCfg) (s : CalcState) (r : SrLine) : Bool :=
  calcReads cfg r && mafPass c cfg.N cfg.m (readGt s.gt_arr r)

/-- The number of records of the stream that qualify, as long as the loop runs. -/
def qualCount (c : GtCodec) (cfg : CalcCfg) (s : CalcState) : List SrLine → Nat
  | [] => 0
  | r :: rs =>
    match calcStep c cfg s r with
    | .ok s1 => (if qualifies c cfg s r then 1 else 0) + qualCount c cfg s1 rs
    | .error _ => 0

/-- A record of a single-sample source carrying the heterozygous genotype `0/1`. -/
def hetLine : SrLine :=
  { has0 := true, has1 := false, gt := some [2, 4], af_ret := 0, af := Flt.nan,
    wt := none }

/-- The fixture of the thinning rule: one sample, no sites file, `m = 0`, `k = 2`. -/
def thinCfg : CalcCfg := { pfile := false, N := 1, m := Flt.fin 0, k := 2 }

/-- The state of the fixture after `n` heterozygous records. -/
def thinState (n : Nat) : CalcState :=
  { gt_arr := [2, 4], count := n, nkept := n / 2, nline := n, npanel := 0,
    G := List.replicate (n / 2) (Flt.fin 1), AF := List.replicate (n / 2) (Flt.fin 1),
    sites := (List.range (n / 2)).map (fun i => 2 * i + 1) }

/-! ## `pca`: projection onto a loading panel -/

/-- Rounding to the nearest integer, ties to the even one. -/
def roundEven (y : ℚ) : ℤ :=
  if y - ⌊y⌋ < 1 / 2 then ⌊y⌋
  else if 1 / 2 < y - ⌊y⌋ then ⌊y⌋ + 1
  else if ⌊y⌋ % 2 = 0 then ⌊y⌋ else ⌊y⌋ + 1

/-- The IEEE rounding of a rational to `p` significant bits (round to nearest,
ties to even; the exponent range is not limited). -/
def roundSig (p : ℕ) (x : ℚ) : ℚ :=
  if x = 0 then 0
  else (roundEven (x * (2 : ℚ) ^ ((p : ℤ) - 1 - Int.log 2 |x|)) : ℚ)
        / (2 : ℚ) ^ ((p : ℤ) - 1 - Int.log 2 |x|)

/-- The test `(float)n0/n1 < 0.9` of line 261 in IEEE arithmetic with
single-precision evaluation: both counts are converted to `float` (24 bits),
the quotient is a `float`, and `0.9` is a `double` (53 bits).  With `n1 = 0`
the quotient is NaN or infinite and the test is false. -/
def overlapBelow (n0 n1 : Nat) : Bool :=
  if n1 = 0 then false
  else decide (roundSig 24 (roundSig 24 n0 / roundSig 24 n1) < roundSig 53 (9 / 10))

/-- The arguments of `pca` that the computation uses: the number of samples
`N`, whether `-N` was given (`don`) with its value `maxn`, and the
`--assume-homref` switch. -/
structure PcaCfg where
  N : Nat
  don : Bool
  maxn : Int
  assume_homref : Bool

/-- The variables of `pca` that live across the records (lines 72-130):
`PC n` is the vector `PC[n]`, `gs n` the entry `gs[n]`, and `wts` the buffer
that `bcf_get_info_float` fills, whose size is the variable `nwts`. -/
structure PcaState where
  n0 : Nat
  n1 : Nat
  nPC : Nat
  Npca : Nat
  PC : Nat → List Flt
  gs : Nat → Flt
  wts : List Flt

/-- The state before the first record: empty score vectors, `gs` all zero,
`wts = NULL` with `nwts = 0`. -/
def PcaState.init : PcaState :=
  { n0 := 0, n1 := 0, nPC := 0, Npca := 0, PC := fun _ => [], gs := fun _ => Flt.fin 0,
    wts := [] }

/-- The buffer after `bcf_get_info_float(.., "WEIGHT", &wts, &nwts)` (line
200).  htslib takes `nwts` as the size of the buffer: it enlarges the buffer
when the values of the site do not fit, writes them to its beginning and
leaves the rest as it was, so `nwts` never decreases. -/
def readWts (buf : List Flt) (r : SrLine) : List Flt :=
  match r.wt with
  | some l => l ++ buf.drop l.length
  | none => buf

/-- Lines 167-181: the dosage given to sample `n` at a diploid site. -/
def pcaDosage (c : GtCodec) (cfg : PcaCfg) (r : SrLine) (n : Nat) : Flt :=
  if r.has0 = true ∧ (r.gt.getD []).getD (2 * n) 0 ≠ c.bcf_gt_missing
      ∧ (r.gt.getD []).getD (2 * n + 1) 0 ≠ c.bcf_gt_missing then
    Flt.ofInt (c.bcf_gt_allele ((r.gt.getD []).getD (2 * n) 0)
      + c.bcf_gt_allele ((r.gt.getD []).getD (2 * n + 1) 0))
  else if cfg.assume_homref then Flt.fin 0
  else Flt.ofInt 2 * r.af

/-- Lines 156-183: `gs` is refreshed only when `ngt == 2*N`. -/
def pcaFillGs (c : GtCodec) (cfg : PcaCfg) (r : SrLine) (gs : Nat → Flt) : Nat → Flt :=
  if (if r.has0 then r.ngt else 2 * cfg.N) = 2 * cfg.N then
    forLoop cfg.N (fun n g => Function.update g n (pcaDosage c cfg r n)) gs
  else gs

/-- Lines 213-229: the number of components taken at a site, `nwts` being the
size of the buffer after the call of line 200. -/
def compCount (cfg : PcaCfg) (nwts : Nat) : Nat :=
  if cfg.don then
    if cfg.maxn > 0 then (min cfg.maxn (nwts : Int)).toNat else nwts
  else nwts

/-- Lines 211-212: centring and scaling of a dosage with the site's `af`. -/
def standardize (sq : ℚ → ℚ) (af g : Flt) : Flt :=
  (g - Flt.ofInt 2 * af) / Flt.sqrt sq (Flt.ofInt 2 * af * (Flt.ofInt 1 - af))

/-- Lines 241-244: `PC[n][i] += wts[i]*gs[n]` for `i < nPC`. -/
def accumulate (nPC : Nat) (wts : List Flt) (g : Flt) (v : List Flt) : List Flt :=
  forLoop nPC (fun i v => v.set i (v.getD i Flt.nan + wts.getD i Flt.nan * g)) v

/-- Lines 193-250: the body of the loop over the samples at one site.  The
call of line 200 refills the buffer `wts`; `nwts` is the size of the buffer.
Reading `wts[0]`, or `wts[i]` with `i < nPC`, past the end of the buffer is
`undefined`. -/
def pcaSample (sq : ℚ → ℚ) (cfg : PcaCfg) (r : SrLine) (n : Nat) (s : PcaState) :
    Except Fatal PcaState :=
  if ¬ (Flt.le (Flt.ofInt 0) (s.gs n) = true ∧ Flt.le (s.gs n) (Flt.ofInt 2) = true) then
    .error .dosageRange
  else if r.wt_ret ≤ 0 then .error .noWeights
  else
    match (readWts s.wts r).head? with
    | none => .error .undefined
    | some w0 =>
      if w0.isnan then .ok { s with wts := readWts s.wts r }
      else
        let g := standardize sq r.af (s.gs n)
        let nPC := if s.nPC = 0 then compCount cfg (readWts s.wts r).length else s.nPC
        let Npca := if s.nPC = 0 then compCount cfg (readWts s.wts r).length else s.Npca
        if nPC = 0 then .error .noPCs
        else if (readWts s.wts r).length < nPC then .error .undefined
        else
          let v := accumulate nPC (readWts s.wts r) g
            (if (s.PC n).length ≠ nPC then List.replicate nPC (Flt.fin 0) else s.PC n)
          if (v.getD 0 Flt.nan).isnan then .error .nanScore
          else .ok { s with gs := Function.update s.gs n g, nPC := nPC, Npca := Npca,
                            PC := Function.update s.PC n v, wts := readWts s.wts r }

/-- Lines 145-253: what `pca` does at a record of the panel. -/
def pcaSite (sq : ℚ → ℚ) (c : GtCodec) (cfg : PcaCfg) (r : SrLine) (s : PcaState) :
    Except Fatal PcaState :=
  if r.af_ret ≤ 0 then .error .noAF
  else if r.af_ret ≠ 1 then .ok { s with gs := pcaFillGs c cfg r s.gs }
  else forLoopE cfg.N (pcaSample sq cfg r) { s with gs := pcaFillGs c cfg r s.gs }

/-- Lines 135-142: the two line counters. -/
def pcaTally (r : SrLine) (s : PcaState) : PcaState :=
  { s with n1 := if r.has1 then s.n1 + 1 else s.n1,
           n0 := if r.has0 then s.n0 + 1 else s.n0 }

/-- The body of the `while(bcf_sr_next_line(sr))` loop of `pca` (lines 133-255). -/
def pcaStep (sq : ℚ → ℚ) (c : GtCodec) (cfg : PcaCfg) (s : PcaState) (r : SrLine) :
    Except Fatal PcaState :=
  if r.has1 then pcaSite sq c cfg r (pcaTally r s) else .ok (pcaTally r s)

/-- The reading loop of `pca` over the records of the reader. -/
def pcaLoop (sq : ℚ → ℚ) (c : GtCodec) (cfg : PcaCfg) (s : PcaState) (ls : List SrLine) :
    Except Fatal PcaState :=
  ls.foldlM (pcaStep sq c cfg) s

/-- Lines 260-278: the overlap checks and the score rows, one per sample. -/
def pcaFinish (cfg : PcaCfg) (s : PcaState) : Except Fatal (List (List Flt)) :=
  if cfg.assume_homref = false ∧ overlapBelow s.n0 s.n1 = true then .error .lowOverlap
  else if s.n0 = 0 then .error .noIntersect
  else .ok ((List.range cfg.N).map (fun n => (s.PC n).take s.Npca))

/-- The function `pca`: the sample check of line 112, the reading loop, the
final checks and the rows printed. -/
def pca (sq : ℚ → ℚ) (c : GtCodec) (cfg : PcaCfg) (ls : List SrLine) :
    Except Fatal (List (List Flt)) :=
  if cfg.N = 0 then .error .noSamples
  else
    match pcaLoop sq c cfg PcaState.init ls with
    | .error e => .error e
    | .ok s => pcaFinish cfg s

/-- A panel site of a one-sample run: genotype `0/1`, `AF = 1/3`, one loading `1`. -/
def diploidSite : SrLine :=
  { has0 := true, has1 := true, gt := some [2, 4], af_ret := 1, af := Flt.fin (1 / 3),
    wt := some [Flt.fin 1] }

/-- The same panel site with a haploid genotype record (`ngt = 1`). -/
def haploidSite : SrLine :=
  { has0 := true, has1 := true, gt := some [4], af_ret := 1, af := Flt.fin (1 / 3),
    wt := some [Flt.fin 1] }

/-- One sample, no `-N`, expected-frequency policy. -/
def oneSampleCfg : PcaCfg := { N := 1, don := false, maxn := 20, assume_homref := false }

/-- The loading vector of the site: its `INFO/WEIGHT` values. -/
def SrLine.loading (r : SrLine) : List Flt := r.wt.getD []

/-- The first loading of the site is NaN. -/
def SrLine.nanLeading (r : SrLine) : Bool :=
  match r.loading.head? with
  | some w0 => w0.isnan
  | none => false

/-- The record is one `pca` scores: a panel record with exactly one AF value
whose first loading is not NaN. -/
def SrLine.scored (r : SrLine) : Bool :=
  r.has1 && decide (r.af_ret = 1) &&
    (match r.loading.head? with
     | some w0 => !w0.isnan
     | none => false)

/-- The dosage `d` as the specification words it: the sum of the sample's two
allele indices when the site is present in the genotype source and both
alleles are non-missing (`bcf_gt_is_missing` is false of both); otherwise `0`
under the assume-homozygous-reference policy and `2*af` under the
expected-frequency policy. -/
def claimDosage (c : GtCodec) (cfg : PcaCfg) (r : SrLine) (n : Nat) : Flt :=
  if r.has0 = true ∧ bcf_gt_is_missing ((r.gt.getD []).getD (2 * n) 0) = false
      ∧ bcf_gt_is_missing ((r.gt.getD []).getD (2 * n + 1) 0) = false then
    Flt.ofInt (c.bcf_gt_allele ((r.gt.getD []).getD (2 * n) 0)
      + c.bcf_gt_allele ((r.gt.getD []).getD (2 * n + 1) 0))
  else if cfg.assume_homref = true then Flt.fin 0
  else Flt.ofInt 2 * r.af

/-- The score the specification gives sample `n` on component `k`: the sum, over
the sites in stream order, of `loading[k] * (d - 2*af) / sqrt(2*af*(1-af))`,
`loading` being the loading vector of the site. -/
def claimScore (sq : ℚ → ℚ) (c : GtCodec) (cfg : PcaCfg) (ls : List SrLine) (n k : Nat) :
    Flt :=
  ls.foldl
    (fun acc r => acc + r.loading.getD k Flt.nan *
      ((claimDosage c cfg r n - Flt.ofInt 2 * r.af)
        / Flt.sqrt sq (Flt.ofInt 2 * r.af * (Flt.ofInt 1 - r.af))))
    (Flt.fin 0)

/-- The component count as the specification words it: taken from the length
of the loading vector of the first site of a stream. -/
def firstCount (cfg : PcaCfg) : List SrLine → Nat
  | [] => 0
  | r :: _ => compCount cfg r.loading.length

/-- The genotype codes of the `N` samples of a buffer hold no phased missing
allele: a code is a missing allele only when it is `bcf_gt_missing`, the one
code the program tests. -/
def PlainCodes (c : GtCodec) (N : Nat) (gt : List Int) : Prop :=
  ∀ i, i < 2 * N → (bcf_gt_is_missing (gt.getD i 0) = true ↔ gt.getD i 0 = c.bcf_gt_missing)

instance (c : GtCodec) (N : Nat) (gt : List Int) : Decidable (PlainCodes c N gt) := by
  unfold PlainCodes
  infer_instance

/-- A site of a regular stream for `N` samples and loading vectors of length
`L`: a panel record with exactly one AF value, `L` loadings of which the first
is not NaN, a diploid genotype record when the genotype source has the site,
and no phased missing allele. -/
def SrLine.regular (c : GtCodec) (N L : Nat) (r : SrLine) : Prop :=
  r.has1 = true ∧ r.af_ret = 1 ∧
  (∃ l w0, r.wt = some l ∧ l.length = L ∧ l.head? = some w0 ∧ w0.isnan = false) ∧
  (r.has0 = true → r.ngt = 2 * N) ∧ PlainCodes c N (r.gt.getD [])

/-- The state of the scores after the sites of `pre`, the loading vectors
having length `L`. -/
def ScoreInv (sq : ℚ → ℚ) (c : GtCodec) (cfg : PcaCfg) (L : Nat) (pre : List SrLine)
    (s : PcaState) : Prop :=
  s.nPC = firstCount cfg pre ∧ s.Npca = firstCount cfg pre ∧
  (pre ≠ [] → firstCount cfg pre ≠ 0) ∧ s.wts.length ≤ L ∧
  ∀ n, n < cfg.N →
    s.PC n = (List.range (firstCount cfg pre)).map (fun k => claimScore sq c cfg pre n k)

/-- One sample under the assume-homozygous-reference policy. -/
def homrefCfg : PcaCfg := { N := 1, don := false, maxn := 20, assume_homref := true }

/-- A panel site present in the genotype source with genotype `0/1`. -/
def hetSite : SrLine :=
  { has0 := true, has1 := true, gt := some [2, 4], af_ret := 1, af := Flt.fin (1 / 3),
    wt := some [Flt.fin 1, Flt.fin 2] }

/-- A panel site that the genotype source does not have. -/
def absentSite : SrLine :=
  { has0 := false, has1 := true, gt := none, af_ret := 1, af := Flt.fin (1 / 3),
    wt := some [Flt.fin 3, Flt.fin (-1)] }

/-- A panel site present in the genotype source with the missing genotype `./.`. -/
def missingSite : SrLine :=
  { has0 := true, has1 := true, gt := some [0, 0], af_ret := 1, af := Flt.fin (1 / 3),
    wt := some [Flt.fin (1 / 2), Flt.fin 1] }

/-- A panel site whose loading vector begins with NaN. -/
def nanSite : SrLine :=
  { has0 := true, has1 := true, gt := some [2, 4], af_ret := 1, af := Flt.fin (1 / 3),
    wt := some [Flt.nan, Flt.fin 1] }

/-- One sample with `-N 1`. -/
def capCfg : PcaCfg := { N := 1, don := true, maxn := 1, assume_homref := false }

/-! ## Matrices and the two builders -/

/-- An Eigen `MatrixXf`: its size, its coefficients (`none` while a coefficient
has not been written) and whether a coefficient outside `rows × cols` has been
accessed (after which the behaviour of the program is undefined). -/
structure MatrixXf where
  rows : Nat
  cols : Nat
  coeff : Nat → Nat → Option Flt
  ub : Bool

namespace MatrixXf

/-- The declaration `MatrixXf A(rows, cols)`: nothing is written yet. -/
def alloc (rows cols : Nat) : MatrixXf :=
  { rows := rows, cols := cols, coeff := fun _ _ => none, ub := false }

/-- The value of `A(j,i)`. -/
def get (A : MatrixXf) (j i : Nat) : Option Flt :=
  if j < A.rows ∧ i < A.cols then A.coeff j i else none

/-- Storing into `A(j,i)`. -/
def set (A : MatrixXf) (j i : Nat) (v : Option Flt) : MatrixXf :=
  if j < A.rows ∧ i < A.cols then
    { A with coeff := fun a b => if a = j ∧ b = i then v else A.coeff a b }
  else { A with ub := true }

/-- The assignment `A(j,i) = v`. -/
def write (A : MatrixXf) (j i : Nat) (v : Flt) : MatrixXf := A.set j i (some v)

/-- A compound assignment `A(j,i) op= ..`. -/
def modify (A : MatrixXf) (j i : Nat) (f : Flt → Flt) : MatrixXf :=
  A.set j i ((A.get j i).map f)

end MatrixXf

/-- Lines 303-306 of `DatatoMatrix`: column `i` receives the next `N` values
of `G`; the second component is the counter `ct`. -/
def fillColumn (G : List Flt) (N i : Nat) (p : MatrixXf × Nat) : MatrixXf × Nat :=
  forLoop N
    (fun j (q : MatrixXf × Nat) => (q.1.write j i (G.getD q.2 Flt.nan), q.2 + 1)) p

/-- Lines 309-314 of `DatatoMatrix`: the entry `A(j,i)` is centred and, when
`covn == 1`, scaled. -/
def centerEntry (sq : ℚ → ℚ) (AF : List Flt) (i : Nat) (covn : Int) (j : Nat)
    (B : MatrixXf) : MatrixXf :=
  if covn = 1 then
    (B.modify j i (fun a => a - AF.getD i Flt.nan)).modify j i
      (fun a => a / Flt.sqrt sq
        (Flt.ofInt 2 * (Flt.fin (1 / 2) * AF.getD i Flt.nan)
          * (Flt.ofInt 1 - Flt.fin (1 / 2) * AF.getD i Flt.nan)))
  else B.modify j i (fun a => a - AF.getD i Flt.nan)

/-- Lines 307-315 of `DatatoMatrix`: the second loop over the samples. -/
def centerColumn (sq : ℚ → ℚ) (AF : List Flt) (N i : Nat) (covn : Int) (A : MatrixXf) :
    MatrixXf :=
  forLoop N (centerEntry sq AF i covn) A

/-- The function `DatatoMatrix` (lines 298-317); `G[ct]` read past the end of
`G` is NaN here (`calcpca` passes `N*M` values). -/
def DatatoMatrix (sq : ℚ → ℚ) (A : MatrixXf) (G AF : List Flt) (N M : Nat) (covn : Int) :
    MatrixXf :=
  (forLoop M
    (fun i (p : MatrixXf × Nat) =>
      (centerColumn sq AF N i covn (fillColumn G N i p).1, (fillColumn G N i p).2))
    (A, 0)).1

/-- Lines 335-340 of `DatatoSymmMatrix`: the normaliser. -/
def symmNorm (AF : List Flt) (M : Nat) : Flt :=
  forLoop M
    (fun i nm => nm + Flt.fin (1 / 2) * AF.getD i Flt.nan
        * (Flt.fin 1 - AF.getD i Flt.nan * Flt.fin (1 / 2)))
    (Flt.fin 0)
  / Flt.ofInt 4

/-- The term added to a diagonal entry at site `i` (line 351). -/
def diagTerm (G AF : List Flt) (N i j : Nat) : Flt :=
  (G.getD (i * N + j) Flt.nan - AF.getD i Flt.nan) * (G.getD (i * N + j) Flt.nan - AF.getD i Flt.nan)
    - G.getD (i * N + j) Flt.nan * (Flt.ofInt 2 - G.getD (i * N + j) Flt.nan)

/-- The term added to an off-diagonal entry at site `i` (line 358). -/
def offTerm (G AF : List Flt) (N i j1 j2 : Nat) : Flt :=
  (G.getD (i * N + j1) Flt.nan - AF.getD i Flt.nan) * (G.getD (i * N + j2) Flt.nan - AF.getD i Flt.nan)

/-- Lines 346-363: the body of the inner loop of `DatatoSymmMatrix`. -/
def symmEntry (G AF : List Flt) (N M : Nat) (j1 j2 : Nat) (A : MatrixXf) : MatrixXf :=
  let A1 := A.write j1 j2 (Flt.ofInt 0)
  let A2 :=
    if j1 = j2 then
      forLoop M (fun i (B : MatrixXf) => B.modify j1 j2 (fun a => a + diagTerm G AF N i j1)) A1
    else
      forLoop M (fun i (B : MatrixXf) => B.modify j1 j2 (fun a => a + offTerm G AF N i j1 j2)) A1
  let A3 := A2.modify j1 j2 (fun a => a / symmNorm AF M)
  A3.set j2 j1 (A3.get j1 j2)

/-- The function `DatatoSymmMatrix` (lines 332-367). -/
def DatatoSymmMatrix (A : MatrixXf) (G AF : List Flt) (N M : Nat) : MatrixXf :=
  forLoop N
    (fun j1 (B : MatrixXf) =>
      forLoop (N - j1) (fun d (C : MatrixXf) => symmEntry G AF N M j1 (j1 + d) C) B)
    A

/-- Lines 445-567 of `calcpca`: the sample check, the reading loop, the check
on `nkept`, the allocation `MatrixXf A(N, vsize)` with `vsize = M`, and the
builder chosen by `covn`. -/
def calcpcaMatrix (sq : ℚ → ℚ) (c : GtCodec) (cfg : CalcCfg) (gt0 : List Int)
    (covn : Int) (ls : List SrLine) : Except Fatal MatrixXf :=
  if cfg.N = 0 then .error .noSamples
  else
    match calcLoop c cfg (CalcState.init gt0) ls with
    | .error e => .error e
    | .ok s =>
      if s.nkept = 0 then .error .noMarkers
      else if covn ≥ 2 then
        .ok (DatatoSymmMatrix (MatrixXf.alloc cfg.N s.nkept) s.G s.AF cfg.N s.nkept)
      else .ok (DatatoMatrix sq (MatrixXf.alloc cfg.N s.nkept) s.G s.AF cfg.N s.nkept covn)

/-- Lines 556-563: `vsize` once the matrix is built. -/
def calcVsize (N M : Nat) (covn : Int) : Nat := if covn ≥ 2 then N else M

/-- Line 596: `e = min(min(N,vsize)-npca, extra)`. -/
def clippedExtra (N vsize : Nat) (npca extra : Int) : Int :=
  min (min (N : Int) (vsize : Int) - npca) extra

/-- Line 597: the rank `npca + e` given to `RandomSVD`. -/
def randomRank (N vsize : Nat) (npca extra : Int) : Int :=
  npca + clippedExtra N vsize npca extra

/-- The entry `DatatoMatrix` computes from a dosage `g` and the stored column
mean `mu` (lines 309-314). -/
def matrixEntry (sq : ℚ → ℚ) (covn : Int) (mu g : Flt) : Flt :=
  if covn = 1 then
    (g - mu) / Flt.sqrt sq
      (Flt.ofInt 2 * (Flt.fin (1 / 2) * mu) * (Flt.ofInt 1 - Flt.fin (1 / 2) * mu))
  else g - mu

/-- The sum of a column of a matrix over the first `N` rows, in row order. -/
def colSum (A : MatrixXf) (N i : Nat) : Flt :=
  forLoop N (fun j acc => acc + (A.get j i).getD Flt.nan) (Flt.fin 0)

/-- Line 679: the allele frequency `taf = AF[idx]*0.5` written to the panel. -/
def exportedAF (mu : Flt) : Flt := mu * Flt.fin (1 / 2)

/-- The dosage of sample `j` read from a genotype buffer: the sum of its two
allele indices. -/
def pairDosage (c : GtCodec) (gt : List Int) (j : Nat) : Int :=
  c.bcf_gt_allele (gt.getD (2 * j) 0) + c.bcf_gt_allele (gt.getD (2 * j + 1) 0)

/-- Column `i` of the buffers `G` and `AF` holds integer dosages `d j` and
their mean, the allele frequency being strictly between 0 and 1. -/
def GoodCol (N : Nat) (G AF : List Flt) (i : Nat) : Prop :=
  ∃ d : Nat → Int,
    (∀ j, j < N → G.getD (i * N + j) Flt.nan = Flt.fin (d j)) ∧
    AF.getD i Flt.nan = Flt.fin ((∑ j in Finset.range N, (d j : ℚ)) / N) ∧
    0 < ∑ j in Finset.range N, d j ∧
    ∑ j in Finset.range N, d j < 2 * N

/-- What the reading loop of `calcpca` maintains when no genotype is missing. -/
def ColInv (N : Nat) (s : CalcState) : Prop :=
  s.AF.length = s.nkept ∧ s.G.length = s.nkept * N ∧
  ∀ i, i < s.nkept → GoodCol N s.G s.AF i

/-- A two-sample fixture for the matrix builders: no sites file, `m = 0`, `k = 1`. -/
def twoCfg : CalcCfg := { pfile := false, N := 2, m := Flt.fin 0, k := 1 }

/-- A record of a two-sample source with genotypes `0/0` and `1/1`. -/
def homLine : SrLine :=
  { has0 := true, has1 := false, gt := some [2, 2, 4, 4], af_ret := 0, af := Flt.nan,
    wt := none }

/-- A record of a two-sample source with genotypes `0/0` and `0/1`. -/
def mixLine : SrLine :=
  { has0 := true, has1 := false, gt := some [2, 2, 2, 4], af_ret := 0, af := Flt.nan,
    wt := none }

/-- The sum that `DatatoSymmMatrix` accumulates in `A(j1,j2)` before the
division (lines 346-360). -/
def symmSum (G AF : List Flt) (N M j1 j2 : Nat) : Flt :=
  forLoop M
    (fun i acc => acc + (if j1 = j2 then diagTerm G AF N i j1 else offTerm G AF N i j1 j2))
    (Flt.ofInt 0)

/-- The value `DatatoSymmMatrix` leaves in `A(j1,j2)` and `A(j2,j1)`. -/
def symmVal (G AF : List Flt) (N M j1 j2 : Nat) : Flt :=
  symmSum G AF N M j1 j2 / symmNorm AF M

/-- The normaliser as the specification words it: the mean over the `M` sites
of `2*p*(1-p)`, divided by 4, with `p = AF[i]/2`. -/
def claimSymmNorm (AF : List Flt) (M : Nat) : Flt :=
  Flt.fin 1 / Flt.ofInt M *
    forLoop M
      (fun i acc => acc + Flt.ofInt 2 * (Flt.fin (1 / 2) * AF.getD i Flt.nan)
        * (Flt.fin 1 - Flt.fin (1 / 2) * AF.getD i Flt.nan))
      (Flt.fin 0)
  / Flt.ofInt 4

/-- The entry `(j1,j2)` as the specification words it. -/
def claimSymmVal (G AF : List Flt) (N M j1 j2 : Nat) : Flt :=
  symmSum G AF N M j1 j2 / claimSymmNorm AF M

/-- A one-sample fixture for the matrix builders: no sites file, `m = 0`, `k = 1`. -/
def oneCfg : CalcCfg := { pfile := false, N := 1, m := Flt.fin 0, k := 1 }

/-- A record of the genotype source at a position of the panel whose alleles
match no panel record: reader 0 has a line, reader 1 has none. -/
def genoOnlyLine : SrLine :=
  { has0 := true, has1 := false, gt := some [2, 4], af_ret := 0, af := Flt.nan,
    wt := none }

/-! ## `calcpca`: columns with imputed genotypes -/

/-- Lines 514-521: the value `calcpca` pushes to `G` for sample `j` of a
retained record, `frq` being the frequency of line 494. -/
def siteDosage (c : GtCodec) (gt : List Int) (frq : Flt) (j : Nat) : Flt :=
  if gt.getD (2 * j) 0 ≠ c.bcf_gt_missing ∧ gt.getD (2 * j + 1) 0 ≠ c.bcf_gt_missing then
    Flt.ofInt (c.bcf_gt_allele (gt.getD (2 * j) 0) + c.bcf_gt_allele (gt.getD (2 * j + 1) 0))
  else Flt.ofInt 2 * frq

/-- Lines 504-524: the value `mu/(float)N` pushed to `AF`, `mu` being the sum
of the pushed dosages in sample order. -/
def colMean (c : GtCodec) (N : Nat) (gt : List Int) : Flt :=
  forLoop N (fun j acc => acc + siteDosage c gt (calcFrq c N gt) j) (Flt.fin 0) / Flt.ofInt N

/-- Sample `j` is imputed at the site: the test of line 514 fails. -/
def imputedAt (c : GtCodec) (gt : List Int) (j : Nat) : Prop :=
  ¬ (gt.getD (2 * j) 0 ≠ c.bcf_gt_missing ∧ gt.getD (2 * j + 1) 0 ≠ c.bcf_gt_missing)

instance (c : GtCodec) (gt : List Int) (j : Nat) : Decidable (imputedAt c gt j) := by
  unfold imputedAt
  infer_instance

/-- Each of the `N` samples of the buffer is fully called or fully missing:
its two alleles are both missing or both called (`bcf_gt_is_missing`). -/
def WholeCalls (N : Nat) (gt : List Int) : Prop :=
  ∀ j, j < N →
    (bcf_gt_is_missing (gt.getD (2 * j) 0) = true
      ↔ bcf_gt_is_missing (gt.getD (2 * j + 1) 0) = true)

instance (N : Nat) (gt : List Int) : Decidable (WholeCalls N gt) := by
  unfold WholeCalls
  infer_instance

/-- The two codes of each of the `N` samples pass the test
`gt_arr[i] != bcf_gt_missing` of the program together or fail it together. -/
def RawWhole (c : GtCodec) (N : Nat) (gt : List Int) : Prop :=
  ∀ j, j < N → (gt.getD (2 * j) 0 = c.bcf_gt_missing ↔ gt.getD (2 * j + 1) 0 = c.bcf_gt_missing)

/-- The genotype buffers of the records that `calcpca` retains, in stream
order, as long as the loop runs: entry `i` is the buffer behind column `i`. -/
def keptBuffers (c : GtCodec) (cfg : CalcCfg) : CalcState → List SrLine → List (List Int)
  | _, [] => []
  | s, r :: rs =>
    match calcStep c cfg s r with
    | .ok s1 =>
      (if s1.nkept = s.nkept + 1 then [readGt s.gt_arr r] else []) ++ keptBuffers c cfg s1 rs
    | .error _ => []

/-- Column `i` of `G` and `AF` was pushed from the buffer `bufs[i]`, which
passed the MAF test. -/
def KeptCol (c : GtCodec) (N : Nat) (m : Flt) (G AF : List Flt) (bufs : List (List Int))
    (i : Nat) : Prop :=
  mafPass c N m (bufs.getD i []) = true ∧
  (∀ j, j < N → G.getD (i * N + j) Flt.nan
    = siteDosage c (bufs.getD i []) (calcFrq c N (bufs.getD i [])) j) ∧
  AF.getD i Flt.nan = colMean c N (bufs.getD i [])

/-- What the reading loop of `calcpca` maintains, `bufs` being the buffers of
the records retained so far. -/
def BufInv (c : GtCodec) (cfg : CalcCfg) (s : CalcState) (bufs : List (List Int)) : Prop :=
  bufs.length = s.nkept ∧ s.AF.length = s.nkept ∧ s.G.length = s.nkept * cfg.N ∧
  ∀ i, i < s.nkept → KeptCol c cfg.N cfg.m s.G s.AF bufs i

/-- A three-sample fixture: no sites file, `m = 0`, `k = 1`. -/
def threeCfg : CalcCfg := { pfile := false, N := 3, m := Flt.fin 0, k := 1 }

/-- A record of a three-sample source with genotypes `0/0`, `0/1` and `./.`. -/
def missLineA : SrLine :=
  { has0 := true, has1 := false, gt := some [2, 2, 2, 4, 0, 0], af_ret := 0, af := Flt.nan,
    wt := none }

/-- A record of a three-sample source with genotypes `1/1`, `0/0` and `./.`. -/
def missLineB : SrLine :=
  { has0 := true, has1 := false, gt := some [4, 4, 2, 2, 0, 0], af_ret := 0, af := Flt.nan,
    wt := none }

/-! ## The column arithmetic in single precision -/

/-- The value of a `float` operation: its exact result rounded to 24
significant bits (the exponent range is not limited). -/
def Flt.r32 : Flt → Flt
  | Flt.fin q => Flt.fin (roundSig 24 q)
  | x => x

/-- Line 494 with `float` operations: `(float)mac / (float)(2*N-nmiss)`. -/
def calcFrq32 (c : GtCodec) (N : Nat) (gt : List Int) : Flt :=
  Flt.r32 (Flt.r32 (Flt.ofInt (alleleCount c N gt).1)
    / Flt.r32 (Flt.ofInt (2 * N - (alleleCount c N gt).2)))

/-- Lines 507-523 with `float` operations: the conversion `(float)(..)`, the
product `2*frq` and each `mu += G.back()` round to `float`. -/
def pushDosages32 (c : GtCodec) (N : Nat) (gt : List Int) (frq : Flt)
    (G : List Flt) : Except Fatal (List Flt × Flt) :=
  forLoopE N
    (fun i (p : List Flt × Flt) =>
      if gt.getD (2 * i) 0 < 0 ∨ gt.getD (2 * i + 1) 0 < 0 then .error .fixPloidy
      else
        let g : Flt :=
          if gt.getD (2 * i) 0 ≠ c.bcf_gt_missing ∧ gt.getD (2 * i + 1) 0 ≠ c.bcf_gt_missing then
            Flt.r32 (Flt.ofInt
              (c.bcf_gt_allele (gt.getD (2 * i) 0) + c.bcf_gt_allele (gt.getD (2 * i + 1) 0)))
          else Flt.r32 (Flt.r32 (Flt.ofInt 2) * frq)
        .ok (p.1 ++ [g], Flt.r32 (p.2 + g)))
    (G, Flt.fin 0)

/-- Line 524 with `float` operations: `mu/(float)N`. -/
def colMean32 (N : Nat) (mu : Flt) : Flt := Flt.r32 (mu / Flt.r32 (Flt.ofInt N))

/-- Lines 305-309 in mode 0 with `float` operations: `A(j,i) = G[ct++]`, then
`A(j,i) -= AF[i]`. -/
def centred32 (g af : Flt) : Flt := Flt.r32 (g - af)

/-- The buffer of a seven-sample record with genotypes `0/1`, five times
`0/0`, and `./.`. -/
def sevenBuf : List Int := [2, 4, 2, 2, 2, 2, 2, 2, 2, 2, 2, 2, 0, 0]

/-- A record of a two-sample source at a site with two alternate alleles:
genotypes `0/0` and `1/2`. -/
def triLine : SrLine :=
  { has0 := true, has1 := false, gt := some [2, 2, 4, 6], af_ret := 0, af := Flt.nan,
    wt := none }

/-- A panel site present in a one-sample genotype source with the genotype `1/2`. -/
def triSite : SrLine :=
  { has0 := true, has1 := true, gt := some [4, 6], af_ret := 1, af := Flt.fin (1 / 3),
    wt := some [Flt.fin 1, Flt.fin 2] }

/-! ## Fixtures with a phased missing allele and with loading vectors of two lengths -/

/-- A panel site present in a one-sample genotype source with the phased
half-missing genotype `1|.` (codes `4` and `1`). -/
def phasedHalfSite : SrLine :=
  { has0 := true, has1 := true, gt := some [4, 1], af_ret := 1, af := Flt.fin (1 / 3),
    wt := some [Flt.fin 1, Flt.fin 2] }

/-- The same site with the unphased half-missing genotype `1/.` (codes `4` and `0`). -/
def halfMissSite : SrLine :=
  { has0 := true, has1 := true, gt := some [4, 0], af_ret := 1, af := Flt.fin (1 / 3),
    wt := some [Flt.fin 1, Flt.fin 2] }

/-- A panel site whose loading vector has three entries and begins with NaN. -/
def nanSite3 : SrLine :=
  { has0 := true, has1 := true, gt := some [2, 4], af_ret := 1, af := Flt.fin (1 / 3),
    wt := some [Flt.nan, Flt.fin 1, Flt.fin 3] }

/-- A record of a three-sample source with genotypes `0/1`, `1/1` and the
phased missing genotype `.|.` (codes `0` and `1`). -/
def phasedMissLine : SrLine :=
  { has0 := true, has1 := false, gt := some [2, 4, 4, 4, 0, 1], af_ret := 0, af := Flt.nan,
    wt := none }

/-- The same record with the unphased missing genotype `./.` (codes `0` and `0`). -/
def plainMissLine : SrLine :=
  { has0 := true, has1 := false, gt := some [2, 4, 4, 4, 0, 0], af_ret := 0, af := Flt.nan,
    wt := none }

/-! # Theorems -/

/-! ## Counted loops -/

theorem forLoop_zero {σ : Type} (body : Nat → σ → σ) (s : σ) : forLoop 0 body s = s := rfl

theorem forLoop_succ {σ : Type} (n : Nat) (body : Nat → σ → σ) (s : σ) :
    forLoop (n + 1) body s = body n (forLoop n body s) := by
  simp [forLoop, List.range_succ, List.foldl_append]

/-- An invariant of a counted loop holds when the loop ends. -/
theorem forLoop_inv {σ : Type} (P : Nat → σ → Prop) (n : Nat) (body : Nat → σ → σ) (s : σ)
    (h0 : P 0 s) (hstep : ∀ i t, i < n → P i t → P (i + 1) (body i t)) :
    P n (forLoop n body s) := by
  induction n with
  | zero => exact h0
  | succ k ih =>
    rw [forLoop_succ]
    exact hstep k _ (Nat.lt_succ_self k)
      (ih (fun i t hi hp => hstep i t (Nat.lt_succ_of_lt hi) hp))

theorem forLoopE_zero {σ : Type} (body : Nat → σ → Except Fatal σ) (s : σ) :
    forLoopE 0 body s = .ok s := rfl

theorem forLoopE_succ {σ : Type} (n : Nat) (body : Nat → σ → Except Fatal σ) (s : σ) :
    forLoopE (n + 1) body s =
      match forLoopE n body s with
      | .error e => .error e
      | .ok t => body n t := by
  simp only [forLoopE, List.range_succ, List.foldlM_append, bind, Except.bind]
  cases List.foldlM (fun s i => body i s) s (List.range n) with
  | error e => rfl
  | ok t =>
    simp only [List.foldlM_cons, List.foldlM_nil, bind, Except.bind, pure, Except.pure]
    cases body n t <;> rfl

/-- An invariant of a counted loop with exits holds when the loop ends normally. -/
theorem forLoopE_inv {σ : Type} (P : Nat → σ → Prop) (n : Nat)
    (body : Nat → σ → Except Fatal σ) (s s1 : σ)
    (h0 : P 0 s) (hstep : ∀ i t t1, i < n → P i t → body i t = .ok t1 → P (i + 1) t1)
    (hrun : forLoopE n body s = .ok s1) : P n s1 := by
  induction n generalizing s1 with
  | zero =>
    rw [forLoopE_zero] at hrun
    injection hrun with hrun
    subst hrun
    exact h0
  | succ k ih =>
    rw [forLoopE_succ] at hrun
    cases hk : forLoopE k body s with
    | error e => simp [hk] at hrun
    | ok t =>
      simp only [hk] at hrun
      exact hstep k t s1 (Nat.lt_succ_self k)
        (ih t (fun i u u1 hi hp hb => hstep i u u1 (Nat.lt_succ_of_lt hi) hp hb) hk) hrun

/-- A counted loop with exits ends normally when its body never exits. -/
theorem forLoopE_ok {σ : Type} (P : Nat → σ → Prop) (n : Nat)
    (body : Nat → σ → Except Fatal σ) (s : σ)
    (h0 : P 0 s) (hstep : ∀ i t, i < n → P i t → ∃ t1, body i t = .ok t1 ∧ P (i + 1) t1) :
    ∃ s1, forLoopE n body s = .ok s1 ∧ P n s1 := by
  induction n with
  | zero => exact ⟨s, rfl, h0⟩
  | succ k ih =>
    obtain ⟨t, ht, hp⟩ := ih (fun i u hi hp => hstep i u (Nat.lt_succ_of_lt hi) hp)
    obtain ⟨t1, ht1, hp1⟩ := hstep k t (Nat.lt_succ_self k) hp
    exact ⟨t1, by rw [forLoopE_succ, ht]; exact ht1, hp1⟩

/-- A counted loop with exits exits when its first iteration does. -/
theorem forLoopE_first_error {σ : Type} (n : Nat) (body : Nat → σ → Except Fatal σ)
    (s : σ) (e : Fatal) (h : body 0 s = .error e) :
    forLoopE (n + 1) body s = .error e := by
  induction n with
  | zero => rw [forLoopE_succ, forLoopE_zero]; exact h
  | succ k ih => rw [forLoopE_succ, ih]

/-! ## Thinning -/

theorem calcKeep_spec (c : GtCodec) (cfg : CalcCfg) (s s1 : CalcState) (r : SrLine)
    (h : calcKeep c cfg s r = .ok s1) :
    s1.count = s.count + (if mafPass c cfg.N cfg.m (readGt s.gt_arr r) then 1 else 0) ∧
    s1.nline = s.nline ∧
    ((mafPass c cfg.N cfg.m (readGt s.gt_arr r) = true ∧ Int.tmod s1.count cfg.k = 0) →
      s1.nkept = s.nkept + 1 ∧ s1.sites = s.sites ++ [s.nline]) ∧
    (¬ (mafPass c cfg.N cfg.m (readGt s.gt_arr r) = true ∧ Int.tmod s1.count cfg.k = 0) →
      s1.nkept = s.nkept ∧ s1.sites = s.sites ∧ s1.G = s.G ∧ s1.AF = s.AF) := by
  unfold calcKeep at h
  by_cases hn : r.ngt < 0
  · simp [hn] at h
  by_cases hk : cfg.k = 0
  · simp [hn, hk] at h
  by_cases hp : mafPass c cfg.N cfg.m (readGt s.gt_arr r) = true
  · by_cases hm : Int.tmod ((s.count + 1 : Nat) : Int) cfg.k = 0
    · simp only [hn, hk, hp, hm, if_true, if_false, and_self] at h
      split at h
      · exact absurd h (by simp)
      · injection h with h
        subst h
        push_cast at hm
        simp [hp, hm]
    · simp only [hn, hk, hp, hm, if_true, if_false, false_and] at h
      injection h with h
      subst h
      push_cast at hm
      simp [hp, hm]
  · simp only [hn, hk, hp, if_false, and_false, Bool.false_eq_true] at h
    injection h with h
    subst h
    simp [hp]

theorem calcStep_spec (c : GtCodec) (cfg : CalcCfg) (s s1 : CalcState) (r : SrLine)
    (h : calcStep c cfg s r = .ok s1) :
    s1.count = s.count + (if qualifies c cfg s r then 1 else 0) ∧
    ((qualifies c cfg s r = true ∧ Int.tmod s1.count cfg.k = 0) →
      s1.nkept = s.nkept + 1 ∧ s1.sites = s.sites ++ [s.nline]) ∧
    (¬ (qualifies c cfg s r = true ∧ Int.tmod s1.count cfg.k = 0) →
      s1.nkept = s.nkept ∧ s1.sites = s.sites ∧ s1.G = s.G ∧ s1.AF = s.AF) := by
  unfold calcStep at h
  by_cases hr : calcReads cfg r = true
  · simp only [hr, if_true] at h
    split at h
    · exact absurd h (by simp)
    · rename_i s2 hs2
      injection h with h
      subst h
      obtain ⟨h1, _, h3, h4⟩ := calcKeep_spec c cfg s s2 r hs2
      refine ⟨?_, ?_, ?_⟩ <;> simp only [qualifies, hr, calcTally, Bool.true_and]
      · exact h1
      · exact h3
      · exact h4
  · simp only [hr, if_false, Bool.false_eq_true] at h
    injection h with h
    subst h
    simp [qualifies, hr, calcTally]

theorem calcLoop_nil (c : GtCodec) (cfg : CalcCfg) (s : CalcState) :
    calcLoop c cfg s [] = .ok s := rfl

theorem calcLoop_cons (c : GtCodec) (cfg : CalcCfg) (s : CalcState) (r : SrLine)
    (rs : List SrLine) :
    calcLoop c cfg s (r :: rs) =
      match calcStep c cfg s r with
      | .error e => .error e
      | .ok s1 => calcLoop c cfg s1 rs := by
  simp only [calcLoop, List.foldlM_cons, bind, Except.bind]
  cases calcStep c cfg s r <;> rfl

theorem calcLoop_snoc (c : GtCodec) (cfg : CalcCfg) (s s1 s2 : CalcState)
    (pre : List SrLine) (r : SrLine)
    (h1 : calcLoop c cfg s pre = .ok s1) (h2 : calcStep c cfg s1 r = .ok s2) :
    calcLoop c cfg s (pre ++ [r]) = .ok s2 := by
  induction pre generalizing s with
  | nil =>
    rw [calcLoop_nil] at h1
    injection h1 with h1
    subst h1
    simp [calcLoop_cons, h2, calcLoop_nil]
  | cons a as ih =>
    rw [calcLoop_cons] at h1
    rw [List.cons_append, calcLoop_cons]
    cases ha : calcStep c cfg s a with
    | error e => simp [ha] at h1
    | ok s3 =>
      simp only [ha] at h1 ⊢
      exact ih s3 h1

theorem calcLoop_count (c : GtCodec) (cfg : CalcCfg) (s s1 : CalcState)
    (ls : List SrLine) (h : calcLoop c cfg s ls = .ok s1) :
    s1.count = s.count + qualCount c cfg s ls := by
  induction ls generalizing s with
  | nil =>
    rw [calcLoop_nil] at h
    injection h with h
    subst h
    simp [qualCount]
  | cons a as ih =>
    rw [calcLoop_cons] at h
    cases ha : calcStep c cfg s a with
    | error e => simp [ha] at h
    | ok s3 =>
      simp only [ha] at h
      have h3 := ih s3 h
      have h4 := (calcStep_spec c cfg s s3 a ha).1
      simp only [qualCount, ha]
      omega

/-- C1. Thinning in `calcpca` is count-then-modulo.  The counter starts at 0;
after any prefix `pre` of the stream the loop has run through, the next record
`r` raises the counter by one exactly when it is read and passes the MAF
filter, the raised counter `j` being the rank of `r` among the qualifying
records; `r` is retained (a site and a column are appended) if and only if it
qualifies and `k` divides `j`; a record that is not retained leaves `nkept`,
`sites`, `G` and `AF` as they were; with `k = 2` the retained ones among the
first 10 qualifying records are the 2nd, 4th, 6th, 8th and 10th. -/
theorem calcpca_thinning (c : GtCodec) (cfg : CalcCfg) (gt0 : List Int)
    (pre : List SrLine) (r : SrLine) (s s1 : CalcState)
    (hpre : calcLoop c cfg (CalcState.init gt0) pre = .ok s)
    (hr : calcStep c cfg s r = .ok s1) :
    (CalcState.init gt0).count = 0 ∧
    s.count = qualCount c cfg (CalcState.init gt0) pre ∧
    s1.count = s.count + (if qualifies c cfg s r then 1 else 0) ∧
    s1.count = qualCount c cfg (CalcState.init gt0) (pre ++ [r]) ∧
    ((s1.nkept = s.nkept + 1 ∧ s1.sites = s.sites ++ [s.nline]) ↔
      (qualifies c cfg s r = true ∧ cfg.k ∣ (s1.count : Int))) ∧
    (¬ (qualifies c cfg s r = true ∧ cfg.k ∣ (s1.count : Int)) →
      s1.nkept = s.nkept ∧ s1.sites = s.sites ∧ s1.G = s.G ∧ s1.AF = s.AF) ∧
    (cfg.k = 2 → qualifies c cfg s r = true → s1.count ≤ 10 →
      ((s1.nkept = s.nkept + 1 ∧ s1.sites = s.sites ++ [s.nline]) ↔
        (s1.count = 2 ∨ s1.count = 4 ∨ s1.count = 6 ∨ s1.count = 8 ∨ s1.count = 10))) := by
  have hs := calcStep_spec c cfg s s1 r hr
  have hc := calcLoop_count c cfg _ s pre hpre
  have hc1 := calcLoop_count c cfg _ s1 (pre ++ [r]) (calcLoop_snoc c cfg _ s s1 pre r hpre hr)
  have hinit : (CalcState.init gt0).count = 0 := rfl
  rw [hinit, Nat.zero_add] at hc hc1
  have hiff : (s1.nkept = s.nkept + 1 ∧ s1.sites = s.sites ++ [s.nline]) ↔
      (qualifies c cfg s r = true ∧ cfg.k ∣ (s1.count : Int)) := by
    rw [Int.dvd_iff_tmod_eq_zero]
    constructor
    · intro hk
      by_contra hcon
      have := (hs.2.2 hcon).1
      omega
    · exact hs.2.1
  refine ⟨hinit, hc, hs.1, hc1, hiff, ?_, ?_⟩
  · intro hcon
    rw [Int.dvd_iff_tmod_eq_zero] at hcon
    exact hs.2.2 hcon
  · intro hk hq hle
    rw [hiff, hk]
    simp only [hq, true_and]
    constructor
    · intro hd
      have : (2 : Int) ∣ (s1.count : Int) := hd
      have h1 : 1 ≤ s1.count := by
        have := hs.1
        simp only [hq, if_true] at this
        omega
      omega
    · intro hd
      rcases hd with h | h | h | h | h <;> rw [h] <;> decide

theorem thin_fixture_nine :
    calcLoop htslibCodec thinCfg (CalcState.init [0, 0]) (List.replicate 9 hetLine)
      = .ok (thinState 9) := by
  decide!

theorem thin_fixture_tenth :
    calcStep htslibCodec thinCfg (thinState 9) hetLine = .ok (thinState 10) := by
  decide!

/-- The thinning fixture: ten qualifying records with `k = 2`; the loop keeps
the 2nd, 4th, 6th, 8th and 10th (lines 1, 3, 5, 7, 9 counted from 0); the
count-then-modulo rule is applied to the tenth record. -/
theorem calcpca_thinning_witness :
    calcLoop htslibCodec thinCfg (CalcState.init [0, 0]) (List.replicate 9 hetLine)
      = .ok (thinState 9) ∧
    calcStep htslibCodec thinCfg (thinState 9) hetLine = .ok (thinState 10) ∧
    (thinState 10).sites = [1, 3, 5, 7, 9] ∧
    ((CalcState.init [0, 0]).count = 0 ∧
    (thinState 9).count
      = qualCount htslibCodec thinCfg (CalcState.init [0, 0]) (List.replicate 9 hetLine) ∧
    (thinState 10).count = (thinState 9).count +
      (if qualifies htslibCodec thinCfg (thinState 9) hetLine then 1 else 0) ∧
    (thinState 10).count
      = qualCount htslibCodec thinCfg (CalcState.init [0, 0])
          (List.replicate 9 hetLine ++ [hetLine]) ∧
    (((thinState 10).nkept = (thinState 9).nkept + 1 ∧
        (thinState 10).sites = (thinState 9).sites ++ [(thinState 9).nline]) ↔
      (qualifies htslibCodec thinCfg (thinState 9) hetLine = true ∧
        thinCfg.k ∣ ((thinState 10).count : Int))) ∧
    (¬ (qualifies htslibCodec thinCfg (thinState 9) hetLine = true ∧
        thinCfg.k ∣ ((thinState 10).count : Int)) →
      (thinState 10).nkept = (thinState 9).nkept ∧
      (thinState 10).sites = (thinState 9).sites ∧
      (thinState 10).G = (thinState 9).G ∧ (thinState 10).AF = (thinState 9).AF) ∧
    (thinCfg.k = 2 → qualifies htslibCodec thinCfg (thinState 9) hetLine = true →
      (thinState 10).count ≤ 10 →
      (((thinState 10).nkept = (thinState 9).nkept + 1 ∧
        (thinState 10).sites = (thinState 9).sites ++ [(thinState 9).nline]) ↔
        ((thinState 10).count = 2 ∨ (thinState 10).count = 4 ∨ (thinState 10).count = 6 ∨
          (thinState 10).count = 8 ∨ (thinState 10).count = 10)))) :=
  ⟨thin_fixture_nine, thin_fixture_tenth, by decide,
    calcpca_thinning htslibCodec thinCfg [0, 0] (List.replicate 9 hetLine) hetLine
      (thinState 9) (thinState 10) thin_fixture_nine thin_fixture_tenth⟩

/-! ## Projection: one sample at one site -/

/-- Refilling the buffer twice with the same site is refilling it once. -/
theorem readWts_readWts (buf : List Flt) (r : SrLine) :
    readWts (readWts buf r) r = readWts buf r := by
  unfold readWts
  cases r.wt with
  | none => rfl
  | some l => simp

/-- A buffer no longer than the loading vector of the site is that vector after
the call. -/
theorem readWts_fit (buf l : List Flt) (r : SrLine) (hw : r.wt = some l)
    (hb : buf.length ≤ l.length) : readWts buf r = l := by
  unfold readWts
  rw [hw]
  simp [List.drop_eq_nil_of_le hb]

/-- The buffer never shrinks, and it holds at least the values of the site. -/
theorem readWts_length (buf : List Flt) (r : SrLine) :
    buf.length ≤ (readWts buf r).length ∧ r.loading.length ≤ (readWts buf r).length := by
  unfold readWts SrLine.loading
  cases r.wt with
  | none => simp
  | some l =>
    simp only [List.length_append, List.length_drop, Option.getD_some]
    omega

/-- After a call that returned a positive count, the first entry of the buffer
is the first loading of the site. -/
theorem readWts_head (buf : List Flt) (r : SrLine) (h : 0 < r.wt_ret) :
    (readWts buf r).head? = r.loading.head? := by
  unfold SrLine.wt_ret at h
  unfold readWts SrLine.loading
  cases hw : r.wt with
  | none => rw [hw] at h; exact absurd h (by decide)
  | some l =>
    rw [hw] at h
    cases l with
    | nil => exact absurd h (by decide)
    | cons a as => rfl

/-- What a normal return of `pcaSample` says: the buffer is refilled, and
either its leading entry is NaN and nothing else changed, or the sample was
scored. -/
theorem pcaSample_ok (sq : ℚ → ℚ) (cfg : PcaCfg) (r : SrLine) (n : Nat) (s t : PcaState)
    (h : pcaSample sq cfg r n s = .ok t) :
    0 < r.wt_ret ∧ t.wts = readWts s.wts r ∧
    ∃ w0, (readWts s.wts r).head? = some w0 ∧
      ((w0.isnan = true ∧ t = { s with wts := readWts s.wts r }) ∨
       (w0.isnan = false ∧
        (if s.nPC = 0 then compCount cfg (readWts s.wts r).length else s.nPC) ≠ 0 ∧
        t.n0 = s.n0 ∧ t.n1 = s.n1 ∧
        t.nPC = (if s.nPC = 0 then compCount cfg (readWts s.wts r).length else s.nPC) ∧
        t.Npca = (if s.nPC = 0 then compCount cfg (readWts s.wts r).length else s.Npca) ∧
        t.gs = Function.update s.gs n (standardize sq r.af (s.gs n)) ∧
        t.PC = Function.update s.PC n
          (accumulate (if s.nPC = 0 then compCount cfg (readWts s.wts r).length else s.nPC)
            (readWts s.wts r) (standardize sq r.af (s.gs n))
            (if (s.PC n).length
                ≠ (if s.nPC = 0 then compCount cfg (readWts s.wts r).length else s.nPC) then
              List.replicate
                (if s.nPC = 0 then compCount cfg (readWts s.wts r).length else s.nPC) (Flt.fin 0)
             else s.PC n)))) := by
  unfold pcaSample at h
  by_cases hrange : ¬ (Flt.le (Flt.ofInt 0) (s.gs n) = true ∧ Flt.le (s.gs n) (Flt.ofInt 2) = true)
  · rw [if_pos hrange] at h
    exact absurd h (by simp)
  rw [if_neg hrange] at h
  by_cases hret : r.wt_ret ≤ 0
  · rw [if_pos hret] at h
    exact absurd h (by simp)
  rw [if_neg hret] at h
  generalize readWts s.wts r = W at h ⊢
  cases hw0 : W.head? with
  | none =>
    rw [hw0] at h
    exact absurd h (by simp)
  | some w0 =>
    rw [hw0] at h
    simp only at h
    by_cases hnan : w0.isnan = true
    · rw [if_pos hnan] at h
      injection h with h
      subst h
      exact ⟨by omega, rfl, w0, rfl, Or.inl ⟨hnan, rfl⟩⟩
    · rw [if_neg hnan] at h
      generalize (if s.nPC = 0 then compCount cfg W.length else s.nPC) = K at h ⊢
      generalize (if s.nPC = 0 then compCount cfg W.length else s.Npca) = K1 at h ⊢
      by_cases hK : K = 0
      · simp [hK] at h
      by_cases hl : W.length < K
      · simp [hK, hl] at h
      simp only [hK, hl, if_false] at h
      generalize (if (s.PC n).length ≠ K then List.replicate K (Flt.fin 0) else s.PC n) = v0
        at h ⊢
      by_cases hv : ((accumulate K W (standardize sq r.af (s.gs n)) v0).getD 0 Flt.nan).isnan
          = true
      · rw [if_pos hv] at h
        exact absurd h (by simp)
      rw [if_neg hv] at h
      injection h with h
      subst h
      exact ⟨by omega, rfl, w0, rfl,
        Or.inr ⟨by simpa using hnan, hK, rfl, rfl, rfl, rfl, rfl, rfl⟩⟩

/-! ## Projection: the component count -/

theorem pcaLoop_nil (sq : ℚ → ℚ) (c : GtCodec) (cfg : PcaCfg) (s : PcaState) :
    pcaLoop sq c cfg s [] = .ok s := rfl

theorem pcaLoop_cons (sq : ℚ → ℚ) (c : GtCodec) (cfg : PcaCfg) (s : PcaState) (r : SrLine)
    (rs : List SrLine) :
    pcaLoop sq c cfg s (r :: rs) =
      match pcaStep sq c cfg s r with
      | .error e => .error e
      | .ok s1 => pcaLoop sq c cfg s1 rs := by
  simp only [pcaLoop, List.foldlM_cons, bind, Except.bind]
  cases pcaStep sq c cfg s r <;> rfl

/-- What a normal return of `pcaStep` says. -/
theorem pcaStep_ok (sq : ℚ → ℚ) (c : GtCodec) (cfg : PcaCfg) (s t : PcaState) (r : SrLine)
    (h : pcaStep sq c cfg s r = .ok t) :
    (r.has1 = false ∧ t = pcaTally r s) ∨
    (r.has1 = true ∧ 0 < r.af_ret ∧ r.af_ret ≠ 1 ∧
      t = { pcaTally r s with gs := pcaFillGs c cfg r s.gs }) ∨
    (r.has1 = true ∧ r.af_ret = 1 ∧
      forLoopE cfg.N (pcaSample sq cfg r)
        { pcaTally r s with gs := pcaFillGs c cfg r s.gs } = .ok t) := by
  unfold pcaStep at h
  by_cases h1 : r.has1 = true
  · rw [if_pos h1] at h
    unfold pcaSite at h
    by_cases ha : r.af_ret ≤ 0
    · rw [if_pos ha] at h
      exact absurd h (by simp)
    rw [if_neg ha] at h
    by_cases hb : r.af_ret ≠ 1
    · rw [if_pos hb] at h
      injection h with h
      exact Or.inr (Or.inl ⟨h1, by omega, hb, h.symm⟩)
    · rw [if_neg hb] at h
      exact Or.inr (Or.inr ⟨h1, by omega, h⟩)
  · rw [if_neg h1] at h
    injection h with h
    exact Or.inl ⟨by simpa using h1, h.symm⟩

/-- Once set, the component count stays. -/
theorem pcaStep_nPC_fixed (sq : ℚ → ℚ) (c : GtCodec) (cfg : PcaCfg) (s t : PcaState)
    (r : SrLine) (hK : s.nPC ≠ 0) (h : pcaStep sq c cfg s r = .ok t) :
    t.nPC = s.nPC ∧ t.Npca = s.Npca := by
  rcases pcaStep_ok sq c cfg s t r h with ⟨_, ht⟩ | ⟨_, _, _, ht⟩ | ⟨_, _, ht⟩
  · subst ht; exact ⟨rfl, rfl⟩
  · subst ht; exact ⟨rfl, rfl⟩
  · refine forLoopE_inv (fun _ u => u.nPC = s.nPC ∧ u.Npca = s.Npca) cfg.N _ _ t
      ⟨rfl, rfl⟩ ?_ ht
    intro i u u1 _ hu hb
    obtain ⟨_, _, w0, _, hc | hc⟩ := pcaSample_ok sq cfg r i u u1 hb
    · rw [hc.2]; exact hu
    · obtain ⟨_, _, _, _, h5, h6, _, _⟩ := hc
      have hu0 : u.nPC ≠ 0 := by rw [hu.1]; exact hK
      rw [h5, h6, if_neg hu0, if_neg hu0]
      exact hu

/-- A record that is not scored leaves the component count and the scores
alone; the buffer of the loadings only grows. -/
theorem pcaStep_skip (sq : ℚ → ℚ) (c : GtCodec) (cfg : PcaCfg) (s t : PcaState)
    (r : SrLine) (hr : r.scored = false) (h : pcaStep sq c cfg s r = .ok t) :
    t.nPC = s.nPC ∧ t.Npca = s.Npca ∧ t.PC = s.PC ∧ s.wts.length ≤ t.wts.length := by
  rcases pcaStep_ok sq c cfg s t r h with ⟨_, ht⟩ | ⟨_, _, _, ht⟩ | ⟨h1, ha, ht⟩
  · subst ht; exact ⟨rfl, rfl, rfl, Nat.le_refl _⟩
  · subst ht; exact ⟨rfl, rfl, rfl, Nat.le_refl _⟩
  · refine forLoopE_inv
      (fun _ u => u.nPC = s.nPC ∧ u.Npca = s.Npca ∧ u.PC = s.PC ∧ s.wts.length ≤ u.wts.length)
      cfg.N _ _ t ⟨rfl, rfl, rfl, Nat.le_refl _⟩ ?_ ht
    intro i u u1 _ hu hb
    obtain ⟨hret, _, w0, hw, hc | hc⟩ := pcaSample_ok sq cfg r i u u1 hb
    · rw [hc.2]
      exact ⟨hu.1, hu.2.1, hu.2.2.1, Nat.le_trans hu.2.2.2 (readWts_length u.wts r).1⟩
    · exfalso
      rw [readWts_head u.wts r hret] at hw
      simp [SrLine.scored, h1, ha, hw, hc.1] at hr

/-- The first scored site fixes the component count from the size of the
buffer after the call of line 200, and `0` is refused. -/
theorem pcaStep_first (sq : ℚ → ℚ) (c : GtCodec) (cfg : PcaCfg) (s t : PcaState)
    (r : SrLine) (hN : 0 < cfg.N) (hK : s.nPC = 0) (hr : r.scored = true)
    (h : pcaStep sq c cfg s r = .ok t) :
    t.nPC = compCount cfg (readWts s.wts r).length ∧
    t.Npca = compCount cfg (readWts s.wts r).length ∧
    compCount cfg (readWts s.wts r).length ≠ 0 := by
  have hsc : r.has1 = true ∧ r.af_ret = 1 ∧
      ∀ w0, r.loading.head? = some w0 → w0.isnan = false := by
    unfold SrLine.scored at hr
    cases hw : r.loading.head? with
    | none => simp [hw] at hr
    | some w =>
      simp only [hw, Bool.and_eq_true, decide_eq_true_eq, Bool.not_eq_true'] at hr
      exact ⟨hr.1.1, hr.1.2, fun w0 h0 => by injection h0 with h0; rw [← h0]; exact hr.2⟩
  rcases pcaStep_ok sq c cfg s t r h with ⟨h1, _⟩ | ⟨_, _, ha, _⟩ | ⟨_, _, ht⟩
  · rw [hsc.1] at h1; exact absurd h1 (by simp)
  · exact absurd hsc.2.1 ha
  · have key := forLoopE_inv
      (fun i u => readWts u.wts r = readWts s.wts r ∧
        ((i = 0 ∧ u.nPC = 0) ∨
         (0 < i ∧ u.nPC = compCount cfg (readWts s.wts r).length ∧
          u.Npca = compCount cfg (readWts s.wts r).length ∧
          compCount cfg (readWts s.wts r).length ≠ 0)))
      cfg.N _ _ t ⟨rfl, Or.inl ⟨rfl, hK⟩⟩ ?_ ht
    · rcases key.2 with ⟨h0, _⟩ | ⟨_, h2⟩
      · omega
      · exact h2
    · intro i u u1 _ hu hb
      obtain ⟨hW, hu⟩ := hu
      obtain ⟨hret, hwts, w0, hw, hc | hc⟩ := pcaSample_ok sq cfg r i u u1 hb
      · rw [readWts_head u.wts r hret] at hw
        have := hsc.2.2 w0 hw
        rw [hc.1] at this
        exact absurd this (by simp)
      · obtain ⟨_, h2, _, _, h5, h6, _, _⟩ := hc
        rw [hW] at h2 h5 h6
        refine ⟨by rw [hwts, readWts_readWts, hW], Or.inr ?_⟩
        rcases hu with ⟨_, hu0⟩ | ⟨_, hu1, hu2, hu3⟩
        · rw [if_pos hu0] at h2 h5 h6
          exact ⟨Nat.succ_pos i, h5, h6, h2⟩
        · have hne : u.nPC ≠ 0 := by rw [hu1]; exact hu3
          rw [if_neg hne] at h5 h6
          exact ⟨Nat.succ_pos i, by rw [h5, hu1], by rw [h6, hu2], hu3⟩

theorem compCount_cast (cfg : PcaCfg) (nwts : Nat) :
    ((compCount cfg nwts : Nat) : Int) =
      if cfg.don = true ∧ 0 < cfg.maxn then min cfg.maxn (nwts : Int) else (nwts : Int) := by
  unfold compCount
  by_cases hd : cfg.don = true
  · by_cases hm : 0 < cfg.maxn
    · simp only [hd, hm, if_true, gt_iff_lt, and_self]
      omega
    · simp [hd, hm]
  · simp [hd]

theorem pcaLoop_nPC_fixed (sq : ℚ → ℚ) (c : GtCodec) (cfg : PcaCfg) (ls : List SrLine)
    (s t : PcaState) (hK : s.nPC ≠ 0) (h : pcaLoop sq c cfg s ls = .ok t) :
    t.nPC = s.nPC ∧ t.Npca = s.Npca := by
  induction ls generalizing s with
  | nil =>
    rw [pcaLoop_nil] at h
    injection h with h
    subst h
    exact ⟨rfl, rfl⟩
  | cons a as ih =>
    rw [pcaLoop_cons] at h
    cases ha : pcaStep sq c cfg s a with
    | error e => simp [ha] at h
    | ok u =>
      simp only [ha] at h
      have h1 := pcaStep_nPC_fixed sq c cfg s u a hK ha
      have h2 := ih u (by rw [h1.1]; exact hK) h
      exact ⟨by rw [h2.1, h1.1], by rw [h2.2, h1.2]⟩

/-- In a run over `pre ++ r :: post` where no record of `pre` is scored and `r`
is, the component count is taken at `r` from the size the buffer has after the
records of `pre`, which have left the scores alone. -/
theorem pcaLoop_first (sq : ℚ → ℚ) (c : GtCodec) (cfg : PcaCfg) (hN : 0 < cfg.N)
    (pre : List SrLine) (r : SrLine) (post : List SrLine) (s t : PcaState)
    (hK : s.nPC = 0) (hpre : ∀ x ∈ pre, x.scored = false) (hr : r.scored = true)
    (h : pcaLoop sq c cfg s (pre ++ r :: post) = .ok t) :
    ∃ u, pcaLoop sq c cfg s pre = .ok u ∧ u.PC = s.PC ∧ s.wts.length ≤ u.wts.length ∧
      t.nPC = compCount cfg (readWts u.wts r).length ∧
      t.Npca = compCount cfg (readWts u.wts r).length ∧
      compCount cfg (readWts u.wts r).length ≠ 0 := by
  induction pre generalizing s with
  | nil =>
    rw [List.nil_append, pcaLoop_cons] at h
    cases ha : pcaStep sq c cfg s r with
    | error e => simp [ha] at h
    | ok u =>
      simp only [ha] at h
      have h1 := pcaStep_first sq c cfg s u r hN hK hr ha
      have h2 := pcaLoop_nPC_fixed sq c cfg post u t (by rw [h1.1]; exact h1.2.2) h
      exact ⟨s, rfl, rfl, Nat.le_refl _, by rw [h2.1, h1.1], by rw [h2.2, h1.2.1], h1.2.2⟩
  | cons a as ih =>
    rw [List.cons_append, pcaLoop_cons] at h
    cases ha : pcaStep sq c cfg s a with
    | error e => simp [ha] at h
    | ok u =>
      simp only [ha] at h
      have h1 := pcaStep_skip sq c cfg s u a (hpre a (List.mem_cons_self a as)) ha
      obtain ⟨v, v1, v2, v3, v4⟩ := ih u (by rw [h1.1]; exact hK)
        (fun x hx => hpre x (List.mem_cons_of_mem a hx)) h
      refine ⟨v, ?_, by rw [v2, h1.2.2.1], Nat.le_trans h1.2.2.2 v3, v4⟩
      rw [pcaLoop_cons, ha]
      exact v1

theorem nanLeading_not_scored (r : SrLine) (h : r.nanLeading = true) : r.scored = false := by
  unfold SrLine.nanLeading at h
  unfold SrLine.scored
  cases hw : r.loading.head? with
  | none => simp
  | some w =>
    rw [hw] at h
    simp only at h
    simp [h]

/-- What the program does about the component count.  In a run over
`pre ++ r :: post` where no record of `pre` is scored and `r` is the first
scored site, a run that completes has `K = min(maxn, nwts)` when `don` holds
and `maxn > 0`, and `K = nwts` otherwise, with `K ≠ 0`, where `nwts` is the
size of the buffer after the call of line 200 at `r`: at least the length of
the loading vector of `r`, and at least the size the records of `pre` left.
Once `K` is set no record changes it, and a site whose loading vector begins
with NaN leaves `K` and every score vector unchanged. -/
theorem pcaLoop_component_count (sq : ℚ → ℚ) (c : GtCodec) (cfg : PcaCfg) (hN : 0 < cfg.N) :
    (∀ (pre post : List SrLine) (r : SrLine) (t : PcaState),
      (∀ x ∈ pre, x.scored = false) → r.scored = true →
      pcaLoop sq c cfg PcaState.init (pre ++ r :: post) = .ok t →
      ∃ u, pcaLoop sq c cfg PcaState.init pre = .ok u ∧
        ((t.nPC : Int) = if cfg.don = true ∧ 0 < cfg.maxn
            then min cfg.maxn ((readWts u.wts r).length : Int)
            else ((readWts u.wts r).length : Int)) ∧
        u.wts.length ≤ (readWts u.wts r).length ∧
        r.loading.length ≤ (readWts u.wts r).length ∧
        t.nPC ≠ 0 ∧ t.Npca = t.nPC) ∧
    (∀ (s t : PcaState) (r : SrLine), s.nPC ≠ 0 → pcaStep sq c cfg s r = .ok t →
      t.nPC = s.nPC ∧ t.Npca = s.Npca) ∧
    (∀ (s t : PcaState) (r : SrLine), r.nanLeading = true → pcaStep sq c cfg s r = .ok t →
      t.nPC = s.nPC ∧ t.Npca = s.Npca ∧ t.PC = s.PC) := by
  refine ⟨?_, ?_, ?_⟩
  · intro pre post r t hpre hr h
    obtain ⟨u, u1, _, _, u4, u5, u6⟩ :=
      pcaLoop_first sq c cfg hN pre r post PcaState.init t rfl hpre hr h
    refine ⟨u, u1, ?_, (readWts_length u.wts r).1, (readWts_length u.wts r).2, ?_, ?_⟩
    · rw [u4]; exact compCount_cast cfg _
    · rw [u4]; exact u6
    · rw [u4, u5]
  · intro s t r hK h
    exact pcaStep_nPC_fixed sq c cfg s t r hK h
  · intro s t r hr h
    obtain ⟨k1, k2, k3, _⟩ := pcaStep_skip sq c cfg s t r (nanLeading_not_scored r hr) h
    exact ⟨k1, k2, k3⟩

/-! ## Projection: the scores -/

/-- The entries of a score vector after `accumulate`. -/
theorem accumulate_getElem? (K : Nat) (wts : List Flt) (g : Flt) (v : List Flt) (k : Nat) :
    (accumulate K wts g v)[k]? =
      if k < K then v[k]?.map (fun a => a + wts.getD k Flt.nan * g) else v[k]? := by
  unfold accumulate
  refine forLoop_inv
    (fun j u => ∀ k, u[k]? =
      if k < j then v[k]?.map (fun a => a + wts.getD k Flt.nan * g) else v[k]?)
    K _ v (fun k => by simp) ?_ k
  intro i u _ hu k
  rw [List.getElem?_set]
  by_cases hik : i = k
  · subst hik
    have hi := hu i
    simp only [Nat.lt_irrefl, if_false] at hi
    simp only [if_true, Nat.lt_succ_self, List.getD_eq_getElem?_getD, hi]
    cases hv : v[i]? with
    | none =>
      have : ¬ i < u.length := by
        intro hlt
        rw [List.getElem?_eq_getElem hlt] at hi
        rw [hv] at hi
        exact absurd hi (by simp)
      simp [this]
    | some a =>
      have : i < u.length := by
        by_contra hlt
        rw [List.getElem?_eq_none (by omega)] at hi
        rw [hv] at hi
        exact absurd hi (by simp)
      simp [this]
  · rw [if_neg hik, hu k]
    by_cases hk : k < i
    · rw [if_pos hk, if_pos (Nat.lt_succ_of_lt hk)]
    · rw [if_neg hk, if_neg (by omega)]

/-- `accumulate` on a vector given entry by entry. -/
theorem accumulate_map (K : Nat) (wts : List Flt) (g : Flt) (f : Nat → Flt) :
    accumulate K wts g ((List.range K).map f) =
      (List.range K).map (fun k => f k + wts.getD k Flt.nan * g) := by
  apply List.ext_getElem?
  intro k
  rw [accumulate_getElem?]
  by_cases hk : k < K
  · simp [hk, List.getElem?_range hk]
  · have hn : (List.range K)[k]? = none := List.getElem?_eq_none (by simp; omega)
    simp [hk, hn]

/-- Without a phased missing allele the dosage of the program is the dosage of
the specification. -/
theorem pcaDosage_eq_claim (c : GtCodec) (cfg : PcaCfg) (r : SrLine) (n : Nat)
    (hp : PlainCodes c cfg.N (r.gt.getD [])) (hn : n < cfg.N) :
    pcaDosage c cfg r n = claimDosage c cfg r n := by
  unfold pcaDosage claimDosage
  have h0 := hp (2 * n) (by omega)
  have h1 := hp (2 * n + 1) (by omega)
  have e : (r.has0 = true ∧ (r.gt.getD []).getD (2 * n) 0 ≠ c.bcf_gt_missing
        ∧ (r.gt.getD []).getD (2 * n + 1) 0 ≠ c.bcf_gt_missing)
      ↔ (r.has0 = true ∧ bcf_gt_is_missing ((r.gt.getD []).getD (2 * n) 0) = false
        ∧ bcf_gt_is_missing ((r.gt.getD []).getD (2 * n + 1) 0) = false) := by
    rw [ne_eq, ne_eq, ← h0, ← h1]
    simp
  by_cases hc : r.has0 = true ∧ (r.gt.getD []).getD (2 * n) 0 ≠ c.bcf_gt_missing
        ∧ (r.gt.getD []).getD (2 * n + 1) 0 ≠ c.bcf_gt_missing
  · rw [if_pos hc, if_pos (e.mp hc)]
  · rw [if_neg hc, if_neg (fun h => hc (e.mpr h))]

theorem claimScore_snoc (sq : ℚ → ℚ) (c : GtCodec) (cfg : PcaCfg) (pre : List SrLine)
    (r : SrLine) (n k : Nat) :
    claimScore sq c cfg (pre ++ [r]) n k =
      claimScore sq c cfg pre n k
        + r.loading.getD k Flt.nan * standardize sq r.af (claimDosage c cfg r n) := by
  simp [claimScore, List.foldl_append, standardize]

theorem firstCount_append (cfg : PcaCfg) (pre l : List SrLine) (h : pre ≠ []) :
    firstCount cfg (pre ++ l) = firstCount cfg pre := by
  cases pre with
  | nil => exact absurd rfl h
  | cons a as => rfl

/-- After `pcaFillGs` at a site whose genotype record is diploid, every `gs[n]`
is the dosage of the site. -/
theorem pcaFillGs_diploid (c : GtCodec) (cfg : PcaCfg) (r : SrLine) (gs : Nat → Flt)
    (hd : r.has0 = true → r.ngt = 2 * cfg.N) (n : Nat) (hn : n < cfg.N) :
    pcaFillGs c cfg r gs n = pcaDosage c cfg r n := by
  unfold pcaFillGs
  have hc : (if r.has0 = true then r.ngt else 2 * (cfg.N : Int)) = 2 * cfg.N := by
    by_cases h0 : r.has0 = true
    · rw [if_pos h0]; exact hd h0
    · rw [if_neg h0]
  rw [if_pos hc]
  refine forLoop_inv (fun j g => ∀ i, i < j → g i = pcaDosage c cfg r i) cfg.N _ gs
    (fun i hi => absurd hi (Nat.not_lt_zero i)) ?_ n hn
  intro j g _ hg i hi
  by_cases hij : i = j
  · subst hij
    simp
  · rw [Function.update_noteq hij]
    exact hg i (by omega)

theorem replicate_eq_map_range (K : Nat) (a : Flt) :
    List.replicate K a = (List.range K).map (fun _ => a) := by
  apply List.ext_getElem?
  intro k
  by_cases hk : k < K
  · simp [List.getElem?_replicate, hk, List.getElem?_range hk]
  · have hn : (List.range K)[k]? = none := List.getElem?_eq_none (by simp; omega)
    simp [List.getElem?_replicate, hk, hn]

theorem claimScore_nil (sq : ℚ → ℚ) (c : GtCodec) (cfg : PcaCfg) (n k : Nat) :
    claimScore sq c cfg [] n k = Flt.fin 0 := rfl

/-- One regular site extends every score by the site's term. -/
theorem pcaStep_scores (sq : ℚ → ℚ) (c : GtCodec) (cfg : PcaCfg) (hN : 0 < cfg.N) (L : Nat)
    (pre : List SrLine) (r : SrLine) (s t : PcaState)
    (hreg : r.regular c cfg.N L)
    (hinv : ScoreInv sq c cfg L pre s)
    (h : pcaStep sq c cfg s r = .ok t) :
    ScoreInv sq c cfg L (pre ++ [r]) t := by
  obtain ⟨h1, ha, ⟨l, wl, hwt, hlen, hhead, hnn⟩, hd, hplain⟩ := hreg
  obtain ⟨hK, hKp, hne, hbuf, hPC⟩ := hinv
  have hload : r.loading = l := by simp [SrLine.loading, hwt]
  rcases pcaStep_ok sq c cfg s t r h with ⟨h1f, _⟩ | ⟨_, _, haf, _⟩ | ⟨_, _, ht⟩
  · rw [h1] at h1f; exact absurd h1f (by simp)
  · exact absurd ha haf
  have hK1 : firstCount cfg (pre ++ [r])
      = if firstCount cfg pre = 0 then compCount cfg L else firstCount cfg pre := by
    cases pre with
    | nil =>
      show compCount cfg r.loading.length = _
      rw [hload, hlen]
      rfl
    | cons a as =>
      have := hne (by simp)
      rw [if_neg this]
      rfl
  have key := forLoopE_inv
    (fun i u =>
      u.wts.length ≤ L ∧
      (∀ n, i ≤ n → n < cfg.N → u.gs n = pcaDosage c cfg r n) ∧
      (∀ n, n < i → u.PC n = (List.range (firstCount cfg (pre ++ [r]))).map
          (fun k => claimScore sq c cfg (pre ++ [r]) n k)) ∧
      (∀ n, i ≤ n → n < cfg.N → u.PC n = (List.range (firstCount cfg pre)).map
          (fun k => claimScore sq c cfg pre n k)) ∧
      ((i = 0 ∧ u.nPC = firstCount cfg pre ∧ u.Npca = firstCount cfg pre) ∨
       (0 < i ∧ u.nPC = firstCount cfg (pre ++ [r]) ∧ u.Npca = firstCount cfg (pre ++ [r])
          ∧ firstCount cfg (pre ++ [r]) ≠ 0)))
    cfg.N _ _ t ?_ ?_ ht
  · obtain ⟨k0, _, k2, _, k4⟩ := key
    rcases k4 with ⟨h0, _⟩ | ⟨_, k5, k6, k7⟩
    · omega
    · exact ⟨k5, k6, fun _ => k7, k0, fun n hn => k2 n hn⟩
  · refine ⟨hbuf, fun n _ hn => pcaFillGs_diploid c cfg r s.gs hd n hn,
      fun n hn => absurd hn (Nat.not_lt_zero n), fun n _ hn => hPC n hn, Or.inl ⟨rfl, hK, hKp⟩⟩
  · intro i u u1 hi hu hb
    obtain ⟨j0, j1, j2, j3, j4⟩ := hu
    have hW : readWts u.wts r = l := readWts_fit u.wts l r hwt (by rw [hlen]; exact j0)
    obtain ⟨_, cw, w0, hw0, hc | hc⟩ := pcaSample_ok sq cfg r i u u1 hb
    · rw [hW, hhead] at hw0
      injection hw0 with hw0
      rw [← hw0, hnn] at hc
      exact absurd hc.1 (by simp)
    obtain ⟨_, c2, _, _, c5, c6, c7, c8⟩ := hc
    rw [hW, hlen] at c2 c5 c6
    rw [hW, hlen] at c8
    have hKK : (if u.nPC = 0 then compCount cfg L else u.nPC) = firstCount cfg (pre ++ [r]) := by
      rcases j4 with ⟨_, e1, _⟩ | ⟨_, e1, _, e3⟩
      · rw [e1, hK1]
      · rw [e1, if_neg e3]
    have hKN : (if u.nPC = 0 then compCount cfg L else u.Npca) = firstCount cfg (pre ++ [r]) := by
      rcases j4 with ⟨_, e1, e2⟩ | ⟨_, e1, e2, e3⟩
      · rw [e1, e2, hK1]
      · rw [e1, e2, if_neg e3]
    rw [hKK] at c2 c5 c8
    rw [hKN] at c6
    have hbase : (if (u.PC i).length ≠ firstCount cfg (pre ++ [r]) then
          List.replicate (firstCount cfg (pre ++ [r])) (Flt.fin 0) else u.PC i)
        = (List.range (firstCount cfg (pre ++ [r]))).map
            (fun k => claimScore sq c cfg pre i k) := by
      rw [j3 i (Nat.le_refl i) hi]
      by_cases hz : firstCount cfg pre = 0
      · have hnil : pre = [] := by
          by_contra hp
          exact hne hp hz
        subst hnil
        rw [if_pos (by simp [hz]; exact fun h => c2 h.symm), replicate_eq_map_range]
        rfl
      · rw [hK1, if_neg hz, if_neg (by simp)]
    rw [hbase, j1 i (Nat.le_refl i) hi, accumulate_map] at c8
    refine ⟨by rw [cw, hW, hlen], ?_, ?_, ?_, Or.inr ⟨Nat.succ_pos i, c5, c6, c2⟩⟩
    · intro n hn1 hn2
      rw [c7, Function.update_noteq (by omega)]
      exact j1 n (by omega) hn2
    · intro n hn
      rw [c8]
      by_cases hni : n = i
      · subst hni
        rw [Function.update_same]
        apply List.map_congr_left
        intro k _
        rw [claimScore_snoc, hload, pcaDosage_eq_claim c cfg r n hplain hi]
      · rw [Function.update_noteq hni]
        exact j2 n (by omega)
    · intro n hn1 hn2
      rw [c8, Function.update_noteq (by omega)]
      exact j3 n (by omega) hn2

theorem pcaLoop_scores (sq : ℚ → ℚ) (c : GtCodec) (cfg : PcaCfg) (hN : 0 < cfg.N) (L : Nat)
    (ls pre : List SrLine) (s t : PcaState)
    (hsite : ∀ r ∈ ls, r.regular c cfg.N L)
    (hinv : ScoreInv sq c cfg L pre s)
    (h : pcaLoop sq c cfg s ls = .ok t) :
    ScoreInv sq c cfg L (pre ++ ls) t := by
  induction ls generalizing pre s with
  | nil =>
    rw [pcaLoop_nil] at h
    injection h with h
    subst h
    rw [List.append_nil]
    exact hinv
  | cons a as ih =>
    rw [pcaLoop_cons] at h
    cases hs : pcaStep sq c cfg s a with
    | error e => simp [hs] at h
    | ok u =>
      simp only [hs] at h
      have hu := pcaStep_scores sq c cfg hN L pre a s u (hsite a (List.mem_cons_self a as))
        hinv hs
      have := ih (pre ++ [a]) u (fun x hx => hsite x (List.mem_cons_of_mem a hx)) hu h
      rw [List.append_assoc] at this
      exact this

/-- The scores on a regular stream.  For a stream of panel sites that each
carry exactly one AF value and `L` loadings of which the first is not NaN,
every genotype record being diploid and no genotype holding a phased missing
allele, a run of `pca` that raises no fatal condition prints, for sample `n`
and component `k < K`, the sum over the sites of
`loading[k] * (d - 2*af) / sqrt(2*af*(1-af))`, `d` being the dosage of
`claimDosage`; `K` is the component count taken from the first site. -/
theorem pca_scores_regular (sq : ℚ → ℚ) (c : GtCodec) (cfg : PcaCfg) (L : Nat)
    (ls : List SrLine) (rows : List (List Flt))
    (hsite : ∀ r ∈ ls, r.regular c cfg.N L)
    (hrun : pca sq c cfg ls = .ok rows) :
    rows = (List.range cfg.N).map (fun n =>
      (List.range (firstCount cfg ls)).map (fun k => claimScore sq c cfg ls n k)) := by
  unfold pca at hrun
  by_cases hN : cfg.N = 0
  · rw [if_pos hN] at hrun
    exact absurd hrun (by simp)
  rw [if_neg hN] at hrun
  cases hl : pcaLoop sq c cfg PcaState.init ls with
  | error e => simp [hl] at hrun
  | ok s =>
    simp only [hl] at hrun
    have hinit : ScoreInv sq c cfg L [] PcaState.init :=
      ⟨rfl, rfl, fun h => absurd rfl h, Nat.zero_le L, fun _ _ => rfl⟩
    obtain ⟨i1, i2, _, _, i4⟩ :=
      pcaLoop_scores sq c cfg (Nat.pos_of_ne_zero hN) L ls [] PcaState.init s hsite hinit hl
    rw [List.nil_append] at i1 i2 i4
    unfold pcaFinish at hrun
    split at hrun
    · exact absurd hrun (by simp)
    split at hrun
    · exact absurd hrun (by simp)
    injection hrun with hrun
    rw [← hrun]
    apply List.map_congr_left
    intro n hn
    rw [i4 n (List.mem_range.mp hn), i2]
    exact List.take_of_length_le (by simp)

/-- The homozygous-reference fixture: one sample, a called site, a site absent
from the genotype source and a site with a missing genotype; the two last get
dosage `0`, and the hand-computed scores are `-3` and `1`. -/
theorem pca_scores_fixture :
    (∀ r ∈ [hetSite, absentSite, missingSite], r.regular htslibCodec homrefCfg.N 2) ∧
    pca qsqrt htslibCodec homrefCfg [hetSite, absentSite, missingSite]
      = .ok [[Flt.fin (-3), Flt.fin 1]] ∧
    [[Flt.fin (-3), Flt.fin 1]] = (List.range homrefCfg.N).map (fun n =>
      (List.range (firstCount homrefCfg [hetSite, absentSite, missingSite])).map
        (fun k => claimScore qsqrt htslibCodec homrefCfg
          [hetSite, absentSite, missingSite] n k)) :=
  have hs : ∀ r ∈ [hetSite, absentSite, missingSite], r.regular htslibCodec homrefCfg.N 2 := by
    intro r hr
    simp only [List.mem_cons, List.mem_singleton, List.not_mem_nil, or_false] at hr
    rcases hr with rfl | rfl | rfl
    · exact ⟨rfl, rfl, ⟨_, _, rfl, rfl, rfl, rfl⟩, fun _ => by decide, by decide⟩
    · exact ⟨rfl, rfl, ⟨_, _, rfl, rfl, rfl, rfl⟩, fun h => absurd h (by decide), by decide⟩
    · exact ⟨rfl, rfl, ⟨_, _, rfl, rfl, rfl, rfl⟩, fun _ => by decide, by decide⟩
  have hr : pca qsqrt htslibCodec homrefCfg [hetSite, absentSite, missingSite]
      = .ok [[Flt.fin (-3), Flt.fin 1]] := by decide!
  ⟨hs, hr, pca_scores_regular qsqrt htslibCodec homrefCfg 2
    [hetSite, absentSite, missingSite] _ hs hr⟩

/-! ## Matrix accesses -/

theorem MatrixXf.set_rows (A : MatrixXf) (j i : Nat) (v : Option Flt) :
    (A.set j i v).rows = A.rows := by
  unfold MatrixXf.set; split <;> rfl

theorem MatrixXf.set_cols (A : MatrixXf) (j i : Nat) (v : Option Flt) :
    (A.set j i v).cols = A.cols := by
  unfold MatrixXf.set; split <;> rfl

theorem MatrixXf.set_ub (A : MatrixXf) (j i : Nat) (v : Option Flt)
    (hj : j < A.rows) (hi : i < A.cols) : (A.set j i v).ub = A.ub := by
  unfold MatrixXf.set; rw [if_pos ⟨hj, hi⟩]

theorem MatrixXf.set_coeff (A : MatrixXf) (j i : Nat) (v : Option Flt)
    (hj : j < A.rows) (hi : i < A.cols) (a b : Nat) :
    (A.set j i v).coeff a b = if a = j ∧ b = i then v else A.coeff a b := by
  unfold MatrixXf.set; rw [if_pos ⟨hj, hi⟩]

theorem MatrixXf.get_coeff (A : MatrixXf) (j i : Nat) (hj : j < A.rows) (hi : i < A.cols) :
    A.get j i = A.coeff j i := by
  unfold MatrixXf.get; rw [if_pos ⟨hj, hi⟩]

theorem MatrixXf.modify_rows (A : MatrixXf) (j i : Nat) (f : Flt → Flt) :
    (A.modify j i f).rows = A.rows := MatrixXf.set_rows A j i _

theorem MatrixXf.modify_cols (A : MatrixXf) (j i : Nat) (f : Flt → Flt) :
    (A.modify j i f).cols = A.cols := MatrixXf.set_cols A j i _

theorem MatrixXf.modify_ub (A : MatrixXf) (j i : Nat) (f : Flt → Flt)
    (hj : j < A.rows) (hi : i < A.cols) : (A.modify j i f).ub = A.ub :=
  MatrixXf.set_ub A j i _ hj hi

theorem MatrixXf.modify_coeff (A : MatrixXf) (j i : Nat) (f : Flt → Flt)
    (hj : j < A.rows) (hi : i < A.cols) (a b : Nat) :
    (A.modify j i f).coeff a b = if a = j ∧ b = i then (A.coeff j i).map f else A.coeff a b := by
  unfold MatrixXf.modify
  rw [MatrixXf.set_coeff A j i _ hj hi, MatrixXf.get_coeff A j i hj hi]

theorem MatrixXf.write_rows (A : MatrixXf) (j i : Nat) (v : Flt) :
    (A.write j i v).rows = A.rows := MatrixXf.set_rows A j i _

theorem MatrixXf.write_cols (A : MatrixXf) (j i : Nat) (v : Flt) :
    (A.write j i v).cols = A.cols := MatrixXf.set_cols A j i _

theorem MatrixXf.write_ub (A : MatrixXf) (j i : Nat) (v : Flt)
    (hj : j < A.rows) (hi : i < A.cols) : (A.write j i v).ub = A.ub :=
  MatrixXf.set_ub A j i _ hj hi

theorem MatrixXf.write_coeff (A : MatrixXf) (j i : Nat) (v : Flt)
    (hj : j < A.rows) (hi : i < A.cols) (a b : Nat) :
    (A.write j i v).coeff a b = if a = j ∧ b = i then some v else A.coeff a b :=
  MatrixXf.set_coeff A j i _ hj hi a b

/-! ## `DatatoMatrix` entry by entry -/

/-- The first inner loop of `DatatoMatrix`: column `i` receives the dosages
`G[i*N] .. G[i*N+N-1]`. -/
theorem DatatoMatrix_fill (G : List Flt) (N M i : Nat) (hi : i < M) (A : MatrixXf)
    (hr : A.rows = N) (hc : A.cols = M) :
    (fillColumn G N i (A, i * N)).2 = i * N + N ∧
    (fillColumn G N i (A, i * N)).1.rows = N ∧
    (fillColumn G N i (A, i * N)).1.cols = M ∧
    (fillColumn G N i (A, i * N)).1.ub = A.ub ∧
    (∀ a b, b ≠ i → (fillColumn G N i (A, i * N)).1.coeff a b = A.coeff a b) ∧
    (∀ a, a < N →
      (fillColumn G N i (A, i * N)).1.coeff a i = some (G.getD (i * N + a) Flt.nan)) := by
  have key := forLoop_inv
    (fun j (q : MatrixXf × Nat) =>
      q.2 = i * N + j ∧ q.1.rows = N ∧ q.1.cols = M ∧ q.1.ub = A.ub ∧
      (∀ a b, b ≠ i → q.1.coeff a b = A.coeff a b) ∧
      (∀ a, a < j → q.1.coeff a i = some (G.getD (i * N + a) Flt.nan)))
    N (fun j (q : MatrixXf × Nat) => (q.1.write j i (G.getD q.2 Flt.nan), q.2 + 1)) (A, i * N)
    ⟨rfl, hr, hc, rfl, fun _ _ _ => rfl, fun a ha => absurd ha (Nat.not_lt_zero a)⟩ ?_
  · exact key
  · intro j q hj ⟨q1, q2, q3, q4, q5, q6⟩
    have hjr : j < q.1.rows := by rw [q2]; exact hj
    have hic : i < q.1.cols := by rw [q3]; exact hi
    refine ⟨by simp only [q1]; omega, ?_, ?_, ?_, ?_, ?_⟩
    · simp only [MatrixXf.write_rows, q2]
    · simp only [MatrixXf.write_cols, q3]
    · simp only [MatrixXf.write_ub _ _ _ _ hjr hic, q4]
    · intro a b hb
      show (q.1.write j i (G.getD q.2 Flt.nan)).coeff a b = A.coeff a b
      rw [MatrixXf.write_coeff _ _ _ _ hjr hic, if_neg (fun h => hb h.2)]
      exact q5 a b hb
    · intro a ha
      show (q.1.write j i (G.getD q.2 Flt.nan)).coeff a i = _
      rw [MatrixXf.write_coeff _ _ _ _ hjr hic]
      by_cases haj : a = j
      · subst haj
        rw [if_pos ⟨rfl, rfl⟩, q1]
      · rw [if_neg (fun h => haj h.1)]
        exact q6 a (by omega)

/-- The second inner loop of `DatatoMatrix`: column `i` is centred and, in mode
1, scaled. -/
theorem DatatoMatrix_center (sq : ℚ → ℚ) (AF : List Flt) (N M i : Nat) (covn : Int)
    (hi : i < M) (A : MatrixXf) (hr : A.rows = N) (hc : A.cols = M) (g : Nat → Flt)
    (hg : ∀ a, a < N → A.coeff a i = some (g a)) :
    (centerColumn sq AF N i covn A).rows = N ∧
    (centerColumn sq AF N i covn A).cols = M ∧
    (centerColumn sq AF N i covn A).ub = A.ub ∧
    (∀ a b, b ≠ i → (centerColumn sq AF N i covn A).coeff a b = A.coeff a b) ∧
    (∀ a, a < N → (centerColumn sq AF N i covn A).coeff a i
      = some (matrixEntry sq covn (AF.getD i Flt.nan) (g a))) := by
  unfold centerColumn
  have key := forLoop_inv
    (fun j (B : MatrixXf) =>
      B.rows = N ∧ B.cols = M ∧ B.ub = A.ub ∧
      (∀ a b, b ≠ i → B.coeff a b = A.coeff a b) ∧
      (∀ a, a < j → B.coeff a i = some (matrixEntry sq covn (AF.getD i Flt.nan) (g a))) ∧
      (∀ a, j ≤ a → a < N → B.coeff a i = some (g a)))
    N (centerEntry sq AF i covn) A
    ⟨hr, hc, rfl, fun _ _ _ => rfl, fun a ha => absurd ha (Nat.not_lt_zero a),
      fun a _ ha => hg a ha⟩ ?_
  · exact ⟨key.1, key.2.1, key.2.2.1, key.2.2.2.1, key.2.2.2.2.1⟩
  · intro j B hj ⟨b1, b2, b3, b4, b5, b6⟩
    have hjr : j < B.rows := by rw [b1]; exact hj
    have hic : i < B.cols := by rw [b2]; exact hi
    have hjr1 : j < (B.modify j i (fun a => a - AF.getD i Flt.nan)).rows := by
      rw [MatrixXf.modify_rows]; exact hjr
    have hic1 : i < (B.modify j i (fun a => a - AF.getD i Flt.nan)).cols := by
      rw [MatrixXf.modify_cols]; exact hic
    unfold centerEntry
    by_cases hcov : covn = 1
    · simp only [hcov, if_true]
      refine ⟨?_, ?_, ?_, ?_, ?_, ?_⟩
      · simp only [MatrixXf.modify_rows, b1]
      · simp only [MatrixXf.modify_cols, b2]
      · rw [MatrixXf.modify_ub _ _ _ _ hjr1 hic1, MatrixXf.modify_ub _ _ _ _ hjr hic, b3]
      · intro a b hb
        rw [MatrixXf.modify_coeff _ _ _ _ hjr1 hic1, if_neg (fun h => hb h.2),
          MatrixXf.modify_coeff _ _ _ _ hjr hic, if_neg (fun h => hb h.2)]
        exact b4 a b hb
      · intro a ha
        rw [MatrixXf.modify_coeff _ _ _ _ hjr1 hic1]
        by_cases haj : a = j
        · subst haj
          rw [if_pos ⟨rfl, rfl⟩, MatrixXf.modify_coeff _ _ _ _ hjr hic, if_pos ⟨rfl, rfl⟩,
            b6 a (Nat.le_refl a) hj]
          simp [matrixEntry]
        · rw [if_neg (fun h => haj h.1), MatrixXf.modify_coeff _ _ _ _ hjr hic,
            if_neg (fun h => haj h.1)]
          rw [hcov] at b5
          exact b5 a (by omega)
      · intro a ha1 ha2
        rw [MatrixXf.modify_coeff _ _ _ _ hjr1 hic1, if_neg (fun h => by omega),
          MatrixXf.modify_coeff _ _ _ _ hjr hic, if_neg (fun h => by omega)]
        exact b6 a (by omega) ha2
    · simp only [hcov, if_false]
      refine ⟨?_, ?_, ?_, ?_, ?_, ?_⟩
      · simp only [MatrixXf.modify_rows, b1]
      · simp only [MatrixXf.modify_cols, b2]
      · rw [MatrixXf.modify_ub _ _ _ _ hjr hic, b3]
      · intro a b hb
        rw [MatrixXf.modify_coeff _ _ _ _ hjr hic, if_neg (fun h => hb h.2)]
        exact b4 a b hb
      · intro a ha
        rw [MatrixXf.modify_coeff _ _ _ _ hjr hic]
        by_cases haj : a = j
        · subst haj
          rw [if_pos ⟨rfl, rfl⟩, b6 a (Nat.le_refl a) hj]
          simp [matrixEntry, hcov]
        · rw [if_neg (fun h => haj h.1)]
          exact b5 a (by omega)
      · intro a ha1 ha2
        rw [MatrixXf.modify_coeff _ _ _ _ hjr hic, if_neg (fun h => by omega)]
        exact b6 a (by omega) ha2

/-- Every entry of the matrix `DatatoMatrix` builds: `A(j,i)` is the entry of
`matrixEntry` at the dosage `G[i*N+j]` and the column mean `AF[i]`, and no
access leaves the matrix. -/
theorem DatatoMatrix_spec (sq : ℚ → ℚ) (G AF : List Flt) (N M : Nat) (covn : Int)
    (A : MatrixXf) (hr : A.rows = N) (hc : A.cols = M) :
    (DatatoMatrix sq A G AF N M covn).rows = N ∧
    (DatatoMatrix sq A G AF N M covn).cols = M ∧
    (DatatoMatrix sq A G AF N M covn).ub = A.ub ∧
    (∀ i j, i < M → j < N → (DatatoMatrix sq A G AF N M covn).coeff j i
      = some (matrixEntry sq covn (AF.getD i Flt.nan) (G.getD (i * N + j) Flt.nan))) := by
  have key := forLoop_inv
    (fun i (p : MatrixXf × Nat) =>
      p.2 = i * N ∧ p.1.rows = N ∧ p.1.cols = M ∧ p.1.ub = A.ub ∧
      (∀ b a, b < i → a < N → p.1.coeff a b
        = some (matrixEntry sq covn (AF.getD b Flt.nan) (G.getD (b * N + a) Flt.nan))))
    M
    (fun i (p : MatrixXf × Nat) =>
      (centerColumn sq AF N i covn (fillColumn G N i p).1, (fillColumn G N i p).2))
    (A, 0)
    ⟨by simp, hr, hc, rfl, fun b _ hb => absurd hb (Nat.not_lt_zero b)⟩ ?_
  · exact ⟨key.2.1, key.2.2.1, key.2.2.2.1, fun i j hi hj => key.2.2.2.2 i j hi hj⟩
  · intro i p hi ⟨p1, p2, p3, p4, p5⟩
    have hp : p = (p.1, i * N) := by rw [← p1]
    rw [hp]
    obtain ⟨f1, f2, f3, f4, f5, f6⟩ := DatatoMatrix_fill G N M i hi p.1 p2 p3
    obtain ⟨c1, c2, c3, c4, c5⟩ := DatatoMatrix_center sq AF N M i covn hi
      (fillColumn G N i (p.1, i * N)).1 f2 f3 (fun a => G.getD (i * N + a) Flt.nan) f6
    refine ⟨?_, c1, c2, ?_, ?_⟩
    · show (fillColumn G N i (p.1, i * N)).2 = (i + 1) * N
      rw [f1]; ring
    · show (centerColumn sq AF N i covn (fillColumn G N i (p.1, i * N)).1).ub = A.ub
      rw [c3, f4, p4]
    · intro b a hb ha
      show (centerColumn sq AF N i covn (fillColumn G N i (p.1, i * N)).1).coeff a b = _
      by_cases hbi : b = i
      · subst hbi
        exact c5 a ha
      · rw [c4 a b hbi, f5 a b hbi]
        exact p5 b a (by omega) ha

/-! ## Arithmetic of `Flt` -/

theorem Flt.add_def (a b : Flt) : a + b = Flt.add a b := rfl
theorem Flt.sub_def (a b : Flt) : a - b = Flt.add a (Flt.neg b) := rfl
theorem Flt.mul_def (a b : Flt) : a * b = Flt.mul a b := rfl
theorem Flt.div_def (a b : Flt) : a / b = Flt.div a b := rfl

theorem Flt.half_mul_comm (mu : Flt) : Flt.fin (1 / 2) * mu = mu * Flt.fin (1 / 2) := by
  cases mu with
  | fin q => simp only [Flt.mul_def, Flt.mul]; rw [mul_comm]
  | inf s => cases s <;> simp [Flt.mul_def, Flt.mul]
  | nan => rfl

theorem Flt.two_mul_half (mu : Flt) : Flt.ofInt 2 * (mu * Flt.fin (1 / 2)) = mu := by
  cases mu with
  | fin q =>
    simp only [Flt.mul_def, Flt.mul, Flt.ofInt]
    congr 1
    push_cast
    ring
  | inf s => cases s <;> simp [Flt.mul_def, Flt.mul, Flt.ofInt]
  | nan => rfl

/-! ## One standardisation for construction and projection -/

/-- The mode-1 entry of `DatatoMatrix` is the projector's standardised dosage
at the exported allele frequency. -/
theorem matrixEntry_eq_standardize (sq : ℚ → ℚ) (mu g : Flt) :
    matrixEntry sq 1 mu g = standardize sq (exportedAF mu) g := by
  unfold matrixEntry standardize exportedAF
  rw [if_pos rfl, Flt.half_mul_comm, Flt.two_mul_half]

/-- C3. Construction and projection apply the same standardisation.  With `mu`
the stored column mean `AF[i]` and `af = AF[i]*0.5` the exported allele
frequency: the mode-1 entry of `DatatoMatrix` is
`(g - mu) / sqrt(2*(0.5*mu)*(1 - 0.5*mu))`; it equals the projector's value
`standardize af g`, which is `(g - 2*af) / sqrt(2*af*(1-af))`; and every entry
`A(j,i)` of the matrix built in mode 1 is that value at the dosage `G[i*N+j]`. -/
theorem standardisation_consistent (sq : ℚ → ℚ) (G AF : List Flt) (N M : Nat) :
    (∀ mu g : Flt, matrixEntry sq 1 mu g
      = (g - mu) / Flt.sqrt sq
          (Flt.ofInt 2 * (Flt.fin (1 / 2) * mu) * (Flt.ofInt 1 - Flt.fin (1 / 2) * mu))) ∧
    (∀ mu g : Flt, matrixEntry sq 1 mu g = standardize sq (exportedAF mu) g) ∧
    (∀ af g : Flt, standardize sq af g
      = (g - Flt.ofInt 2 * af) / Flt.sqrt sq (Flt.ofInt 2 * af * (Flt.ofInt 1 - af))) ∧
    (∀ i j, i < M → j < N →
      (DatatoMatrix sq (MatrixXf.alloc N M) G AF N M 1).coeff j i
        = some (standardize sq (exportedAF (AF.getD i Flt.nan))
            (G.getD (i * N + j) Flt.nan))) := by
  refine ⟨fun mu g => by simp [matrixEntry], fun mu g => matrixEntry_eq_standardize sq mu g,
    fun af g => rfl, fun i j hi hj => ?_⟩
  rw [(DatatoMatrix_spec sq G AF N M 1 (MatrixXf.alloc N M) rfl rfl).2.2.2 i j hi hj,
    matrixEntry_eq_standardize]

/-! ## `calcpca`: columns without missing genotypes -/

theorem forLoop_congr {σ : Type} (n : Nat) (f g : Nat → σ → σ) (s : σ)
    (h : ∀ i t, i < n → f i t = g i t) : forLoop n f s = forLoop n g s := by
  induction n with
  | zero => rfl
  | succ k ih =>
    rw [forLoop_succ, forLoop_succ, ih (fun i t hi => h i t (Nat.lt_succ_of_lt hi)),
      h k _ (Nat.lt_succ_self k)]

/-- A loop that adds finite values computes their sum. -/
theorem forLoop_sum_fin (n : Nat) (f : Nat → ℚ) (a : ℚ) :
    forLoop n (fun j acc => acc + Flt.fin (f j)) (Flt.fin a)
      = Flt.fin (a + ∑ j in Finset.range n, f j) := by
  induction n with
  | zero => simp [forLoop_zero]
  | succ k ih =>
    rw [forLoop_succ, ih, Finset.sum_range_succ, Flt.add_def, Flt.add]
    congr 1
    ring

/-- With no missing entry among the first `2*N`, `alleleCount` is the sum of
the allele indices and `nmiss` is 0. -/
theorem alleleCount_no_missing (c : GtCodec) (N : Nat) (gt : List Int)
    (h : ∀ i, i < 2 * N → gt.getD i 0 ≠ c.bcf_gt_missing) :
    alleleCount c N gt
      = (∑ i in Finset.range (2 * N), c.bcf_gt_allele (gt.getD i 0), 0) := by
  unfold alleleCount
  refine forLoop_inv
    (fun i (p : Int × Int) => p = (∑ a in Finset.range i, c.bcf_gt_allele (gt.getD a 0), 0))
    (2 * N) _ (0, 0) (by simp) ?_
  intro i p hi hp
  rw [hp, if_pos (h i hi), Finset.sum_range_succ]

theorem sum_pairs (f : Nat → Int) (N : Nat) :
    ∑ i in Finset.range (2 * N), f i = ∑ j in Finset.range N, (f (2 * j) + f (2 * j + 1)) := by
  induction N with
  | zero => simp
  | succ k ih =>
    rw [show 2 * (k + 1) = 2 * k + 1 + 1 from by ring, Finset.sum_range_succ,
      Finset.sum_range_succ, ih, Finset.sum_range_succ]
    ring

theorem alleleCount_pairs (c : GtCodec) (N : Nat) (gt : List Int)
    (h : ∀ i, i < 2 * N → gt.getD i 0 ≠ c.bcf_gt_missing) :
    alleleCount c N gt = (∑ j in Finset.range N, pairDosage c gt j, 0) := by
  rw [alleleCount_no_missing c N gt h, sum_pairs]
  rfl

/-- With no missing genotype, `pushDosages` appends the `N` dosages of the
site and returns their sum. -/
theorem pushDosages_no_missing (c : GtCodec) (N : Nat) (gt : List Int) (frq : Flt)
    (G : List Flt) (p : List Flt × Flt)
    (h : ∀ i, i < 2 * N → gt.getD i 0 ≠ c.bcf_gt_missing)
    (hp : pushDosages c N gt frq G = .ok p) :
    p.1 = G ++ (List.range N).map (fun j => Flt.fin (pairDosage c gt j)) ∧
    p.2 = Flt.fin (∑ j in Finset.range N, (pairDosage c gt j : ℚ)) := by
  unfold pushDosages at hp
  refine forLoopE_inv
    (fun i (q : List Flt × Flt) =>
      q.1 = G ++ (List.range i).map (fun j => Flt.fin (pairDosage c gt j)) ∧
      q.2 = Flt.fin (∑ j in Finset.range i, (pairDosage c gt j : ℚ)))
    N _ (G, Flt.fin 0) p (by simp) ?_ hp
  intro i q q1 hi ⟨h1, h2⟩ hb
  by_cases hneg : gt.getD (2 * i) 0 < 0 ∨ gt.getD (2 * i + 1) 0 < 0
  · rw [if_pos hneg] at hb
    exact absurd hb (by simp)
  rw [if_neg hneg, if_pos ⟨h (2 * i) (by omega), h (2 * i + 1) (by omega)⟩] at hb
  injection hb with hb
  subst hb
  refine ⟨?_, ?_⟩
  · simp only [h1, List.range_succ, List.map_append, List.map_cons, List.map_nil,
      List.append_assoc]
    rfl
  · simp only [h2, Finset.sum_range_succ, Flt.add_def, Flt.add, Flt.ofInt]
    rfl

/-- A site that passes a non-negative MAF bound with no missing genotype has
an allele count strictly between 0 and `2*N`. -/
theorem mafPass_bounds (c : GtCodec) (N : Nat) (m : Flt) (gt : List Int) (hN : 0 < N)
    (hm : Flt.le (Flt.fin 0) m = true)
    (h : ∀ i, i < 2 * N → gt.getD i 0 ≠ c.bcf_gt_missing)
    (hp : mafPass c N m gt = true) :
    0 < ∑ j in Finset.range N, pairDosage c gt j ∧
    ∑ j in Finset.range N, pairDosage c gt j < 2 * N := by
  unfold mafPass minorCount at hp
  rw [alleleCount_pairs c N gt h] at hp
  simp only [sub_zero] at hp
  have htd : Int.tdiv (2 * (N : Int)) 2 = N := Int.mul_tdiv_cancel_left _ (by norm_num)
  rw [htd] at hp
  generalize (∑ j in Finset.range N, pairDosage c gt j) = S at hp ⊢
  cases m with
  | nan => simp [Flt.le] at hm
  | inf s =>
    cases s with
    | true => simp [Flt.le] at hm
    | false =>
      have hne : ((2 * (N : Int) : Int) : ℚ) ≠ 0 := by
        have : (0 : ℚ) < N := by exact_mod_cast hN
        push_cast
        linarith
      have hnn : ¬ (((2 * (N : Int) : Int) : ℚ) < 0) := by
        push_cast
        have : (0 : ℚ) < N := by exact_mod_cast hN
        linarith
      have hmul : Flt.ofInt (2 * (N : Int)) * Flt.inf false = Flt.inf false := by
        simp only [Flt.mul_def, Flt.mul, Flt.ofInt]
        rw [if_neg hne]
        simp [hnn]
      rw [hmul] at hp
      simp [Flt.lt, Flt.ofInt] at hp
  | fin q =>
    have hq : (0 : ℚ) ≤ q := by simpa [Flt.le] using hm
    simp only [Flt.mul_def, Flt.mul, Flt.ofInt, Flt.lt, decide_eq_true_eq] at hp
    have hpos : (0 : ℚ) ≤ ((2 * (N : Int) : Int) : ℚ) * q := by
      apply mul_nonneg _ hq
      push_cast
      positivity
    by_cases hS : S > N
    · rw [if_pos hS] at hp
      have : (0 : ℚ) < ((2 * (N : Int) - S : Int) : ℚ) := lt_of_le_of_lt hpos hp
      have h2 : (0 : Int) < 2 * (N : Int) - S := by exact_mod_cast this
      constructor <;> omega
    · rw [if_neg hS] at hp
      have : (0 : ℚ) < ((S : Int) : ℚ) := lt_of_le_of_lt hpos hp
      have h2 : (0 : Int) < S := by exact_mod_cast this
      constructor <;> omega

/-- What a normal return of `calcKeep` says about the buffers. -/
theorem calcKeep_ok (c : GtCodec) (cfg : CalcCfg) (s s1 : CalcState) (r : SrLine)
    (h : calcKeep c cfg s r = .ok s1) :
    (mafPass c cfg.N cfg.m (readGt s.gt_arr r) = true ∧
      ∃ p, pushDosages c cfg.N (readGt s.gt_arr r)
          (calcFrq c cfg.N (readGt s.gt_arr r)) s.G = .ok p ∧
        s1.G = p.1 ∧ s1.AF = s.AF ++ [p.2 / Flt.ofInt cfg.N] ∧ s1.nkept = s.nkept + 1) ∨
    (s1.G = s.G ∧ s1.AF = s.AF ∧ s1.nkept = s.nkept) := by
  unfold calcKeep at h
  by_cases hn : r.ngt < 0
  · simp [hn] at h
  by_cases hk : cfg.k = 0
  · simp [hn, hk] at h
  by_cases hp : mafPass c cfg.N cfg.m (readGt s.gt_arr r) = true
  · by_cases hm : Int.tmod ((s.count + 1 : Nat) : Int) cfg.k = 0
    · simp only [hn, hk, hp, hm, if_true, if_false, and_self] at h
      split at h
      · exact absurd h (by simp)
      · rename_i p hpd
        injection h with h
        subst h
        exact Or.inl ⟨hp, p, hpd, rfl, rfl, rfl⟩
    · simp only [hn, hk, hp, hm, if_true, if_false, false_and] at h
      injection h with h
      subst h
      exact Or.inr ⟨rfl, rfl, rfl⟩
  · simp only [hn, hk, hp, if_false, and_false, Bool.false_eq_true] at h
    injection h with h
    subst h
    exact Or.inr ⟨rfl, rfl, rfl⟩

theorem readGt_getD (buf l : List Int) (r : SrLine) (n i : Nat) (hr : r.gt = some l)
    (hl : l.length = n) (hi : i < n) : (readGt buf r).getD i 0 = l.getD i 0 := by
  unfold readGt
  rw [hr]
  exact List.getD_append l _ 0 i (by omega)

theorem readGt_no_missing (c : GtCodec) (buf l : List Int) (r : SrLine) (n : Nat)
    (hr : r.gt = some l) (hl : l.length = n) (hx : ∀ x ∈ l, x ≠ c.bcf_gt_missing) :
    ∀ i, i < n → (readGt buf r).getD i 0 ≠ c.bcf_gt_missing := by
  intro i hi
  rw [readGt_getD buf l r n i hr hl hi, List.getD_eq_getElem l 0 (by omega)]
  exact hx _ (List.getElem_mem _)

/-- A retained column keeps every earlier column and is itself good. -/
theorem goodCol_append (N : Nat) (G AF : List Flt) (d : Nat → Int) (k : Nat) (hN : 0 < N)
    (hAF : AF.length = k) (hG : G.length = k * N)
    (hold : ∀ i, i < k → GoodCol N G AF i)
    (h0 : 0 < ∑ j in Finset.range N, d j) (h1 : ∑ j in Finset.range N, d j < 2 * N) :
    ∀ i, i < k + 1 →
      GoodCol N (G ++ (List.range N).map (fun j => Flt.fin (d j)))
        (AF ++ [Flt.fin (∑ j in Finset.range N, (d j : ℚ)) / Flt.ofInt N]) i := by
  intro i hi
  by_cases hik : i < k
  · obtain ⟨e, e1, e2, e3, e4⟩ := hold i hik
    refine ⟨e, fun j hj => ?_, ?_, e3, e4⟩
    · rw [List.getD_append _ _ _ _ (by rw [hG]; nlinarith)]
      exact e1 j hj
    · rw [List.getD_append _ _ _ _ (by omega)]
      exact e2
  · have hk : i = k := by omega
    subst hk
    refine ⟨d, fun j hj => ?_, ?_, h0, h1⟩
    · rw [List.getD_append_right _ _ _ _ (by rw [hG]; omega), hG, Nat.add_sub_cancel_left,
        List.getD_eq_getElem _ _ (by simpa using hj)]
      simp
    · rw [List.getD_append_right _ _ _ _ (by omega), hAF, Nat.sub_self]
      have hne : ((N : Int) : ℚ) ≠ 0 := by
        have : (0 : ℚ) < N := by exact_mod_cast hN
        push_cast
        linarith
      simp only [List.getD_cons_zero, Flt.div_def, Flt.div, Flt.ofInt, if_neg hne]
      push_cast
      rfl

/-- One record keeps the invariant of the columns. -/
theorem calcStep_colInv (c : GtCodec) (cfg : CalcCfg) (s s1 : CalcState) (r : SrLine)
    (hN : 0 < cfg.N) (hm : Flt.le (Flt.fin 0) cfg.m = true)
    (hr : calcReads cfg r = true →
      ∃ l, r.gt = some l ∧ l.length = 2 * cfg.N ∧ ∀ x ∈ l, x ≠ c.bcf_gt_missing)
    (hinv : ColInv cfg.N s) (h : calcStep c cfg s r = .ok s1) : ColInv cfg.N s1 := by
  unfold calcStep at h
  by_cases hrd : calcReads cfg r = true
  · rw [if_pos hrd] at h
    split at h
    · exact absurd h (by simp)
    rename_i s2 hs2
    injection h with h
    subst h
    obtain ⟨l, hl1, hl2, hl3⟩ := hr hrd
    have hmiss := readGt_no_missing c s.gt_arr l r (2 * cfg.N) hl1 hl2 hl3
    obtain ⟨i1, i2, i3⟩ := hinv
    rcases calcKeep_ok c cfg s s2 r hs2 with ⟨hp, p, hpd, k1, k2, k3⟩ | ⟨k1, k2, k3⟩
    · obtain ⟨p1, p2⟩ := pushDosages_no_missing c cfg.N _ _ s.G p hmiss hpd
      obtain ⟨b0, b1⟩ := mafPass_bounds c cfg.N cfg.m _ hN hm hmiss hp
      refine ⟨?_, ?_, ?_⟩
      · show s2.AF.length = s2.nkept
        rw [k2, k3, List.length_append, i1]
        rfl
      · show s2.G.length = s2.nkept * cfg.N
        rw [k1, k3, p1, List.length_append, i2]
        simp
        ring
      · show ∀ i, i < s2.nkept → GoodCol cfg.N s2.G s2.AF i
        rw [k1, k2, k3, p1, p2]
        exact goodCol_append cfg.N s.G s.AF _ s.nkept hN i1 i2 i3 b0 b1
    · refine ⟨?_, ?_, ?_⟩
      · show s2.AF.length = s2.nkept
        rw [k2, k3]; exact i1
      · show s2.G.length = s2.nkept * cfg.N
        rw [k1, k3]; exact i2
      · show ∀ i, i < s2.nkept → GoodCol cfg.N s2.G s2.AF i
        rw [k1, k2, k3]; exact i3
  · rw [if_neg hrd] at h
    injection h with h
    subst h
    exact hinv

theorem calcLoop_colInv (c : GtCodec) (cfg : CalcCfg) (ls : List SrLine) (s s1 : CalcState)
    (hN : 0 < cfg.N) (hm : Flt.le (Flt.fin 0) cfg.m = true)
    (hr : ∀ r ∈ ls, calcReads cfg r = true →
      ∃ l, r.gt = some l ∧ l.length = 2 * cfg.N ∧ ∀ x ∈ l, x ≠ c.bcf_gt_missing)
    (hinv : ColInv cfg.N s) (h : calcLoop c cfg s ls = .ok s1) : ColInv cfg.N s1 := by
  induction ls generalizing s with
  | nil =>
    rw [calcLoop_nil] at h
    injection h with h
    subst h
    exact hinv
  | cons a as ih =>
    rw [calcLoop_cons] at h
    cases ha : calcStep c cfg s a with
    | error e => simp [ha] at h
    | ok u =>
      simp only [ha] at h
      exact ih u (fun x hx => hr x (List.mem_cons_of_mem a hx))
        (calcStep_colInv c cfg s u a hN hm (hr a (List.mem_cons_self a as)) hinv ha) h

/-- The mode-1 entry at finite arguments with a positive variance term. -/
theorem matrixEntry_fin (sq : ℚ → ℚ) (mu g : ℚ)
    (hv : 0 < 2 * (1 / 2 * mu) * (1 - 1 / 2 * mu))
    (hs : sq (2 * (1 / 2 * mu) * (1 - 1 / 2 * mu)) ≠ 0) :
    matrixEntry sq 1 (Flt.fin mu) (Flt.fin g)
      = Flt.fin ((g - mu) / sq (2 * (1 / 2 * mu) * (1 - 1 / 2 * mu))) := by
  have e1 : Flt.ofInt 2 * (Flt.fin (1 / 2) * Flt.fin mu) * (Flt.ofInt 1 - Flt.fin (1 / 2) * Flt.fin mu)
      = Flt.fin (2 * (1 / 2 * mu) * (1 - 1 / 2 * mu)) := by
    simp only [Flt.mul_def, Flt.mul, Flt.sub_def, Flt.add, Flt.neg, Flt.ofInt]
    congr 1
    push_cast
    ring
  unfold matrixEntry
  rw [if_pos rfl, e1]
  simp only [Flt.sqrt, if_neg (not_lt.mpr (le_of_lt hv)), Flt.sub_def, Flt.add, Flt.neg,
    Flt.div_def, Flt.div, if_neg hs]
  simp only [sub_eq_add_neg]

/-- A good column of the mode-1 matrix sums to zero. -/
theorem goodCol_colSum (sq : ℚ → ℚ) (hsq : ∀ x : ℚ, 0 < x → sq x ≠ 0) (N : Nat) (hN : 0 < N)
    (G AF : List Flt) (i : Nat) (A : MatrixXf) (hr : A.rows = N) (hi : i < A.cols)
    (hc : ∀ j, j < N → A.coeff j i
      = some (matrixEntry sq 1 (AF.getD i Flt.nan) (G.getD (i * N + j) Flt.nan)))
    (hg : GoodCol N G AF i) : colSum A N i = Flt.fin 0 := by
  obtain ⟨d, d1, d2, d3, d4⟩ := hg
  have hNq : (0 : ℚ) < N := by exact_mod_cast hN
  have hS0 : (0 : ℚ) < ∑ j in Finset.range N, (d j : ℚ) := by exact_mod_cast d3
  have hS1 : (∑ j in Finset.range N, (d j : ℚ)) < 2 * N := by exact_mod_cast d4
  generalize hmu : (∑ j in Finset.range N, (d j : ℚ)) / N = mu at d2
  have hmu0 : 0 < mu := by rw [← hmu]; positivity
  have hmu2 : mu < 2 := by
    rw [← hmu, div_lt_iff₀ hNq]
    exact hS1
  have hv : 0 < 2 * (1 / 2 * mu) * (1 - 1 / 2 * mu) := by
    have h1 : 0 < 1 / 2 * mu := by linarith
    have h2 : 0 < 1 - 1 / 2 * mu := by linarith
    positivity
  have hs := hsq _ hv
  unfold colSum
  rw [forLoop_congr N _
    (fun j acc => acc + Flt.fin (((d j : ℚ) - mu) / sq (2 * (1 / 2 * mu) * (1 - 1 / 2 * mu))))
    (Flt.fin 0) ?_]
  · rw [forLoop_sum_fin, zero_add, ← Finset.sum_div, Finset.sum_sub_distrib]
    have : (∑ j in Finset.range N, (d j : ℚ)) = mu * N := by
      rw [← hmu]; field_simp
    rw [this, Finset.sum_const, Finset.card_range, nsmul_eq_mul, mul_comm (N : ℚ) mu, sub_self,
      zero_div]
  · intro j acc hj
    rw [MatrixXf.get_coeff A j i (by rw [hr]; exact hj) hi, hc j hj, d1 j hj, d2,
      matrixEntry_fin sq mu (d j) hv hs]
    rfl

theorem qsqrt_ne_zero (x : ℚ) (hx : 0 < x) : qsqrt x ≠ 0 := by
  unfold qsqrt
  have h1 : 0 < x.num := Rat.num_pos.mpr hx
  have h2 : 0 < Nat.sqrt x.num.toNat := Nat.sqrt_pos.mpr (by omega)
  have h3 : 0 < Nat.sqrt x.den := Nat.sqrt_pos.mpr x.den_pos
  have h4 : (0 : ℚ) < (Nat.sqrt x.num.toNat : ℚ) := by exact_mod_cast h2
  have h5 : (0 : ℚ) < (Nat.sqrt x.den : ℚ) := by exact_mod_cast h3
  positivity

/-- C6. In mode 1 and with no missing genotype, every column of the matrix
that `calcpca` builds through `DatatoMatrix` sums to zero over the samples, in
exact arithmetic.  The MAF bound is non-negative (`pca_main` passes 0) and the
square root of a positive number is not zero.  The run also shows how the
column is made: `A(j,i)` is the mode-1 entry of the dosage `G[i*N+j]` with the
centring value `AF[i]`, which is the mean of the column's dosages. -/
theorem mode1_columns_centered (sq : ℚ → ℚ) (c : GtCodec) (cfg : CalcCfg) (gt0 : List Int)
    (ls : List SrLine) (A : MatrixXf)
    (hsq : ∀ x : ℚ, 0 < x → sq x ≠ 0)
    (hm : Flt.le (Flt.fin 0) cfg.m = true)
    (hgt : ∀ r ∈ ls, calcReads cfg r = true →
      ∃ l, r.gt = some l ∧ l.length = 2 * cfg.N ∧ ∀ x ∈ l, x ≠ c.bcf_gt_missing)
    (hrun : calcpcaMatrix sq c cfg gt0 1 ls = .ok A) :
    1 ≤ cfg.N ∧ A.rows = cfg.N ∧ 1 ≤ A.cols ∧ A.ub = false ∧
    (∀ i, i < A.cols → colSum A cfg.N i = Flt.fin 0) ∧
    ∃ s, calcLoop c cfg (CalcState.init gt0) ls = .ok s ∧ A.cols = s.nkept ∧
      (∀ i, i < s.nkept → GoodCol cfg.N s.G s.AF i) ∧
      (∀ i j, i < s.nkept → j < cfg.N → A.coeff j i
        = some (matrixEntry sq 1 (s.AF.getD i Flt.nan) (s.G.getD (i * cfg.N + j) Flt.nan))) := by
  unfold calcpcaMatrix at hrun
  by_cases hN : cfg.N = 0
  · rw [if_pos hN] at hrun
    exact absurd hrun (by simp)
  rw [if_neg hN] at hrun
  have hNpos : 0 < cfg.N := Nat.pos_of_ne_zero hN
  cases hl : calcLoop c cfg (CalcState.init gt0) ls with
  | error e => simp [hl] at hrun
  | ok s =>
    simp only [hl] at hrun
    by_cases hk : s.nkept = 0
    · rw [if_pos hk] at hrun
      exact absurd hrun (by simp)
    rw [if_neg hk, if_neg (by decide)] at hrun
    injection hrun with hrun
    subst hrun
    have hinit : ColInv cfg.N (CalcState.init gt0) :=
      ⟨rfl, by simp [CalcState.init], fun i hi => absurd hi (Nat.not_lt_zero i)⟩
    obtain ⟨_, _, i3⟩ := calcLoop_colInv c cfg ls _ s hNpos hm hgt hinit hl
    obtain ⟨m1, m2, m3, m4⟩ :=
      DatatoMatrix_spec sq s.G s.AF cfg.N s.nkept 1 (MatrixXf.alloc cfg.N s.nkept) rfl rfl
    refine ⟨hNpos, m1, by rw [m2]; omega, m3, fun i hi => ?_, s, rfl, m2, i3, m4⟩
    rw [m2] at hi
    exact goodCol_colSum sq hsq cfg.N hNpos s.G s.AF i _ m1 (by rw [m2]; exact hi)
      (fun j hj => m4 i j hi hj) (i3 i hi)

/-- Two samples with genotypes `0/0` and `1/1` at the first site and `0/0`
and `0/1` at the second: both columns of the mode-1 matrix sum to zero. -/
theorem mode1_columns_centered_witness :
    (∀ x : ℚ, 0 < x → qsqrt x ≠ 0) ∧
    Flt.le (Flt.fin 0) twoCfg.m = true ∧
    ∃ A, calcpcaMatrix qsqrt htslibCodec twoCfg [0, 0, 0, 0] 1 [homLine, mixLine] = .ok A ∧
      A.rows = 2 ∧ A.cols = 2 ∧ A.ub = false ∧
      colSum A 2 0 = Flt.fin 0 ∧ colSum A 2 1 = Flt.fin 0 := by
  refine ⟨qsqrt_ne_zero, by decide, ?_⟩
  have hgt : ∀ r ∈ [homLine, mixLine], calcReads twoCfg r = true →
      ∃ l, r.gt = some l ∧ l.length = 2 * twoCfg.N
        ∧ ∀ x ∈ l, x ≠ htslibCodec.bcf_gt_missing := by
    intro r hr _
    simp only [List.mem_cons, List.mem_singleton, List.not_mem_nil, or_false] at hr
    rcases hr with rfl | rfl
    · exact ⟨_, rfl, rfl, by decide⟩
    · exact ⟨_, rfl, rfl, by decide⟩
  have hok : (calcpcaMatrix qsqrt htslibCodec twoCfg [0, 0, 0, 0] 1
      [homLine, mixLine]).toOption.map (fun A => A.cols) = some 2 := by decide!
  cases h : calcpcaMatrix qsqrt htslibCodec twoCfg [0, 0, 0, 0] 1 [homLine, mixLine] with
  | error e =>
    rw [h] at hok
    exact absurd hok (by simp [Except.toOption])
  | ok A =>
    rw [h] at hok
    have hcols : A.cols = 2 := by simpa [Except.toOption] using hok
    obtain ⟨_, k2, _, k4, k5, _⟩ :=
      mode1_columns_centered qsqrt htslibCodec twoCfg [0, 0, 0, 0] [homLine, mixLine] A
        qsqrt_ne_zero (by decide) hgt h
    exact ⟨A, rfl, k2, hcols, k4, k5 0 (by omega), k5 1 (by omega)⟩

/-! ## `DatatoSymmMatrix` entry by entry -/

/-- The accumulation loop of `DatatoSymmMatrix` on one entry. -/
theorem symm_accumulate (t : Nat → Flt) (M j1 j2 : Nat) (A : MatrixXf) (v0 : Flt)
    (h1 : j1 < A.rows) (h2 : j2 < A.cols) (h0 : A.coeff j1 j2 = some v0) :
    (forLoop M (fun i (B : MatrixXf) => B.modify j1 j2 (fun a => a + t i)) A).rows = A.rows ∧
    (forLoop M (fun i (B : MatrixXf) => B.modify j1 j2 (fun a => a + t i)) A).cols = A.cols ∧
    (forLoop M (fun i (B : MatrixXf) => B.modify j1 j2 (fun a => a + t i)) A).ub = A.ub ∧
    (forLoop M (fun i (B : MatrixXf) => B.modify j1 j2 (fun a => a + t i)) A).coeff j1 j2
      = some (forLoop M (fun i acc => acc + t i) v0) ∧
    (∀ a b, ¬ (a = j1 ∧ b = j2) →
      (forLoop M (fun i (B : MatrixXf) => B.modify j1 j2 (fun a => a + t i)) A).coeff a b
        = A.coeff a b) := by
  induction M with
  | zero => exact ⟨rfl, rfl, rfl, h0, fun _ _ _ => rfl⟩
  | succ k ih =>
    obtain ⟨i1, i2, i3, i4, i5⟩ := ih
    simp only [forLoop_succ]
    have g1 : j1 < (forLoop k (fun i (B : MatrixXf) => B.modify j1 j2 (fun a => a + t i)) A).rows := by
      rw [i1]; exact h1
    have g2 : j2 < (forLoop k (fun i (B : MatrixXf) => B.modify j1 j2 (fun a => a + t i)) A).cols := by
      rw [i2]; exact h2
    refine ⟨?_, ?_, ?_, ?_, ?_⟩
    · rw [MatrixXf.modify_rows, i1]
    · rw [MatrixXf.modify_cols, i2]
    · rw [MatrixXf.modify_ub _ _ _ _ g1 g2, i3]
    · rw [MatrixXf.modify_coeff _ _ _ _ g1 g2, if_pos ⟨rfl, rfl⟩, i4]
      rfl
    · intro a b hab
      rw [MatrixXf.modify_coeff _ _ _ _ g1 g2, if_neg hab]
      exact i5 a b hab

/-- The body of the inner loop of `DatatoSymmMatrix`: the entries `(j1,j2)`
and `(j2,j1)` receive `symmVal`, nothing else changes. -/
theorem symmEntry_spec (G AF : List Flt) (N M j1 j2 : Nat) (A : MatrixXf)
    (h1 : j1 < A.rows) (h2 : j2 < A.cols) (h3 : j2 < A.rows) (h4 : j1 < A.cols) :
    (symmEntry G AF N M j1 j2 A).rows = A.rows ∧
    (symmEntry G AF N M j1 j2 A).cols = A.cols ∧
    (symmEntry G AF N M j1 j2 A).ub = A.ub ∧
    (∀ a b, (symmEntry G AF N M j1 j2 A).coeff a b
      = if (a = j1 ∧ b = j2) ∨ (a = j2 ∧ b = j1) then some (symmVal G AF N M j1 j2)
        else A.coeff a b) := by
  have w1 : j1 < (A.write j1 j2 (Flt.ofInt 0)).rows := by rw [MatrixXf.write_rows]; exact h1
  have w2 : j2 < (A.write j1 j2 (Flt.ofInt 0)).cols := by rw [MatrixXf.write_cols]; exact h2
  have w0 : (A.write j1 j2 (Flt.ofInt 0)).coeff j1 j2 = some (Flt.ofInt 0) := by
    rw [MatrixXf.write_coeff _ _ _ _ h1 h2, if_pos ⟨rfl, rfl⟩]
  obtain ⟨a1, a2, a3, a4, a5⟩ := symm_accumulate
    (fun i => if j1 = j2 then diagTerm G AF N i j1 else offTerm G AF N i j1 j2)
    M j1 j2 (A.write j1 j2 (Flt.ofInt 0)) (Flt.ofInt 0) w1 w2 w0
  have hA2 : (if j1 = j2 then
        forLoop M (fun i (B : MatrixXf) => B.modify j1 j2 (fun a => a + diagTerm G AF N i j1))
          (A.write j1 j2 (Flt.ofInt 0))
      else
        forLoop M (fun i (B : MatrixXf) => B.modify j1 j2 (fun a => a + offTerm G AF N i j1 j2))
          (A.write j1 j2 (Flt.ofInt 0)))
      = forLoop M (fun i (B : MatrixXf) => B.modify j1 j2
          (fun a => a + (if j1 = j2 then diagTerm G AF N i j1 else offTerm G AF N i j1 j2)))
          (A.write j1 j2 (Flt.ofInt 0)) := by
    by_cases h : j1 = j2
    · simp only [if_pos h]
    · simp only [if_neg h]
  unfold symmEntry
  simp only [hA2]
  generalize forLoop M (fun i (B : MatrixXf) => B.modify j1 j2
      (fun a => a + (if j1 = j2 then diagTerm G AF N i j1 else offTerm G AF N i j1 j2)))
      (A.write j1 j2 (Flt.ofInt 0)) = A2 at a1 a2 a3 a4 a5 ⊢
  rw [MatrixXf.write_rows] at a1
  rw [MatrixXf.write_cols] at a2
  rw [MatrixXf.write_ub _ _ _ _ h1 h2] at a3
  have b1 : j1 < A2.rows := by rw [a1]; exact h1
  have b2 : j2 < A2.cols := by rw [a2]; exact h2
  have c1 : j1 < (A2.modify j1 j2 (fun a => a / symmNorm AF M)).rows := by
    rw [MatrixXf.modify_rows]; exact b1
  have c2 : j2 < (A2.modify j1 j2 (fun a => a / symmNorm AF M)).cols := by
    rw [MatrixXf.modify_cols]; exact b2
  have c3 : j2 < (A2.modify j1 j2 (fun a => a / symmNorm AF M)).rows := by
    rw [MatrixXf.modify_rows, a1]; exact h3
  have c4 : j1 < (A2.modify j1 j2 (fun a => a / symmNorm AF M)).cols := by
    rw [MatrixXf.modify_cols, a2]; exact h4
  have hval : (A2.modify j1 j2 (fun a => a / symmNorm AF M)).coeff j1 j2
      = some (symmVal G AF N M j1 j2) := by
    rw [MatrixXf.modify_coeff _ _ _ _ b1 b2, if_pos ⟨rfl, rfl⟩, a4]
    rfl
  refine ⟨?_, ?_, ?_, ?_⟩
  · rw [MatrixXf.set_rows, MatrixXf.modify_rows, a1]
  · rw [MatrixXf.set_cols, MatrixXf.modify_cols, a2]
  · rw [MatrixXf.set_ub _ _ _ _ c3 c4, MatrixXf.modify_ub _ _ _ _ b1 b2, a3]
  · intro a b
    rw [MatrixXf.set_coeff _ _ _ _ c3 c4, MatrixXf.get_coeff _ _ _ c1 c2, hval]
    by_cases hx : a = j2 ∧ b = j1
    · rw [if_pos hx, if_pos (Or.inr hx)]
    · rw [if_neg hx, MatrixXf.modify_coeff _ _ _ _ b1 b2]
      by_cases hy : a = j1 ∧ b = j2
      · rw [if_pos hy, if_pos (Or.inl hy), a4]
        rfl
      · rw [if_neg hy, if_neg (by tauto), a5 a b hy, MatrixXf.write_coeff _ _ _ _ h1 h2,
          if_neg hy]

/-- One row of `DatatoSymmMatrix`: the loop over `j2 = j1 .. N-1`. -/
theorem symmRow_spec (G AF : List Flt) (N M j1 : Nat) (B : MatrixXf) (hj : j1 < N)
    (hr : N ≤ B.rows) (hc : N ≤ B.cols) :
    (forLoop (N - j1) (fun d (C : MatrixXf) => symmEntry G AF N M j1 (j1 + d) C) B).rows
      = B.rows ∧
    (forLoop (N - j1) (fun d (C : MatrixXf) => symmEntry G AF N M j1 (j1 + d) C) B).cols
      = B.cols ∧
    (forLoop (N - j1) (fun d (C : MatrixXf) => symmEntry G AF N M j1 (j1 + d) C) B).ub = B.ub ∧
    (∀ b, j1 ≤ b → b < N →
      (forLoop (N - j1) (fun d (C : MatrixXf) => symmEntry G AF N M j1 (j1 + d) C) B).coeff j1 b
        = some (symmVal G AF N M j1 b) ∧
      (forLoop (N - j1) (fun d (C : MatrixXf) => symmEntry G AF N M j1 (j1 + d) C) B).coeff b j1
        = some (symmVal G AF N M j1 b)) ∧
    (∀ a b, ¬ (a = j1 ∧ j1 ≤ b ∧ b < N) → ¬ (b = j1 ∧ j1 ≤ a ∧ a < N) →
      (forLoop (N - j1) (fun d (C : MatrixXf) => symmEntry G AF N M j1 (j1 + d) C) B).coeff a b
        = B.coeff a b) := by
  have key := forLoop_inv
    (fun d (C : MatrixXf) =>
      C.rows = B.rows ∧ C.cols = B.cols ∧ C.ub = B.ub ∧
      (∀ b, j1 ≤ b → b < j1 + d →
        C.coeff j1 b = some (symmVal G AF N M j1 b) ∧
        C.coeff b j1 = some (symmVal G AF N M j1 b)) ∧
      (∀ a b, ¬ (a = j1 ∧ j1 ≤ b ∧ b < j1 + d) → ¬ (b = j1 ∧ j1 ≤ a ∧ a < j1 + d) →
        C.coeff a b = B.coeff a b))
    (N - j1) (fun d (C : MatrixXf) => symmEntry G AF N M j1 (j1 + d) C) B
    ⟨rfl, rfl, rfl, fun b h1 h2 => by omega, fun _ _ _ _ => rfl⟩ ?_
  · obtain ⟨k1, k2, k3, k4, k5⟩ := key
    rw [show j1 + (N - j1) = N from by omega] at k4 k5
    exact ⟨k1, k2, k3, k4, k5⟩
  · intro d C hd ⟨c1, c2, c3, c4, c5⟩
    obtain ⟨e1, e2, e3, e4⟩ := symmEntry_spec G AF N M j1 (j1 + d) C
      (by rw [c1]; omega) (by rw [c2]; omega) (by rw [c1]; omega) (by rw [c2]; omega)
    refine ⟨by rw [e1, c1], by rw [e2, c2], by rw [e3, c3], fun b hb1 hb2 => ?_,
      fun a b h1 h2 => ?_⟩
    · by_cases hbd : b = j1 + d
      · subst hbd
        exact ⟨by rw [e4, if_pos (Or.inl ⟨rfl, rfl⟩)], by rw [e4, if_pos (Or.inr ⟨rfl, rfl⟩)]⟩
      · obtain ⟨g1, g2⟩ := c4 b hb1 (by omega)
        exact ⟨by rw [e4, if_neg (by omega), g1], by rw [e4, if_neg (by omega), g2]⟩
    · rw [e4, if_neg (by omega)]
      exact c5 a b (by omega) (by omega)

/-- Every entry of the matrix `DatatoSymmMatrix` builds, when the matrix holds
at least `N` rows and `N` columns: the entries `(a,b)` and `(b,a)` with
`a ≤ b < N` are `symmVal a b`, and no entry outside `N × N` is written. -/
theorem DatatoSymmMatrix_spec (G AF : List Flt) (N M : Nat) (A : MatrixXf)
    (hr : N ≤ A.rows) (hc : N ≤ A.cols) :
    (DatatoSymmMatrix A G AF N M).rows = A.rows ∧
    (DatatoSymmMatrix A G AF N M).cols = A.cols ∧
    (DatatoSymmMatrix A G AF N M).ub = A.ub ∧
    (∀ a b, a ≤ b → b < N →
      (DatatoSymmMatrix A G AF N M).coeff a b = some (symmVal G AF N M a b) ∧
      (DatatoSymmMatrix A G AF N M).coeff b a = some (symmVal G AF N M a b)) ∧
    (∀ a b, ¬ (a < N ∧ b < N) → (DatatoSymmMatrix A G AF N M).coeff a b = A.coeff a b) := by
  unfold DatatoSymmMatrix
  refine forLoop_inv
    (fun j1 (B : MatrixXf) =>
      B.rows = A.rows ∧ B.cols = A.cols ∧ B.ub = A.ub ∧
      (∀ a b, a < j1 → a ≤ b → b < N →
        B.coeff a b = some (symmVal G AF N M a b) ∧
        B.coeff b a = some (symmVal G AF N M a b)) ∧
      (∀ a b, ¬ (a < N ∧ b < N) → B.coeff a b = A.coeff a b))
    N
    (fun j1 (B : MatrixXf) =>
      forLoop (N - j1) (fun d (C : MatrixXf) => symmEntry G AF N M j1 (j1 + d) C) B)
    A
    ⟨rfl, rfl, rfl, fun a b h => absurd h (Nat.not_lt_zero a), fun _ _ _ => rfl⟩ ?_
    |> fun ⟨k1, k2, k3, k4, k5⟩ =>
      ⟨k1, k2, k3, fun a b h1 h2 => k4 a b (by omega) h1 h2, k5⟩
  intro j1 B hj ⟨b1, b2, b3, b4, b5⟩
  obtain ⟨r1, r2, r3, r4, r5⟩ := symmRow_spec G AF N M j1 B hj (by rw [b1]; exact hr)
    (by rw [b2]; exact hc)
  refine ⟨by rw [r1, b1], by rw [r2, b2], by rw [r3, b3], fun a b h1 h2 h3 => ?_,
    fun a b h => ?_⟩
  · by_cases haj : a = j1
    · subst haj
      exact r4 b h2 h3
    · obtain ⟨g1, g2⟩ := b4 a b (by omega) h2 h3
      exact ⟨by rw [r5 a b (by omega) (by omega), g1],
        by rw [r5 b a (by omega) (by omega), g2]⟩
  · rw [r5 a b (by omega) (by omega)]
    exact b5 a b h

/-- The normaliser of `DatatoSymmMatrix` in terms of `p = AF[i]/2`: the sum of
`p*(1-p)` over the sites, divided by 4. -/
theorem symmNorm_eq (AF : List Flt) (M : Nat) :
    symmNorm AF M =
      forLoop M
        (fun i nm => nm + Flt.fin (1 / 2) * AF.getD i Flt.nan
          * (Flt.fin 1 - Flt.fin (1 / 2) * AF.getD i Flt.nan))
        (Flt.fin 0)
      / Flt.ofInt 4 := by
  unfold symmNorm
  congr 1
  apply forLoop_congr
  intro i t _
  rw [Flt.half_mul_comm]

/-- C7 (as amended). The mode-2 matrix of `DatatoSymmMatrix`, on a matrix with
at least `N` rows and `N` columns.  With `p = AF[i]/2` and `mu = AF[i]`, the
normaliser is the sum over the `M` sites of `p*(1-p)`, divided by 4; an
off-diagonal entry `(j1,j2)`, and its mirror `(j2,j1)`, is the sum over the
sites of `(g[i,j1] - mu)*(g[i,j2] - mu)` divided by the normaliser; a diagonal
entry `(j,j)` is the sum of `(g[i,j] - mu)^2 - g[i,j]*(2 - g[i,j])` divided by
the normaliser; no access leaves the matrix. -/
theorem symm_matrix_entries (G AF : List Flt) (N M : Nat) (A : MatrixXf)
    (hr : N ≤ A.rows) (hc : N ≤ A.cols) :
    symmNorm AF M =
      forLoop M
        (fun i nm => nm + Flt.fin (1 / 2) * AF.getD i Flt.nan
          * (Flt.fin 1 - Flt.fin (1 / 2) * AF.getD i Flt.nan))
        (Flt.fin 0)
      / Flt.ofInt 4 ∧
    (∀ j1 j2, j1 < j2 → j2 < N →
      (DatatoSymmMatrix A G AF N M).coeff j1 j2
        = some (forLoop M
            (fun i acc => acc + (G.getD (i * N + j1) Flt.nan - AF.getD i Flt.nan)
              * (G.getD (i * N + j2) Flt.nan - AF.getD i Flt.nan))
            (Flt.ofInt 0) / symmNorm AF M) ∧
      (DatatoSymmMatrix A G AF N M).coeff j2 j1
        = (DatatoSymmMatrix A G AF N M).coeff j1 j2) ∧
    (∀ j, j < N →
      (DatatoSymmMatrix A G AF N M).coeff j j
        = some (forLoop M
            (fun i acc => acc + ((G.getD (i * N + j) Flt.nan - AF.getD i Flt.nan)
                * (G.getD (i * N + j) Flt.nan - AF.getD i Flt.nan)
              - G.getD (i * N + j) Flt.nan * (Flt.ofInt 2 - G.getD (i * N + j) Flt.nan)))
            (Flt.ofInt 0) / symmNorm AF M)) ∧
    (DatatoSymmMatrix A G AF N M).ub = A.ub := by
  obtain ⟨_, _, s3, s4, _⟩ := DatatoSymmMatrix_spec G AF N M A hr hc
  refine ⟨symmNorm_eq AF M, fun j1 j2 h1 h2 => ?_, fun j hj => ?_, s3⟩
  · obtain ⟨g1, g2⟩ := s4 j1 j2 (by omega) h2
    refine ⟨?_, by rw [g1, g2]⟩
    rw [g1]
    simp only [symmVal, symmSum, if_neg (Nat.ne_of_lt h1), offTerm]
  · obtain ⟨g1, _⟩ := s4 j j (Nat.le_refl j) hj
    rw [g1]
    simp only [symmVal, symmSum, if_true, diagTerm]

/-- C7, counterexample. One sample with genotype `0/1` at the only site, mode
2: `G = [1]`, `AF = [1]`, so `p = 1/2` and the diagonal sum is `-1`.  The code
divides by `p*(1-p)/4 = 1/16` and stores `-16`; the normaliser of the claim,
the mean of `2*p*(1-p)` over 4, is `1/8` and gives `-8`. -/
theorem symm_norm_counterexample :
    (calcLoop htslibCodec oneCfg (CalcState.init [0, 0]) [hetLine]).toOption.map
        (fun s => (s.G, s.AF, s.nkept)) = some ([Flt.fin 1], [Flt.fin 1], 1) ∧
    (calcpcaMatrix qsqrt htslibCodec oneCfg [0, 0] 2 [hetLine]).toOption.bind
        (fun A => A.coeff 0 0) = some (Flt.fin (-16)) ∧
    symmNorm [Flt.fin 1] 1 = Flt.fin (1 / 16) ∧
    claimSymmNorm [Flt.fin 1] 1 = Flt.fin (1 / 8) ∧
    claimSymmVal [Flt.fin 1] [Flt.fin 1] 1 1 0 0 = Flt.fin (-8) ∧
    Flt.fin (-16) ≠ Flt.fin (-8) := by
  refine ⟨by decide!, by decide!, by decide!, by decide!, by decide!, by decide!⟩

/-- The amended claim at the input of the counterexample. -/
theorem symm_matrix_entries_witness :
    1 ≤ (MatrixXf.alloc 1 1).rows ∧ 1 ≤ (MatrixXf.alloc 1 1).cols ∧
    (DatatoSymmMatrix (MatrixXf.alloc 1 1) [Flt.fin 1] [Flt.fin 1] 1 1).coeff 0 0
      = some (Flt.fin (-16)) ∧
    (DatatoSymmMatrix (MatrixXf.alloc 1 1) [Flt.fin 1] [Flt.fin 1] 1 1).ub = false := by
  have h := symm_matrix_entries [Flt.fin 1] [Flt.fin 1] 1 1 (MatrixXf.alloc 1 1)
    (by decide) (by decide)
  refine ⟨by decide, by decide, ?_, h.2.2.2⟩
  rw [h.2.2.1 0 (by decide)]
  decide!

/-- The accumulation loops of `symmEntry` keep the size of the matrix. -/
theorem symm_rows_cols_aux (G AF : List Flt) (N M j1 j2 : Nat) (C : MatrixXf) :
    ((forLoop M (fun i (B : MatrixXf) => B.modify j1 j2 (fun a => a + diagTerm G AF N i j1))
        (C.write j1 j2 (Flt.ofInt 0))).rows = C.rows ∧
     (forLoop M (fun i (B : MatrixXf) => B.modify j1 j2 (fun a => a + diagTerm G AF N i j1))
        (C.write j1 j2 (Flt.ofInt 0))).cols = C.cols) ∧
    ((forLoop M (fun i (B : MatrixXf) => B.modify j1 j2 (fun a => a + offTerm G AF N i j1 j2))
        (C.write j1 j2 (Flt.ofInt 0))).rows = C.rows ∧
     (forLoop M (fun i (B : MatrixXf) => B.modify j1 j2 (fun a => a + offTerm G AF N i j1 j2))
        (C.write j1 j2 (Flt.ofInt 0))).cols = C.cols) := by
  constructor
  · refine forLoop_inv (fun _ (B : MatrixXf) => B.rows = C.rows ∧ B.cols = C.cols) M _ _
      ⟨MatrixXf.write_rows _ _ _ _, MatrixXf.write_cols _ _ _ _⟩ ?_
    intro i B _ hB
    exact ⟨by rw [MatrixXf.modify_rows]; exact hB.1, by rw [MatrixXf.modify_cols]; exact hB.2⟩
  · refine forLoop_inv (fun _ (B : MatrixXf) => B.rows = C.rows ∧ B.cols = C.cols) M _ _
      ⟨MatrixXf.write_rows _ _ _ _, MatrixXf.write_cols _ _ _ _⟩ ?_
    intro i B _ hB
    exact ⟨by rw [MatrixXf.modify_rows]; exact hB.1, by rw [MatrixXf.modify_cols]; exact hB.2⟩

/-! ## The matrix handed to the decomposition in mode 2 -/

/-- In mode 2 the matrix `calcpca` builds has `N` rows and `M = nkept`
columns: it is allocated before `vsize` is set to `N`. -/
theorem calcpcaMatrix_mode2_size (sq : ℚ → ℚ) (c : GtCodec) (cfg : CalcCfg) (gt0 : List Int)
    (covn : Int) (ls : List SrLine) (A : MatrixXf) (hcov : covn ≥ 2)
    (h : calcpcaMatrix sq c cfg gt0 covn ls = .ok A) :
    A.rows = cfg.N ∧
    ∃ s, calcLoop c cfg (CalcState.init gt0) ls = .ok s ∧ A.cols = s.nkept := by
  unfold calcpcaMatrix at h
  by_cases hN : cfg.N = 0
  · rw [if_pos hN] at h
    exact absurd h (by simp)
  rw [if_neg hN] at h
  cases hl : calcLoop c cfg (CalcState.init gt0) ls with
  | error e => simp [hl] at h
  | ok s =>
    simp only [hl] at h
    by_cases hk : s.nkept = 0
    · rw [if_pos hk] at h
      exact absurd h (by simp)
    rw [if_neg hk, if_pos hcov] at h
    injection h with h
    subst h
    unfold DatatoSymmMatrix
    have key := forLoop_inv
      (fun _ (B : MatrixXf) => B.rows = cfg.N ∧ B.cols = s.nkept)
      cfg.N
      (fun j1 (B : MatrixXf) =>
        forLoop (cfg.N - j1)
          (fun d (C : MatrixXf) => symmEntry s.G s.AF cfg.N s.nkept j1 (j1 + d) C) B)
      (MatrixXf.alloc cfg.N s.nkept) ⟨rfl, rfl⟩ ?_
    · exact ⟨key.1, s, rfl, key.2⟩
    · intro j1 B _ hB
      refine forLoop_inv (fun _ (C : MatrixXf) => C.rows = cfg.N ∧ C.cols = s.nkept)
        (cfg.N - j1) _ B hB ?_
      intro d C _ hC
      unfold symmEntry
      simp only [MatrixXf.set_rows, MatrixXf.set_cols, MatrixXf.modify_rows,
        MatrixXf.modify_cols]
      split
      · have := symm_rows_cols_aux s.G s.AF cfg.N s.nkept j1 (j1 + d) C
        exact ⟨by rw [this.1.1]; exact hC.1, by rw [this.1.2]; exact hC.2⟩
      · have := symm_rows_cols_aux s.G s.AF cfg.N s.nkept j1 (j1 + d) C
        exact ⟨by rw [this.2.1]; exact hC.1, by rw [this.2.2]; exact hC.2⟩

/-- C8, the failing inputs.  Two samples in mode 2.  With three retained
variants the matrix handed to the decomposition has 2 rows and 3 columns and
its last column was never written; with one retained variant it has 2 rows
and 1 column and `DatatoSymmMatrix` wrote outside it. -/
theorem calcpca_mode2_not_square :
    (calcpcaMatrix qsqrt htslibCodec twoCfg [0, 0, 0, 0] 2
        [homLine, mixLine, homLine]).toOption.map
      (fun A => (A.rows, A.cols, A.coeff 0 2, A.coeff 1 2, A.ub))
      = some (2, 3, none, none, false) ∧
    (calcpcaMatrix qsqrt htslibCodec twoCfg [0, 0, 0, 0] 2 [homLine]).toOption.map
      (fun A => (A.rows, A.cols, A.ub)) = some (2, 1, true) := by
  constructor <;> decide!

/-! ## The rank given to the decomposition -/

/-- When the requested count fits, the clipped extra is not negative and the
rank lies between `npca` and `min(N, vsize)`. -/
theorem randomRank_bounds (N vsize : Nat) (npca extra : Int) (he : 0 ≤ extra)
    (hK : npca ≤ min (N : Int) (vsize : Int)) :
    0 ≤ clippedExtra N vsize npca extra ∧
    npca ≤ randomRank N vsize npca extra ∧
    randomRank N vsize npca extra ≤ min (N : Int) (vsize : Int) := by
  unfold randomRank clippedExtra
  omega

/-- C9, the failing input.  Five samples, a hundred retained variants and the
defaults `npca = 20`, `extra = 100` in mode 1: the clipped extra is `-15`, the
rank given to `RandomSVD` is 5, and `calcpca` then reads the 20 columns
`0..19`; `20 ≤ 5` fails. -/
theorem calcpca_rank_small_cohort :
    calcVsize 5 100 1 = 100 ∧
    clippedExtra 5 (calcVsize 5 100 1) 20 100 = -15 ∧
    randomRank 5 (calcVsize 5 100 1) 20 100 = 5 ∧
    ¬ ((20 : Int) ≤ randomRank 5 (calcVsize 5 100 1) 20 100) ∧
    ¬ ((20 : Int) ≤ min (5 : Int) (100 : Int)) := by
  decide

/-! ## Non-diploid records in projection -/

/-- At a panel site whose genotype record is not diploid, `gs` is not
refreshed: the sample loop that follows reads what the previous site left. -/
theorem pcaFillGs_nondiploid (c : GtCodec) (cfg : PcaCfg) (r : SrLine) (gs : Nat → Flt)
    (h0 : r.has0 = true) (hn : r.ngt ≠ 2 * cfg.N) : pcaFillGs c cfg r gs = gs := by
  unfold pcaFillGs
  rw [if_pos h0, if_neg hn]

/-- C10, the failing input.  One sample and two panel sites with `AF = 1/3` and
loading `1`; the first record is diploid (`0/1`), the second haploid.  The run
does not exit: the first site alone gives the score `1/2`, the two sites give
`1/4`, the haploid site having added `(1/2 - 2/3)/(2/3) = -1/4` computed from
the standardised value `1/2` that the first site left in `gs`.  A haploid site
alone is scored from the initial `gs = 0`. -/
theorem pca_nondiploid_stale_dosage :
    haploidSite.ngt ≠ 2 * oneSampleCfg.N ∧
    pca qsqrt htslibCodec oneSampleCfg [diploidSite] = .ok [[Flt.fin (1 / 2)]] ∧
    pca qsqrt htslibCodec oneSampleCfg [diploidSite, haploidSite] = .ok [[Flt.fin (1 / 4)]] ∧
    pca qsqrt htslibCodec oneSampleCfg [haploidSite] = .ok [[Flt.fin (-1)]] := by
  refine ⟨by decide, by decide!, by decide!, by decide!⟩

/-! ## Rounding -/

theorem roundEven_le_of_lt (y : ℚ) (k : ℤ) (h : y < (k : ℚ) + 1 / 2) : roundEven y ≤ k := by
  have h1 := Int.floor_le y
  have hk : ⌊y⌋ ≤ k := by
    have : ((⌊y⌋ : ℤ) : ℚ) < ((k + 1 : ℤ) : ℚ) := by push_cast; linarith
    have := Int.cast_lt.mp this
    omega
  unfold roundEven
  split_ifs with c1 c2 c3
  · exact hk
  · have : ((⌊y⌋ : ℤ) : ℚ) < ((k : ℤ) : ℚ) := by linarith
    have := Int.cast_lt.mp this
    omega
  · exact hk
  · have : y - ⌊y⌋ = 1 / 2 := le_antisymm (not_lt.mp c2) (not_lt.mp c1)
    have : ((⌊y⌋ : ℤ) : ℚ) < ((k : ℤ) : ℚ) := by linarith
    have := Int.cast_lt.mp this
    omega

theorem le_roundEven_of_lt (y : ℚ) (k : ℤ) (h : (k : ℚ) - 1 / 2 < y) : k ≤ roundEven y := by
  have h1 := Int.lt_floor_add_one y
  have hk : k - 1 ≤ ⌊y⌋ := by
    have : ((k - 1 : ℤ) : ℚ) < ((⌊y⌋ + 1 : ℤ) : ℚ) := by push_cast; linarith
    have := Int.cast_lt.mp this
    omega
  unfold roundEven
  split_ifs with c1 c2 c3
  · have : ((k - 1 : ℤ) : ℚ) < ((⌊y⌋ : ℤ) : ℚ) := by push_cast; linarith
    have := Int.cast_lt.mp this
    omega
  · omega
  · have : y - ⌊y⌋ = 1 / 2 := le_antisymm (not_lt.mp c2) (not_lt.mp c1)
    have : ((k - 1 : ℤ) : ℚ) < ((⌊y⌋ : ℤ) : ℚ) := by push_cast; linarith
    have := Int.cast_lt.mp this
    omega
  · omega

theorem roundEven_intCast (k : ℤ) : roundEven (k : ℚ) = k :=
  le_antisymm (roundEven_le_of_lt _ k (by linarith)) (le_roundEven_of_lt _ k (by linarith))

theorem roundSig_pos (p : ℕ) (x : ℚ) (hx : 0 < x) :
    roundSig p x = (roundEven (x * (2 : ℚ) ^ ((p : ℤ) - 1 - Int.log 2 x)) : ℚ)
        / (2 : ℚ) ^ ((p : ℤ) - 1 - Int.log 2 x) := by
  unfold roundSig
  rw [if_neg (ne_of_gt hx), abs_of_pos hx]

/-- Below a power of two, the rounded value is at most that power. -/
theorem roundSig_le_zpow (p : ℕ) (x : ℚ) (E : ℤ) (hx : 0 < x) (h : x < (2 : ℚ) ^ E) :
    roundSig p x ≤ (2 : ℚ) ^ E := by
  rw [roundSig_pos p x hx]
  have two : (1 : ℚ) < 2 := by norm_num
  have h1 : (2 : ℚ) ^ Int.log 2 x ≤ x := by
    have := Int.zpow_log_le_self (b := 2) (by norm_num) hx
    simpa using this
  have h2 : x < (2 : ℚ) ^ (Int.log 2 x + 1) := by
    have := Int.lt_zpow_succ_log_self (b := 2) (by norm_num) x
    simpa using this
  have he : Int.log 2 x + 1 ≤ E := by
    have : (2 : ℚ) ^ Int.log 2 x < (2 : ℚ) ^ E := lt_of_le_of_lt h1 h
    have := (zpow_lt_zpow_iff_right₀ two).mp this
    omega
  generalize Int.log 2 x = e at h1 h2 he ⊢
  have hs : (0 : ℚ) < (2 : ℚ) ^ ((p : ℤ) - 1 - e) := zpow_pos (by norm_num) _
  have hy : x * (2 : ℚ) ^ ((p : ℤ) - 1 - e) < (((2 : ℤ) ^ p : ℤ) : ℚ) + 1 / 2 := by
    have : x * (2 : ℚ) ^ ((p : ℤ) - 1 - e) < (2 : ℚ) ^ (e + 1) * (2 : ℚ) ^ ((p : ℤ) - 1 - e) :=
      mul_lt_mul_of_pos_right h2 hs
    rw [← zpow_add₀ (by norm_num : (2 : ℚ) ≠ 0)] at this
    rw [show e + 1 + ((p : ℤ) - 1 - e) = (p : ℤ) from by ring, zpow_natCast] at this
    push_cast
    linarith
  have hr := roundEven_le_of_lt _ _ hy
  have hr' : (roundEven (x * (2 : ℚ) ^ ((p : ℤ) - 1 - e)) : ℚ) ≤ (2 : ℚ) ^ (p : ℤ) := by
    have : ((roundEven (x * (2 : ℚ) ^ ((p : ℤ) - 1 - e)) : ℤ) : ℚ) ≤ (((2 : ℤ) ^ p : ℤ) : ℚ) :=
      Int.cast_le.mpr hr
    rw [zpow_natCast]
    push_cast at this
    exact this
  rw [div_le_iff₀ hs]
  calc (roundEven (x * (2 : ℚ) ^ ((p : ℤ) - 1 - e)) : ℚ) ≤ (2 : ℚ) ^ (p : ℤ) := hr'
    _ = (2 : ℚ) ^ (e + 1) * (2 : ℚ) ^ ((p : ℤ) - 1 - e) := by
        rw [← zpow_add₀ (by norm_num : (2 : ℚ) ≠ 0)]
        congr 1
        ring
    _ ≤ (2 : ℚ) ^ E * (2 : ℚ) ^ ((p : ℤ) - 1 - e) :=
        mul_le_mul_of_nonneg_right (zpow_le_zpow_right₀ (le_of_lt two) he) (le_of_lt hs)

/-- From a power of two on, the rounded value is at least that power. -/
theorem zpow_le_roundSig (p : ℕ) (x : ℚ) (E : ℤ) (hp : 1 ≤ p) (h : (2 : ℚ) ^ E ≤ x) :
    (2 : ℚ) ^ E ≤ roundSig p x := by
  have two : (1 : ℚ) < 2 := by norm_num
  have hx : 0 < x := lt_of_lt_of_le (zpow_pos (by norm_num) _) h
  rw [roundSig_pos p x hx]
  have h1 : (2 : ℚ) ^ Int.log 2 x ≤ x := by
    have := Int.zpow_log_le_self (b := 2) (by norm_num) hx
    simpa using this
  have h2 : x < (2 : ℚ) ^ (Int.log 2 x + 1) := by
    have := Int.lt_zpow_succ_log_self (b := 2) (by norm_num) x
    simpa using this
  have he : E ≤ Int.log 2 x := by
    have : (2 : ℚ) ^ E < (2 : ℚ) ^ (Int.log 2 x + 1) := lt_of_le_of_lt h h2
    have := (zpow_lt_zpow_iff_right₀ two).mp this
    omega
  generalize Int.log 2 x = e at h1 h2 he ⊢
  have hs : (0 : ℚ) < (2 : ℚ) ^ ((p : ℤ) - 1 - e) := zpow_pos (by norm_num) _
  obtain ⟨k, rfl⟩ : ∃ k, p = k + 1 := ⟨p - 1, by omega⟩
  have hy : (((2 : ℤ) ^ k : ℤ) : ℚ) - 1 / 2 < x * (2 : ℚ) ^ (((k + 1 : ℕ) : ℤ) - 1 - e) := by
    have : (2 : ℚ) ^ e * (2 : ℚ) ^ (((k + 1 : ℕ) : ℤ) - 1 - e)
        ≤ x * (2 : ℚ) ^ (((k + 1 : ℕ) : ℤ) - 1 - e) :=
      mul_le_mul_of_nonneg_right h1 (le_of_lt hs)
    rw [← zpow_add₀ (by norm_num : (2 : ℚ) ≠ 0)] at this
    rw [show e + (((k + 1 : ℕ) : ℤ) - 1 - e) = (k : ℤ) from by push_cast; ring,
      zpow_natCast] at this
    push_cast at this ⊢
    linarith
  have hr := le_roundEven_of_lt _ _ hy
  have hr' : (2 : ℚ) ^ (k : ℤ)
      ≤ (roundEven (x * (2 : ℚ) ^ (((k + 1 : ℕ) : ℤ) - 1 - e)) : ℚ) := by
    have : (((2 : ℤ) ^ k : ℤ) : ℚ)
        ≤ ((roundEven (x * (2 : ℚ) ^ (((k + 1 : ℕ) : ℤ) - 1 - e)) : ℤ) : ℚ) :=
      Int.cast_le.mpr hr
    rw [zpow_natCast]
    push_cast at this
    exact this
  rw [le_div_iff₀ hs]
  calc (2 : ℚ) ^ E * (2 : ℚ) ^ (((k + 1 : ℕ) : ℤ) - 1 - e)
      ≤ (2 : ℚ) ^ e * (2 : ℚ) ^ (((k + 1 : ℕ) : ℤ) - 1 - e) :=
        mul_le_mul_of_nonneg_right (zpow_le_zpow_right₀ (le_of_lt two) he) (le_of_lt hs)
    _ = (2 : ℚ) ^ (k : ℤ) := by
        rw [← zpow_add₀ (by norm_num : (2 : ℚ) ≠ 0)]
        congr 1
        push_cast
        ring
    _ ≤ _ := hr'

/-- Between `1/2` and `1` a `float` is a multiple of `2^-24`. -/
theorem roundSig_half_one (x : ℚ) (h1 : 1 / 2 ≤ x) (h2 : x < 1) :
    roundSig 24 x = (roundEven (x * 16777216) : ℚ) / 16777216 := by
  have two : (1 : ℚ) < 2 := by norm_num
  have hx : 0 < x := by linarith
  rw [roundSig_pos 24 x hx]
  have g1 : (2 : ℚ) ^ Int.log 2 x ≤ x := by
    have := Int.zpow_log_le_self (b := 2) (by norm_num) hx
    simpa using this
  have g2 : x < (2 : ℚ) ^ (Int.log 2 x + 1) := by
    have := Int.lt_zpow_succ_log_self (b := 2) (by norm_num) x
    simpa using this
  have he : Int.log 2 x = -1 := by
    have a1 : (2 : ℚ) ^ Int.log 2 x < (2 : ℚ) ^ (0 : ℤ) := by
      rw [zpow_zero]; linarith
    have a2 : (2 : ℚ) ^ (-1 : ℤ) < (2 : ℚ) ^ (Int.log 2 x + 1) := by
      have : (2 : ℚ) ^ (-1 : ℤ) = 1 / 2 := by norm_num
      rw [this]; linarith
    have b1 := (zpow_lt_zpow_iff_right₀ two).mp a1
    have b2 := (zpow_lt_zpow_iff_right₀ two).mp a2
    omega
  rw [he]
  norm_num

/-- A count below `2^24` converts to `float` exactly. -/
theorem roundSig_natCast (n : ℕ) (h : n < 2 ^ 24) : roundSig 24 (n : ℚ) = n := by
  by_cases h0 : n = 0
  · subst h0
    simp [roundSig]
  have hx : (0 : ℚ) < n := by exact_mod_cast Nat.pos_of_ne_zero h0
  rw [roundSig_pos 24 _ hx, Int.log_natCast]
  have hL : Nat.log 2 n < 24 := Nat.log_lt_of_lt_pow h0 h
  obtain ⟨k, hk⟩ : ∃ k : ℕ, ((24 : ℕ) : ℤ) - 1 - (Nat.log 2 n : ℤ) = (k : ℤ) :=
    ⟨23 - Nat.log 2 n, by omega⟩
  rw [hk, zpow_natCast]
  have : (n : ℚ) * (2 : ℚ) ^ k = (((n * 2 ^ k : ℕ) : ℤ) : ℚ) := by push_cast; ring
  rw [this, roundEven_intCast]
  push_cast
  field_simp

theorem roundSig_nine_tenths :
    roundSig 53 (9 / 10) = 8106479329266893 / 9007199254740992 := by
  decide!

/-- The test of line 261 for counts below `2^24`, away from the boundary. -/
theorem overlapBelow_spec (n0 n1 : ℕ) (h0 : n0 < 2 ^ 24) (h1 : n1 < 2 ^ 24) :
    (10 * n0 < 9 * n1 → overlapBelow n0 n1 = true) ∧
    (9 * n1 < 10 * n0 → overlapBelow n0 n1 = false) := by
  unfold overlapBelow
  by_cases hz : n1 = 0
  · subst hz
    simp
  rw [if_neg hz, roundSig_natCast n0 h0, roundSig_natCast n1 h1, roundSig_nine_tenths]
  have hn1 : (0 : ℚ) < n1 := by exact_mod_cast Nat.pos_of_ne_zero hz
  have hn1' : (n1 : ℚ) < 16777216 := by exact_mod_cast h1
  constructor
  · intro h
    have hq : (n0 : ℚ) / n1 < 9 / 10 := by
      rw [div_lt_iff₀ hn1]
      have : (10 * n0 : ℚ) < 9 * n1 := by exact_mod_cast h
      linarith
    rw [decide_eq_true_eq]
    by_cases hx0 : (n0 : ℚ) / n1 = 0
    · rw [hx0]
      simp [roundSig]
    have hxpos : (0 : ℚ) < (n0 : ℚ) / n1 :=
      lt_of_le_of_ne (by positivity) (Ne.symm hx0)
    by_cases hhalf : (n0 : ℚ) / n1 < 1 / 2
    · have := roundSig_le_zpow 24 _ (-1) hxpos (by norm_num; linarith)
      have e : (2 : ℚ) ^ (-1 : ℤ) = 1 / 2 := by norm_num
      rw [e] at this
      refine lt_of_le_of_lt this ?_
      norm_num
    · rw [roundSig_half_one _ (not_lt.mp hhalf) (by linarith)]
      have hr := roundEven_le_of_lt ((n0 : ℚ) / n1 * 16777216) 15099494 (by norm_num; linarith)
      have hr' : (roundEven ((n0 : ℚ) / n1 * 16777216) : ℚ) ≤ 15099494 := by
        exact_mod_cast hr
      rw [div_lt_iff₀ (by norm_num)]
      refine lt_of_le_of_lt hr' ?_
      norm_num
  · intro h
    have hq : (9 : ℚ) / 10 + 1 / (10 * n1) ≤ (n0 : ℚ) / n1 := by
      rw [le_div_iff₀ hn1]
      have : (9 * n1 + 1 : ℚ) ≤ 10 * n0 := by exact_mod_cast h
      have e : ((9 : ℚ) / 10 + 1 / (10 * n1)) * n1 = (9 * n1 + 1) / 10 := by
        field_simp
        ring
      rw [e]
      linarith
    have hstep : (1 : ℚ) / (10 * 16777216) < 1 / (10 * n1) := by
      apply one_div_lt_one_div_of_lt (by positivity)
      linarith
    rw [decide_eq_false_iff_not, not_lt]
    by_cases hone : (n0 : ℚ) / n1 < 1
    · rw [roundSig_half_one _ (by linarith) hone]
      have hr := le_roundEven_of_lt ((n0 : ℚ) / n1 * 16777216) 15099495 (by norm_num; linarith)
      have hr' : (15099495 : ℚ) ≤ (roundEven ((n0 : ℚ) / n1 * 16777216) : ℚ) := by
        exact_mod_cast hr
      rw [le_div_iff₀ (by norm_num)]
      refine le_trans ?_ hr'
      norm_num
    · have := zpow_le_roundSig 24 ((n0 : ℚ) / n1) 0 (by norm_num) (by simpa using not_lt.mp hone)
      rw [zpow_zero] at this
      refine le_trans ?_ this
      norm_num

/-! ## Overlap accounting -/

theorem pcaStep_counts (sq : ℚ → ℚ) (c : GtCodec) (cfg : PcaCfg) (s t : PcaState)
    (r : SrLine) (h : pcaStep sq c cfg s r = .ok t) :
    t.n0 = s.n0 + (if r.has0 then 1 else 0) ∧ t.n1 = s.n1 + (if r.has1 then 1 else 0) := by
  have htally : (pcaTally r s).n0 = s.n0 + (if r.has0 then 1 else 0) ∧
      (pcaTally r s).n1 = s.n1 + (if r.has1 then 1 else 0) := by
    unfold pcaTally
    constructor <;> (simp only; split <;> rfl)
  rcases pcaStep_ok sq c cfg s t r h with ⟨_, ht⟩ | ⟨_, _, _, ht⟩ | ⟨_, _, ht⟩
  · rw [ht]; exact htally
  · rw [ht]; exact htally
  · have key := forLoopE_inv
      (fun _ u => u.n0 = (pcaTally r s).n0 ∧ u.n1 = (pcaTally r s).n1) cfg.N _ _ t
      ⟨rfl, rfl⟩ ?_ ht
    · rw [key.1, key.2]; exact htally
    · intro i u u1 _ hu hb
      obtain ⟨_, _, w0, _, hc | hc⟩ := pcaSample_ok sq cfg r i u u1 hb
      · rw [hc.2]; exact hu
      · obtain ⟨_, _, h3, h4, _⟩ := hc
        rw [h3, h4]; exact hu

theorem pcaLoop_counts (sq : ℚ → ℚ) (c : GtCodec) (cfg : PcaCfg) (ls : List SrLine)
    (s t : PcaState) (h : pcaLoop sq c cfg s ls = .ok t) :
    t.n0 = s.n0 + ls.countP (fun r => r.has0) ∧ t.n1 = s.n1 + ls.countP (fun r => r.has1) := by
  induction ls generalizing s with
  | nil =>
    rw [pcaLoop_nil] at h
    injection h with h
    subst h
    simp
  | cons a as ih =>
    rw [pcaLoop_cons] at h
    cases ha : pcaStep sq c cfg s a with
    | error e => simp [ha] at h
    | ok u =>
      simp only [ha] at h
      obtain ⟨i1, i2⟩ := ih u h
      obtain ⟨j1, j2⟩ := pcaStep_counts sq c cfg s u a ha
      rw [i1, i2, j1, j2, List.countP_cons, List.countP_cons]
      constructor <;> omega

/-- What the program counts, for a run that reached the end of the stream.
`n0` is the number of records that carry a line of the genotype source,
whether or not the panel has a record there, and `n1` the number of records
that carry a panel line (both below `2^24`).  The run fails when `n0 = 0`, and
when the homozygous-reference policy is off and `n0/n1 < 0.9`, that is
`10*n0 < 9*n1`.  It prints the score rows when `n0 ≠ 0` and either the policy
is on or `n0/n1 > 0.9`. -/
theorem pca_overlap (sq : ℚ → ℚ) (c : GtCodec) (cfg : PcaCfg) (ls : List SrLine)
    (s : PcaState) (hN : cfg.N ≠ 0)
    (hrun : pcaLoop sq c cfg PcaState.init ls = .ok s)
    (h0 : ls.countP (fun r => r.has0) < 2 ^ 24) (h1 : ls.countP (fun r => r.has1) < 2 ^ 24) :
    s.n0 = ls.countP (fun r => r.has0) ∧ s.n1 = ls.countP (fun r => r.has1) ∧
    ((s.n0 = 0 ∨ (cfg.assume_homref = false ∧ 10 * s.n0 < 9 * s.n1)) →
      ∃ e, pca sq c cfg ls = .error e) ∧
    ((s.n0 ≠ 0 ∧ (cfg.assume_homref = true ∨ 9 * s.n1 < 10 * s.n0)) →
      pca sq c cfg ls = .ok ((List.range cfg.N).map (fun n => (s.PC n).take s.Npca))) := by
  obtain ⟨c0, c1⟩ := pcaLoop_counts sq c cfg ls _ s hrun
  have e0 : s.n0 = ls.countP (fun r => r.has0) := by rw [c0]; simp [PcaState.init]
  have e1 : s.n1 = ls.countP (fun r => r.has1) := by rw [c1]; simp [PcaState.init]
  have hpca : pca sq c cfg ls = pcaFinish cfg s := by
    unfold pca
    rw [if_neg hN, hrun]
  obtain ⟨f1, f2⟩ := overlapBelow_spec s.n0 s.n1 (by rw [e0]; exact h0) (by rw [e1]; exact h1)
  refine ⟨e0, e1, ?_, ?_⟩
  · intro h
    rw [hpca]
    unfold pcaFinish
    by_cases hc : cfg.assume_homref = false ∧ overlapBelow s.n0 s.n1 = true
    · rw [if_pos hc]; exact ⟨_, rfl⟩
    rw [if_neg hc]
    rcases h with hz | ⟨hh, hlt⟩
    · rw [if_pos hz]; exact ⟨_, rfl⟩
    · exact absurd ⟨hh, f1 hlt⟩ hc
  · intro ⟨hz, h⟩
    rw [hpca]
    unfold pcaFinish
    have hc : ¬ (cfg.assume_homref = false ∧ overlapBelow s.n0 s.n1 = true) := by
      rintro ⟨hh, ho⟩
      rcases h with h | h
      · rw [hh] at h; exact absurd h (by simp)
      · rw [f2 h] at ho; exact absurd ho (by simp)
    rw [if_neg hc, if_neg hz]

/-- C5. One sample, expected-frequency policy; the genotype source has a
record at a panel position whose alleles match no panel record, so the reader
yields a genotype-only record and a panel-only record.  No site is in both
sources (`both = 0`, `panel = 1`), and the claim asks for a fatal exit: `pca`
counts `n0 = 1` for the genotype-only record, takes neither the exit of
line 261 nor the exit `No intersecting SNPs found` of line 265, and prints the
row.  The reading loop of `calcpca` with a sites file does not read such a
record: it asks for a line in both sources. -/
theorem pca_overlap_genotype_only :
    [genoOnlyLine, absentSite].countP (fun r => r.has0 && r.has1) = 0 ∧
    [genoOnlyLine, absentSite].countP (fun r => r.has1) = 1 ∧
    (pcaLoop qsqrt htslibCodec oneSampleCfg PcaState.init
        [genoOnlyLine, absentSite]).toOption.map (fun s => (s.n0, s.n1)) = some (1, 1) ∧
    pca qsqrt htslibCodec oneSampleCfg [genoOnlyLine, absentSite]
      = .ok [[Flt.fin 0, Flt.fin 0]] ∧
    ¬ ((∃ e, pca qsqrt htslibCodec oneSampleCfg [genoOnlyLine, absentSite] = .error e) ↔
        ((oneSampleCfg.assume_homref = false ∧
            10 * [genoOnlyLine, absentSite].countP (fun r => r.has0 && r.has1)
              < 9 * [genoOnlyLine, absentSite].countP (fun r => r.has1)) ∨
          [genoOnlyLine, absentSite].countP (fun r => r.has0 && r.has1) = 0)) ∧
    calcReads { pfile := true, N := 1, m := Flt.fin 0, k := 1 } genoOnlyLine = false := by
  have hrun : pca qsqrt htslibCodec oneSampleCfg [genoOnlyLine, absentSite]
      = .ok [[Flt.fin 0, Flt.fin 0]] := by decide!
  refine ⟨by decide, by decide, by decide!, hrun, ?_, by decide⟩
  intro hiff
  obtain ⟨e, he⟩ := hiff.mpr (Or.inr (by decide))
  rw [hrun] at he
  exact absurd he (by simp)

/-- The counts of the program on that run: `n0 = 1`, `n1 = 1`, `9*n1 < 10*n0`,
and the row is printed. -/
theorem pca_overlap_fixture :
    oneSampleCfg.N ≠ 0 ∧
    [genoOnlyLine, absentSite].countP (fun r => r.has0) < 2 ^ 24 ∧
    [genoOnlyLine, absentSite].countP (fun r => r.has1) < 2 ^ 24 ∧
    ∃ s, pcaLoop qsqrt htslibCodec oneSampleCfg PcaState.init [genoOnlyLine, absentSite]
        = .ok s ∧ s.n0 = 1 ∧ s.n1 = 1 ∧
      pca qsqrt htslibCodec oneSampleCfg [genoOnlyLine, absentSite]
        = .ok ((List.range oneSampleCfg.N).map (fun n => (s.PC n).take s.Npca)) := by
  refine ⟨by decide, by decide, by decide, ?_⟩
  have hok : (pcaLoop qsqrt htslibCodec oneSampleCfg PcaState.init
      [genoOnlyLine, absentSite]).toOption.isSome = true := by decide!
  cases h : pcaLoop qsqrt htslibCodec oneSampleCfg PcaState.init [genoOnlyLine, absentSite] with
  | error e =>
    rw [h] at hok
    exact absurd hok (by simp [Except.toOption])
  | ok s =>
    obtain ⟨k0, k1, _, k3⟩ := pca_overlap qsqrt htslibCodec oneSampleCfg
      [genoOnlyLine, absentSite] s (by decide) h (by decide) (by decide)
    have k0' : s.n0 = 1 := by rw [k0]; decide
    have k1' : s.n1 = 1 := by rw [k1]; decide
    exact ⟨s, rfl, k0', k1', k3 ⟨by omega, Or.inr (by omega)⟩⟩

/-- On the boundary itself the single-precision quotient `9/10` is below the
double constant `0.9`. -/
theorem overlapBelow_boundary : overlapBelow 9 10 = true ∧ overlapBelow 10 10 = false := by
  constructor <;> decide!

/-! ## `calcpca`: columns with imputed genotypes -/

/-- On a normal return `pushDosages` has appended the `N` site dosages and
returns their sum. -/
theorem pushDosages_ok (c : GtCodec) (N : Nat) (gt : List Int) (frq : Flt)
    (G : List Flt) (p : List Flt × Flt) (hp : pushDosages c N gt frq G = .ok p) :
    p.1 = G ++ (List.range N).map (siteDosage c gt frq) ∧
    p.2 = forLoop N (fun j acc => acc + siteDosage c gt frq j) (Flt.fin 0) := by
  unfold pushDosages at hp
  refine forLoopE_inv
    (fun i (q : List Flt × Flt) =>
      q.1 = G ++ (List.range i).map (siteDosage c gt frq) ∧
      q.2 = forLoop i (fun j acc => acc + siteDosage c gt frq j) (Flt.fin 0))
    N _ (G, Flt.fin 0) p (by simp [forLoop_zero]) ?_ hp
  intro i q q1 hi ⟨h1, h2⟩ hb
  by_cases hneg : gt.getD (2 * i) 0 < 0 ∨ gt.getD (2 * i + 1) 0 < 0
  · rw [if_pos hneg] at hb
    exact absurd hb (by simp)
  rw [if_neg hneg] at hb
  injection hb with hb
  subst hb
  refine ⟨?_, ?_⟩
  · simp only [h1, List.range_succ, List.map_append, List.map_cons, List.map_nil,
      List.append_assoc]
    rfl
  · rw [forLoop_succ, ← h2]
    rfl

/-- The two counts of lines 482-493 as sums over the first `2*N` entries. -/
theorem alleleCount_sums (c : GtCodec) (N : Nat) (gt : List Int) :
    alleleCount c N gt
      = (∑ i in Finset.range (2 * N),
            (if gt.getD i 0 ≠ c.bcf_gt_missing then c.bcf_gt_allele (gt.getD i 0) else 0),
         ∑ i in Finset.range (2 * N),
            (if gt.getD i 0 ≠ c.bcf_gt_missing then 0 else 1)) := by
  unfold alleleCount
  refine forLoop_inv
    (fun i (p : Int × Int) => p
      = (∑ a in Finset.range i,
            (if gt.getD a 0 ≠ c.bcf_gt_missing then c.bcf_gt_allele (gt.getD a 0) else 0),
         ∑ a in Finset.range i, (if gt.getD a 0 ≠ c.bcf_gt_missing then 0 else 1)))
    (2 * N) _ (0, 0) (by simp) ?_
  intro i p hi hp
  rw [hp, Finset.sum_range_succ, Finset.sum_range_succ]
  by_cases h : gt.getD i 0 ≠ c.bcf_gt_missing
  · rw [if_pos h, if_pos h, if_pos h, add_zero]
  · rw [if_neg h, if_neg h, if_neg h, add_zero]

/-- The missing count is at most `2*N`, and when it is `2*N` the allele count
is 0. -/
theorem alleleCount_nmiss (c : GtCodec) (N : Nat) (gt : List Int) :
    0 ≤ (alleleCount c N gt).2 ∧ (alleleCount c N gt).2 ≤ 2 * (N : Int) ∧
    ((alleleCount c N gt).2 = 2 * (N : Int) → (alleleCount c N gt).1 = 0) := by
  have key : 0 ≤ (alleleCount c N gt).2 ∧ (alleleCount c N gt).2 ≤ ((2 * N : Nat) : Int) ∧
      ((alleleCount c N gt).2 = ((2 * N : Nat) : Int) → (alleleCount c N gt).1 = 0) := by
    unfold alleleCount
    refine forLoop_inv
      (fun i (p : Int × Int) => 0 ≤ p.2 ∧ p.2 ≤ (i : Int) ∧ (p.2 = (i : Int) → p.1 = 0))
      (2 * N) _ (0, 0) (by simp) ?_
    intro i p hi ⟨h0, h1, h2⟩
    by_cases h : gt.getD i 0 ≠ c.bcf_gt_missing
    · rw [if_pos h]
      refine ⟨h0, by push_cast; omega, fun he => ?_⟩
      simp only at he
      push_cast at he
      omega
    · rw [if_neg h]
      refine ⟨by simp only; omega, by simp only; push_cast; omega, fun he => ?_⟩
      simp only at he ⊢
      push_cast at he
      exact h2 (by omega)
  push_cast at key
  exact key

/-- With no phased missing allele, a buffer whose samples are fully called or
fully missing passes or fails the test of the program sample by sample. -/
theorem rawWhole_of_whole (c : GtCodec) (N : Nat) (gt : List Int) (h : WholeCalls N gt)
    (hp : PlainCodes c N gt) : RawWhole c N gt := by
  intro j hj
  rw [← hp (2 * j) (by omega), ← hp (2 * j + 1) (by omega)]
  exact h j hj

/-- When the two codes of every sample pass or fail the test of the program
together, the allele count is the sum of the dosages of the called samples and
the missing count is twice the number of imputed samples. -/
theorem alleleCount_whole (c : GtCodec) (N : Nat) (gt : List Int) (h : RawWhole c N gt) :
    alleleCount c N gt
      = (∑ j in Finset.range N, (if imputedAt c gt j then 0 else pairDosage c gt j),
         2 * ∑ j in Finset.range N, (if imputedAt c gt j then 1 else 0)) := by
  rw [alleleCount_sums, sum_pairs, sum_pairs, Finset.mul_sum]
  congr 1
  · refine Finset.sum_congr rfl (fun j hj => ?_)
    have hw := h j (Finset.mem_range.mp hj)
    unfold imputedAt pairDosage
    by_cases h0 : gt.getD (2 * j) 0 = c.bcf_gt_missing
    · have h1 := hw.mp h0
      rw [if_neg (not_not.mpr h0), if_neg (not_not.mpr h1), if_pos (fun hh => hh.1 h0)]
      rfl
    · have h1 : ¬ gt.getD (2 * j + 1) 0 = c.bcf_gt_missing := fun e => h0 (hw.mpr e)
      rw [if_pos h0, if_pos h1, if_neg (not_not.mpr ⟨h0, h1⟩)]
  · refine Finset.sum_congr rfl (fun j hj => ?_)
    have hw := h j (Finset.mem_range.mp hj)
    unfold imputedAt
    by_cases h0 : gt.getD (2 * j) 0 = c.bcf_gt_missing
    · have h1 := hw.mp h0
      rw [if_neg (not_not.mpr h0), if_neg (not_not.mpr h1), if_pos (fun hh => hh.1 h0)]
      rfl
    · have h1 : ¬ gt.getD (2 * j + 1) 0 = c.bcf_gt_missing := fun e => h0 (hw.mpr e)
      rw [if_pos h0, if_pos h1, if_neg (not_not.mpr ⟨h0, h1⟩)]
      rfl

/-- A site that passes the MAF test has a called allele. -/
theorem mafPass_total_pos (c : GtCodec) (N : Nat) (m : Flt) (gt : List Int)
    (hp : mafPass c N m gt = true) : (alleleCount c N gt).2 < 2 * (N : Int) := by
  obtain ⟨_, h1, h2⟩ := alleleCount_nmiss c N gt
  by_contra hlt
  have he : (alleleCount c N gt).2 = 2 * (N : Int) := by omega
  have hmac := h2 he
  unfold mafPass minorCount at hp
  rw [he, hmac] at hp
  simp only [sub_self] at hp
  cases m with
  | nan => simp [Flt.mul_def, Flt.mul, Flt.ofInt, Flt.lt] at hp
  | inf s => simp [Flt.mul_def, Flt.mul, Flt.ofInt, Flt.lt] at hp
  | fin q => simp [Flt.mul_def, Flt.mul, Flt.ofInt, Flt.lt] at hp

/-- A site that passes a non-negative MAF bound has an allele count strictly
between 0 and the number of called alleles. -/
theorem mafPass_mac_bounds (c : GtCodec) (N : Nat) (m : Flt) (gt : List Int)
    (hm : Flt.le (Flt.fin 0) m = true) (hp : mafPass c N m gt = true) :
    0 < (alleleCount c N gt).1 ∧
    (alleleCount c N gt).1 < 2 * (N : Int) - (alleleCount c N gt).2 := by
  have hT := mafPass_total_pos c N m gt hp
  unfold mafPass minorCount at hp
  dsimp only at hp
  generalize (alleleCount c N gt).1 = S at hp ⊢
  generalize (alleleCount c N gt).2 = K at hp hT ⊢
  have hTpos : 0 < 2 * (N : Int) - K := by omega
  generalize 2 * (N : Int) - K = T at hp hTpos ⊢
  have htd : 0 ≤ Int.tdiv T 2 ∧ Int.tdiv T 2 < T := by
    rw [Int.tdiv_eq_ediv (by omega) (by norm_num)]
    omega
  cases m with
  | nan => simp [Flt.le] at hm
  | inf s =>
    cases s with
    | true => simp [Flt.le] at hm
    | false =>
      have hne : ((T : Int) : ℚ) ≠ 0 := by
        have : (0 : ℚ) < T := by exact_mod_cast hTpos
        linarith
      have hnn : ¬ (((T : Int) : ℚ) < 0) := by
        have : (0 : ℚ) < T := by exact_mod_cast hTpos
        linarith
      have hmul : Flt.ofInt T * Flt.inf false = Flt.inf false := by
        simp only [Flt.mul_def, Flt.mul, Flt.ofInt]
        rw [if_neg hne]
        simp [hnn]
      rw [hmul] at hp
      simp [Flt.lt, Flt.ofInt] at hp
  | fin q =>
    have hq : (0 : ℚ) ≤ q := by simpa [Flt.le] using hm
    simp only [Flt.mul_def, Flt.mul, Flt.ofInt, Flt.lt, decide_eq_true_eq] at hp
    have hpos : (0 : ℚ) ≤ ((T : Int) : ℚ) * q := by
      apply mul_nonneg _ hq
      have : (0 : ℚ) < T := by exact_mod_cast hTpos
      linarith
    by_cases hS : S > Int.tdiv T 2
    · rw [if_pos hS] at hp
      have : (0 : ℚ) < ((T - S : Int) : ℚ) := lt_of_le_of_lt hpos hp
      have h2 : (0 : Int) < T - S := by exact_mod_cast this
      constructor <;> omega
    · rw [if_neg hS] at hp
      have : (0 : ℚ) < ((S : Int) : ℚ) := lt_of_le_of_lt hpos hp
      have h2 : (0 : Int) < S := by exact_mod_cast this
      constructor <;> omega

/-- The pushed value at a finite frequency. -/
theorem siteDosage_fin (c : GtCodec) (gt : List Int) (f : ℚ) (j : Nat) :
    siteDosage c gt (Flt.fin f) j
      = Flt.fin (if imputedAt c gt j then 2 * f else (pairDosage c gt j : ℚ)) := by
  unfold siteDosage imputedAt pairDosage
  by_cases h : gt.getD (2 * j) 0 ≠ c.bcf_gt_missing ∧ gt.getD (2 * j + 1) 0 ≠ c.bcf_gt_missing
  · rw [if_pos h, if_neg (not_not.mpr h)]
    rfl
  · rw [if_neg h, if_pos h]
    simp [Flt.mul_def, Flt.mul, Flt.ofInt]

/-- When the two codes of every sample pass or fail the test of the program
together and an allele is called, the frequency of line 494 is finite and the
stored column mean is twice it: the imputed dosage `2*frq` is the mean of the
column. -/
theorem colMean_whole (c : GtCodec) (N : Nat) (gt : List Int) (h : RawWhole c N gt)
    (hT : (alleleCount c N gt).2 < 2 * (N : Int)) :
    calcFrq c N gt
      = Flt.fin (((alleleCount c N gt).1 : ℚ)
          / ((2 * (N : Int) - (alleleCount c N gt).2 : Int) : ℚ)) ∧
    colMean c N gt = Flt.ofInt 2 * calcFrq c N gt := by
  obtain ⟨hK0, _, _⟩ := alleleCount_nmiss c N gt
  have hNpos : (0 : Int) < N := by omega
  have hNq : ((N : Int) : ℚ) ≠ 0 := by
    have : (0 : ℚ) < ((N : Int) : ℚ) := by exact_mod_cast hNpos
    linarith
  have hTq : ((2 * (N : Int) - (alleleCount c N gt).2 : Int) : ℚ) ≠ 0 := by
    have h1 : (0 : Int) < 2 * (N : Int) - (alleleCount c N gt).2 := by omega
    have : (0 : ℚ) < ((2 * (N : Int) - (alleleCount c N gt).2 : Int) : ℚ) := by exact_mod_cast h1
    linarith
  have hfrq : calcFrq c N gt
      = Flt.fin (((alleleCount c N gt).1 : ℚ)
          / ((2 * (N : Int) - (alleleCount c N gt).2 : Int) : ℚ)) := by
    unfold calcFrq
    simp only [Flt.div_def, Flt.div, Flt.ofInt, if_neg hTq]
  refine ⟨hfrq, ?_⟩
  unfold colMean
  rw [hfrq]
  generalize hf : ((alleleCount c N gt).1 : ℚ)
      / ((2 * (N : Int) - (alleleCount c N gt).2 : Int) : ℚ) = f
  rw [forLoop_congr N _
    (fun j acc => acc + Flt.fin (if imputedAt c gt j then 2 * f else (pairDosage c gt j : ℚ)))
    (Flt.fin 0) (fun j acc _ => by rw [siteDosage_fin]), forLoop_sum_fin, zero_add]
  simp only [Flt.div_def, Flt.div, Flt.ofInt, if_neg hNq, Flt.mul_def, Flt.mul]
  congr 1
  have hsum : (∑ j in Finset.range N,
        (if imputedAt c gt j then 2 * f else (pairDosage c gt j : ℚ)))
      = ((∑ j in Finset.range N, (if imputedAt c gt j then 0 else pairDosage c gt j) : Int) : ℚ)
        + 2 * f * ((∑ j in Finset.range N, (if imputedAt c gt j then 1 else 0) : Int) : ℚ) := by
    push_cast
    rw [Finset.mul_sum, ← Finset.sum_add_distrib]
    refine Finset.sum_congr rfl (fun j _ => ?_)
    by_cases hi : imputedAt c gt j
    · simp [hi]
    · simp [hi]
  rw [hsum]
  have hw := alleleCount_whole c N gt h
  rw [hw] at hf hTq
  simp only at hf hTq
  generalize ((∑ j in Finset.range N, (if imputedAt c gt j then 0 else pairDosage c gt j) : Int) : ℚ)
    = S at hf ⊢
  have hT2 : (2 * (N : ℚ) - 2 * ((∑ j in Finset.range N,
      (if imputedAt c gt j then 1 else 0) : Int) : ℚ)) ≠ 0 := by
    intro h0
    apply hTq
    push_cast
    push_cast at h0
    exact h0
  have hf2 : S / (2 * (N : ℚ) - 2 * ((∑ j in Finset.range N,
      (if imputedAt c gt j then 1 else 0) : Int) : ℚ)) = f := by
    rw [← hf]
    push_cast
    rfl
  generalize ((∑ j in Finset.range N, (if imputedAt c gt j then 1 else 0) : Int) : ℚ)
    = K at hT2 hf2 ⊢
  have hNq2 : (N : ℚ) ≠ 0 := by exact_mod_cast hNq
  rw [← hf2]
  push_cast
  field_simp
  ring

/-- A retained column keeps every earlier column and is itself as pushed. -/
theorem keptCol_append (c : GtCodec) (N : Nat) (m : Flt) (G AF : List Flt)
    (bufs : List (List Int)) (gt : List Int) (k : Nat)
    (hB : bufs.length = k) (hAF : AF.length = k) (hG : G.length = k * N)
    (hold : ∀ i, i < k → KeptCol c N m G AF bufs i)
    (hp : mafPass c N m gt = true) :
    ∀ i, i < k + 1 →
      KeptCol c N m (G ++ (List.range N).map (siteDosage c gt (calcFrq c N gt)))
        (AF ++ [colMean c N gt]) (bufs ++ [gt]) i := by
  intro i hi
  by_cases hik : i < k
  · obtain ⟨e1, e2, e3⟩ := hold i hik
    have hb : (bufs ++ [gt]).getD i [] = bufs.getD i [] :=
      List.getD_append _ _ _ _ (by omega)
    refine ⟨by rw [hb]; exact e1, fun j hj => ?_, ?_⟩
    · rw [hb, List.getD_append _ _ _ _ (by rw [hG]; nlinarith)]
      exact e2 j hj
    · rw [hb, List.getD_append _ _ _ _ (by omega)]
      exact e3
  · have hk : i = k := by omega
    subst hk
    have hb : (bufs ++ [gt]).getD i [] = gt := by
      rw [List.getD_append_right _ _ _ _ (by omega), hB, Nat.sub_self]
      rfl
    refine ⟨by rw [hb]; exact hp, fun j hj => ?_, ?_⟩
    · rw [hb, List.getD_append_right _ _ _ _ (by rw [hG]; omega), hG, Nat.add_sub_cancel_left,
        List.getD_eq_getElem _ _ (by simpa using hj)]
      simp
    · rw [hb, List.getD_append_right _ _ _ _ (by omega), hAF, Nat.sub_self]
      rfl

/-- One record keeps the invariant of the buffers. -/
theorem calcStep_bufInv (c : GtCodec) (cfg : CalcCfg) (s s1 : CalcState) (r : SrLine)
    (bufs : List (List Int)) (hinv : BufInv c cfg s bufs) (h : calcStep c cfg s r = .ok s1) :
    BufInv c cfg s1
      (bufs ++ (if s1.nkept = s.nkept + 1 then [readGt s.gt_arr r] else [])) := by
  unfold calcStep at h
  obtain ⟨i0, i1, i2, i3⟩ := hinv
  by_cases hrd : calcReads cfg r = true
  · rw [if_pos hrd] at h
    split at h
    · exact absurd h (by simp)
    rename_i s2 hs2
    injection h with h
    subst h
    rcases calcKeep_ok c cfg s s2 r hs2 with ⟨hp, p, hpd, k1, k2, k3⟩ | ⟨k1, k2, k3⟩
    · obtain ⟨p1, p2⟩ := pushDosages_ok c cfg.N _ _ s.G p hpd
      have hk : (calcTally cfg r s2).nkept = s.nkept + 1 := k3
      rw [if_pos hk]
      refine ⟨?_, ?_, ?_, ?_⟩
      · rw [List.length_append, i0]
        exact k3.symm
      · show s2.AF.length = s2.nkept
        rw [k2, k3, List.length_append, i1]
        rfl
      · show s2.G.length = s2.nkept * cfg.N
        rw [k1, k3, p1, List.length_append, i2]
        simp
        ring
      · show ∀ i, i < s2.nkept → KeptCol c cfg.N cfg.m s2.G s2.AF _ i
        rw [k1, k2, k3, p1, p2]
        exact keptCol_append c cfg.N cfg.m s.G s.AF bufs _ s.nkept i0 i1 i2 i3 hp
    · have hk : ¬ (calcTally cfg r s2).nkept = s.nkept + 1 := by
        show ¬ s2.nkept = s.nkept + 1
        omega
      rw [if_neg hk, List.append_nil]
      refine ⟨?_, ?_, ?_, ?_⟩
      · show bufs.length = s2.nkept
        rw [k3]; exact i0
      · show s2.AF.length = s2.nkept
        rw [k2, k3]; exact i1
      · show s2.G.length = s2.nkept * cfg.N
        rw [k1, k3]; exact i2
      · show ∀ i, i < s2.nkept → KeptCol c cfg.N cfg.m s2.G s2.AF bufs i
        rw [k1, k2, k3]; exact i3
  · rw [if_neg hrd] at h
    injection h with h
    subst h
    have hk : ¬ (calcTally cfg r s).nkept = s.nkept + 1 := by
      show ¬ s.nkept = s.nkept + 1
      omega
    rw [if_neg hk, List.append_nil]
    exact ⟨i0, i1, i2, i3⟩

/-- The reading loop keeps the invariant of the buffers. -/
theorem calcLoop_bufInv (c : GtCodec) (cfg : CalcCfg) (ls : List SrLine) (s s1 : CalcState)
    (bufs : List (List Int)) (hinv : BufInv c cfg s bufs) (h : calcLoop c cfg s ls = .ok s1) :
    BufInv c cfg s1 (bufs ++ keptBuffers c cfg s ls) := by
  induction ls generalizing s bufs with
  | nil =>
    rw [calcLoop_nil] at h
    injection h with h
    subst h
    simpa [keptBuffers] using hinv
  | cons a as ih =>
    rw [calcLoop_cons] at h
    cases ha : calcStep c cfg s a with
    | error e => simp [ha] at h
    | ok u =>
      simp only [ha] at h
      have h1 := ih u _ (calcStep_bufInv c cfg s u a bufs hinv ha) h
      rw [List.append_assoc] at h1
      simpa [keptBuffers, ha] using h1

/-- The entry of `DatatoMatrix` for a dosage equal to the column mean `2*f`,
`f` being strictly between 0 and 1 in mode 1. -/
theorem matrixEntry_mean (sq : ℚ → ℚ) (covn : Int) (f : ℚ)
    (h1 : covn = 1 → (0 < f ∧ f < 1) ∧ ∀ x : ℚ, 0 < x → sq x ≠ 0) :
    matrixEntry sq covn (Flt.fin (2 * f)) (Flt.fin (2 * f)) = Flt.fin 0 := by
  by_cases hc : covn = 1
  · obtain ⟨⟨f0, f1⟩, hsq⟩ := h1 hc
    have hv : 0 < 2 * (1 / 2 * (2 * f)) * (1 - 1 / 2 * (2 * f)) := by
      have e1 : 0 < 1 / 2 * (2 * f) := by linarith
      have e2 : 0 < 1 - 1 / 2 * (2 * f) := by linarith
      positivity
    rw [hc, matrixEntry_fin sq (2 * f) (2 * f) hv (hsq _ hv), sub_self, zero_div]
  · unfold matrixEntry
    rw [if_neg hc]
    simp [Flt.sub_def, Flt.add, Flt.neg]

/-- Imputed entries where no allele is a phased missing one.  In exact
arithmetic, in mode 0 and in mode 1 (for mode 1 the MAF bound is non-negative
and the square root of a positive number is not zero): `G` and `AF` hold, for
every retained record `i`, the pushed dosages of its genotype buffer and their
mean over the `N` samples; when each sample of that buffer is fully called or
fully missing and no code is a phased missing allele, the frequency `frq` of
line 494 is finite and the stored mean `AF[i]` equals the imputed dosage
`2*frq`, so the matrix entry `A(j,i)` of every sample `j` imputed at the site
is 0; and a sample imputed at every retained site has an all-zero row. -/
theorem imputed_entries_centred (sq : ℚ → ℚ) (c : GtCodec) (cfg : CalcCfg) (gt0 : List Int)
    (covn : Int) (ls : List SrLine) (A : MatrixXf)
    (hcov : covn < 2)
    (hmode1 : covn = 1 → Flt.le (Flt.fin 0) cfg.m = true ∧ ∀ x : ℚ, 0 < x → sq x ≠ 0)
    (hrun : calcpcaMatrix sq c cfg gt0 covn ls = .ok A) :
    ∃ s, calcLoop c cfg (CalcState.init gt0) ls = .ok s ∧
      A.rows = cfg.N ∧ A.cols = s.nkept ∧
      (keptBuffers c cfg (CalcState.init gt0) ls).length = s.nkept ∧
      (∀ i, i < s.nkept →
        KeptCol c cfg.N cfg.m s.G s.AF (keptBuffers c cfg (CalcState.init gt0) ls) i) ∧
      (∀ i, i < s.nkept →
        WholeCalls cfg.N ((keptBuffers c cfg (CalcState.init gt0) ls).getD i []) →
        PlainCodes c cfg.N ((keptBuffers c cfg (CalcState.init gt0) ls).getD i []) →
        (∃ f : ℚ,
          calcFrq c cfg.N ((keptBuffers c cfg (CalcState.init gt0) ls).getD i []) = Flt.fin f) ∧
        s.AF.getD i Flt.nan
          = Flt.ofInt 2 * calcFrq c cfg.N ((keptBuffers c cfg (CalcState.init gt0) ls).getD i []) ∧
        ∀ j, j < cfg.N →
          imputedAt c ((keptBuffers c cfg (CalcState.init gt0) ls).getD i []) j →
          s.G.getD (i * cfg.N + j) Flt.nan = s.AF.getD i Flt.nan ∧
          A.coeff j i = some (Flt.fin 0)) ∧
      (∀ j, j < cfg.N →
        (∀ i, i < s.nkept →
          WholeCalls cfg.N ((keptBuffers c cfg (CalcState.init gt0) ls).getD i []) ∧
          PlainCodes c cfg.N ((keptBuffers c cfg (CalcState.init gt0) ls).getD i []) ∧
          imputedAt c ((keptBuffers c cfg (CalcState.init gt0) ls).getD i []) j) →
        ∀ i, i < A.cols → A.coeff j i = some (Flt.fin 0)) := by
  unfold calcpcaMatrix at hrun
  by_cases hN : cfg.N = 0
  · rw [if_pos hN] at hrun
    exact absurd hrun (by simp)
  rw [if_neg hN] at hrun
  cases hl : calcLoop c cfg (CalcState.init gt0) ls with
  | error e => simp [hl] at hrun
  | ok s =>
    simp only [hl] at hrun
    by_cases hk : s.nkept = 0
    · rw [if_pos hk] at hrun
      exact absurd hrun (by simp)
    rw [if_neg hk, if_neg (by omega)] at hrun
    injection hrun with hrun
    subst hrun
    have hinit : BufInv c cfg (CalcState.init gt0) [] :=
      ⟨rfl, rfl, by simp [CalcState.init], fun i hi => absurd hi (Nat.not_lt_zero i)⟩
    have hinv := calcLoop_bufInv c cfg ls _ s [] hinit hl
    rw [List.nil_append] at hinv
    obtain ⟨b0, _, _, b3⟩ := hinv
    obtain ⟨m1, m2, _, m4⟩ :=
      DatatoMatrix_spec sq s.G s.AF cfg.N s.nkept covn (MatrixXf.alloc cfg.N s.nkept) rfl rfl
    generalize keptBuffers c cfg (CalcState.init gt0) ls = bufs at b0 b3 ⊢
    have hcol : ∀ i, i < s.nkept → WholeCalls cfg.N (bufs.getD i []) →
        PlainCodes c cfg.N (bufs.getD i []) →
        (∃ f : ℚ, calcFrq c cfg.N (bufs.getD i []) = Flt.fin f) ∧
        s.AF.getD i Flt.nan = Flt.ofInt 2 * calcFrq c cfg.N (bufs.getD i []) ∧
        ∀ j, j < cfg.N → imputedAt c (bufs.getD i []) j →
          s.G.getD (i * cfg.N + j) Flt.nan = s.AF.getD i Flt.nan ∧
          (DatatoMatrix sq (MatrixXf.alloc cfg.N s.nkept) s.G s.AF cfg.N s.nkept covn).coeff j i
            = some (Flt.fin 0) := by
      intro i hi hw hpl
      obtain ⟨c1, c2, c3⟩ := b3 i hi
      have hT := mafPass_total_pos c cfg.N cfg.m _ c1
      obtain ⟨w1, w2⟩ := colMean_whole c cfg.N _ (rawWhole_of_whole c cfg.N _ hw hpl) hT
      have hAF : s.AF.getD i Flt.nan = Flt.ofInt 2 * calcFrq c cfg.N (bufs.getD i []) := by
        rw [c3, w2]
      refine ⟨⟨_, w1⟩, hAF, fun j hj himp => ?_⟩
      have hG : s.G.getD (i * cfg.N + j) Flt.nan = s.AF.getD i Flt.nan := by
        rw [c2 j hj, hAF]
        unfold siteDosage
        rw [if_neg himp]
      refine ⟨hG, ?_⟩
      rw [m4 i j hi hj, hG, hAF, w1]
      have e2 : Flt.ofInt 2 * Flt.fin (((alleleCount c cfg.N (bufs.getD i [])).1 : ℚ)
            / ((2 * (cfg.N : Int) - (alleleCount c cfg.N (bufs.getD i [])).2 : Int) : ℚ))
          = Flt.fin (2 * (((alleleCount c cfg.N (bufs.getD i [])).1 : ℚ)
            / ((2 * (cfg.N : Int) - (alleleCount c cfg.N (bufs.getD i [])).2 : Int) : ℚ))) := by
        simp [Flt.mul_def, Flt.mul, Flt.ofInt]
      rw [e2]
      congr 1
      refine matrixEntry_mean sq covn _ (fun hc1 => ?_)
      obtain ⟨hm, hsq⟩ := hmode1 hc1
      obtain ⟨k0, k1⟩ := mafPass_mac_bounds c cfg.N cfg.m _ hm c1
      refine ⟨?_, hsq⟩
      have q0 : (0 : ℚ) < ((alleleCount c cfg.N (bufs.getD i [])).1 : ℚ) := by exact_mod_cast k0
      have q1 : ((alleleCount c cfg.N (bufs.getD i [])).1 : ℚ)
          < ((2 * (cfg.N : Int) - (alleleCount c cfg.N (bufs.getD i [])).2 : Int) : ℚ) := by
        exact_mod_cast k1
      have q2 : (0 : ℚ)
          < ((2 * (cfg.N : Int) - (alleleCount c cfg.N (bufs.getD i [])).2 : Int) : ℚ) :=
        lt_trans q0 q1
      exact ⟨div_pos q0 q2, (div_lt_one q2).mpr q1⟩
    refine ⟨s, rfl, m1, m2, b0, b3, hcol, fun j hj hall i hi => ?_⟩
    rw [m2] at hi
    exact ((hcol i hi (hall i hi).1 (hall i hi).2.1).2.2 j hj (hall i hi).2.2).2

/-- Three samples, the third `./.` at both sites (`0/0`, `0/1`, `./.` and
`1/1`, `0/0`, `./.`): in mode 1 and in mode 0 the row of the third sample is
zero. -/
theorem imputed_entries_centred_fixture :
    (1 : Int) < 2 ∧ Flt.le (Flt.fin 0) threeCfg.m = true ∧ (∀ x : ℚ, 0 < x → qsqrt x ≠ 0) ∧
    keptBuffers htslibCodec threeCfg (CalcState.init [0, 0, 0, 0, 0, 0]) [missLineA, missLineB]
      = [[2, 2, 2, 4, 0, 0], [4, 4, 2, 2, 0, 0]] ∧
    (∃ A, calcpcaMatrix qsqrt htslibCodec threeCfg [0, 0, 0, 0, 0, 0] 1 [missLineA, missLineB]
        = .ok A ∧ A.rows = 3 ∧ A.cols = 2 ∧
      A.coeff 2 0 = some (Flt.fin 0) ∧ A.coeff 2 1 = some (Flt.fin 0)) ∧
    (∃ A, calcpcaMatrix qsqrt htslibCodec threeCfg [0, 0, 0, 0, 0, 0] 0 [missLineA, missLineB]
        = .ok A ∧ A.rows = 3 ∧ A.cols = 2 ∧
      A.coeff 2 0 = some (Flt.fin 0) ∧ A.coeff 2 1 = some (Flt.fin 0)) := by
  have hb : keptBuffers htslibCodec threeCfg (CalcState.init [0, 0, 0, 0, 0, 0])
      [missLineA, missLineB] = [[2, 2, 2, 4, 0, 0], [4, 4, 2, 2, 0, 0]] := by decide!
  have hall : ∀ n : Nat, ∀ i, i < n → n = 2 →
      WholeCalls threeCfg.N
        ((keptBuffers htslibCodec threeCfg (CalcState.init [0, 0, 0, 0, 0, 0])
          [missLineA, missLineB]).getD i []) ∧
      PlainCodes htslibCodec threeCfg.N
        ((keptBuffers htslibCodec threeCfg (CalcState.init [0, 0, 0, 0, 0, 0])
          [missLineA, missLineB]).getD i []) ∧
      imputedAt htslibCodec
        ((keptBuffers htslibCodec threeCfg (CalcState.init [0, 0, 0, 0, 0, 0])
          [missLineA, missLineB]).getD i []) 2 := by
    intro n i hi hn
    rw [hb]
    subst hn
    interval_cases i
    · exact ⟨by decide, by decide, by decide⟩
    · exact ⟨by decide, by decide, by decide⟩
  refine ⟨by decide, by decide, qsqrt_ne_zero, hb, ?_, ?_⟩
  · have hok : (calcpcaMatrix qsqrt htslibCodec threeCfg [0, 0, 0, 0, 0, 0] 1
        [missLineA, missLineB]).toOption.map (fun A => A.cols) = some 2 := by decide!
    cases h : calcpcaMatrix qsqrt htslibCodec threeCfg [0, 0, 0, 0, 0, 0] 1
        [missLineA, missLineB] with
    | error e =>
      rw [h] at hok
      exact absurd hok (by simp [Except.toOption])
    | ok A =>
      rw [h] at hok
      have hcols : A.cols = 2 := by simpa [Except.toOption] using hok
      obtain ⟨s, _, k1, k2, _, _, _, k6⟩ :=
        imputed_entries_centred qsqrt htslibCodec threeCfg [0, 0, 0, 0, 0, 0] 1
          [missLineA, missLineB] A (by decide) (fun _ => ⟨by decide, qsqrt_ne_zero⟩) h
      have hrow := k6 2 (by decide) (fun i hi => hall s.nkept i hi (by omega))
      exact ⟨A, rfl, k1, hcols, hrow 0 (by omega), hrow 1 (by omega)⟩
  · have hok : (calcpcaMatrix qsqrt htslibCodec threeCfg [0, 0, 0, 0, 0, 0] 0
        [missLineA, missLineB]).toOption.map (fun A => A.cols) = some 2 := by decide!
    cases h : calcpcaMatrix qsqrt htslibCodec threeCfg [0, 0, 0, 0, 0, 0] 0
        [missLineA, missLineB] with
    | error e =>
      rw [h] at hok
      exact absurd hok (by simp [Except.toOption])
    | ok A =>
      rw [h] at hok
      have hcols : A.cols = 2 := by simpa [Except.toOption] using hok
      obtain ⟨s, _, k1, k2, _, _, _, k6⟩ :=
        imputed_entries_centred qsqrt htslibCodec threeCfg [0, 0, 0, 0, 0, 0] 0
          [missLineA, missLineB] A (by decide) (fun hc => absurd hc (by decide)) h
      have hrow := k6 2 (by decide) (fun i hi => hall s.nkept i hi (by omega))
      exact ⟨A, rfl, k1, hcols, hrow 0 (by omega), hrow 1 (by omega)⟩

/-- A power of two is a `float` (the exponent range is not limited). -/
theorem roundSig_two_zpow (p : ℕ) (hp : 1 ≤ p) (E : ℤ) :
    roundSig p ((2 : ℚ) ^ E) = (2 : ℚ) ^ E := by
  unfold roundSig
  have h0 : (2 : ℚ) ^ E ≠ 0 := zpow_ne_zero _ (by norm_num)
  have hlog : Int.log 2 |(2 : ℚ) ^ E| = E := by
    rw [abs_of_pos (zpow_pos (by norm_num) E)]
    have := Int.log_zpow (R := ℚ) (b := 2) (by norm_num) E
    simpa using this
  rw [if_neg h0, hlog]
  have e1 : (2 : ℚ) ^ E * (2 : ℚ) ^ ((p : ℤ) - 1 - E) = (((2 : ℤ) ^ (p - 1) : ℤ) : ℚ) := by
    rw [← zpow_add₀ (by norm_num : (2 : ℚ) ≠ 0)]
    have : E + ((p : ℤ) - 1 - E) = ((p - 1 : ℕ) : ℤ) := by omega
    rw [this, zpow_natCast]
    push_cast
    rfl
  rw [e1, roundEven_intCast, ← e1]
  field_simp

/-- Rounding.  Seven samples, `0/1`, five times `0/0`, and `./.`: each sample
is fully called or fully missing and the site passes the MAF test with
`m = 0`.  With the `float` operations of the source, `frq` is `1/12` rounded,
the imputed dosage `2*frq` is `11184811/2^26`, the sum `mu` is `1 + 2*frq`
rounded and the stored mean `mu/7` is `11184810/2^26`: the mode-0 entry of the
imputed sample is `2^-26`, zero in exact arithmetic only. -/
theorem imputed_entry_float32 :
    WholeCalls 7 sevenBuf ∧ PlainCodes htslibCodec 7 sevenBuf ∧
    imputedAt htslibCodec sevenBuf 6 ∧
    mafPass htslibCodec 7 (Flt.fin 0) sevenBuf = true ∧
    calcFrq32 htslibCodec 7 sevenBuf = Flt.fin (11184811 / 2 ^ 27) ∧
    ∃ G mu, pushDosages32 htslibCodec 7 sevenBuf (calcFrq32 htslibCodec 7 sevenBuf) []
        = .ok (G, mu) ∧
      G.getD 6 Flt.nan = Flt.fin (11184811 / 2 ^ 26) ∧
      mu = Flt.fin (9786709 / 2 ^ 23) ∧
      colMean32 7 mu = Flt.fin (11184810 / 2 ^ 26) ∧
      centred32 (G.getD 6 Flt.nan) (colMean32 7 mu) = Flt.fin (1 / 2 ^ 26) ∧
      centred32 (G.getD 6 Flt.nan) (colMean32 7 mu) ≠ Flt.fin 0 := by
  have hg : [Flt.fin 1, Flt.fin 0, Flt.fin 0, Flt.fin 0, Flt.fin 0, Flt.fin 0,
      Flt.fin (11184811 / 2 ^ 26)].getD 6 Flt.nan = Flt.fin (11184811 / 2 ^ 26) := rfl
  have hm : colMean32 7 (Flt.fin (9786709 / 2 ^ 23)) = Flt.fin (11184810 / 2 ^ 26) := by
    decide!
  have hc : centred32 (Flt.fin (11184811 / 2 ^ 26)) (Flt.fin (11184810 / 2 ^ 26))
      = Flt.fin (1 / 2 ^ 26) := by
    have e : (11184811 / 2 ^ 26 + -(11184810 / 2 ^ 26) : ℚ) = (2 : ℚ) ^ (-26 : ℤ) := by
      norm_num
    simp only [centred32, Flt.sub_def, Flt.add, Flt.neg, Flt.r32]
    rw [e, roundSig_two_zpow 24 (by norm_num)]
    norm_num
  refine ⟨by decide, by decide, by decide, by decide!, by decide!, ?_⟩
  refine ⟨[Flt.fin 1, Flt.fin 0, Flt.fin 0, Flt.fin 0, Flt.fin 0, Flt.fin 0,
    Flt.fin (11184811 / 2 ^ 26)], Flt.fin (9786709 / 2 ^ 23), by decide!, hg, rfl, hm, ?_, ?_⟩
  · rw [hg, hm, hc]
  · rw [hg, hm, hc]
    intro h
    injection h with h
    norm_num at h

/-! ## The range of the dosages -/

/-- `pushDosages` has one exit, the negative entry: with no negative entry
among the first `2*N` it pushes whatever the decoder returns. -/
theorem pushDosages_unchecked (c : GtCodec) (N : Nat) (gt : List Int) (frq : Flt)
    (G : List Flt) (h : ∀ i, i < 2 * N → 0 ≤ gt.getD i 0) :
    pushDosages c N gt frq G
      = .ok (G ++ (List.range N).map (siteDosage c gt frq),
             forLoop N (fun j acc => acc + siteDosage c gt frq j) (Flt.fin 0)) := by
  obtain ⟨p, hp, hP⟩ := forLoopE_ok
    (fun i (q : List Flt × Flt) =>
      q = (G ++ (List.range i).map (siteDosage c gt frq),
           forLoop i (fun j acc => acc + siteDosage c gt frq j) (Flt.fin 0)))
    N
    (fun i (p : List Flt × Flt) =>
      if gt.getD (2 * i) 0 < 0 ∨ gt.getD (2 * i + 1) 0 < 0 then .error .fixPloidy
      else
        let g : Flt :=
          if gt.getD (2 * i) 0 ≠ c.bcf_gt_missing ∧ gt.getD (2 * i + 1) 0 ≠ c.bcf_gt_missing then
            Flt.ofInt (c.bcf_gt_allele (gt.getD (2 * i) 0) + c.bcf_gt_allele (gt.getD (2 * i + 1) 0))
          else Flt.ofInt 2 * frq
        .ok (p.1 ++ [g], p.2 + g))
    (G, Flt.fin 0) (by simp [forLoop_zero])
    (fun i t hi ht => by
      have h0 := h (2 * i) (by omega)
      have h1 := h (2 * i + 1) (by omega)
      have hneg : ¬ (gt.getD (2 * i) 0 < 0 ∨ gt.getD (2 * i + 1) 0 < 0) := by omega
      dsimp only at ht ⊢
      rw [if_neg hneg, ht]
      refine ⟨_, rfl, ?_⟩
      simp only [List.range_succ, List.map_append, List.map_cons, List.map_nil,
        List.append_assoc, forLoop_succ]
      rfl)
  unfold pushDosages
  rw [hp, hP]

/-- In `pca` the test of line 194 comes first: a `gs[n]` outside `[0,2]` (or
NaN) is the fatal exit, and a sample that is processed has `gs[n]` in `[0,2]`. -/
theorem pcaSample_range (sq : ℚ → ℚ) (cfg : PcaCfg) (r : SrLine) (n : Nat) (s : PcaState) :
    (¬ (Flt.le (Flt.ofInt 0) (s.gs n) = true ∧ Flt.le (s.gs n) (Flt.ofInt 2) = true) →
      pcaSample sq cfg r n s = .error .dosageRange) ∧
    (∀ t, pcaSample sq cfg r n s = .ok t →
      Flt.le (Flt.ofInt 0) (s.gs n) = true ∧ Flt.le (s.gs n) (Flt.ofInt 2) = true) := by
  refine ⟨fun h => ?_, fun t ht => ?_⟩
  · unfold pcaSample
    rw [if_pos h]
  · by_contra h
    unfold pcaSample at ht
    rw [if_pos h] at ht
    exact absurd ht (by simp)

/-- C12. Two samples with genotypes `0/0` and `1/2` at a site with two
alternate alleles, `m = 0`, `k = 1`: `calcpca` retains the site and pushes the
dosages 0 and 3 to `G` (mean `3/2`); 3 is not at most 2, no exit is taken, and
the mode-0 matrix is built with the entries `-3/2` and `3/2`.  The projector
stops on the same genotype: `pca` on one sample with genotype `1/2` takes the
fatal exit of line 194. -/
theorem calcpca_dosage_unchecked :
    (calcLoop htslibCodec twoCfg (CalcState.init [0, 0, 0, 0]) [triLine]).toOption.map
        (fun s => (s.nkept, s.G, s.AF))
      = some (1, [Flt.fin 0, Flt.fin 3], [Flt.fin (3 / 2)]) ∧
    Flt.le (Flt.fin 3) (Flt.ofInt 2) = false ∧
    (calcpcaMatrix qsqrt htslibCodec twoCfg [0, 0, 0, 0] 0 [triLine]).toOption.map
        (fun A => (A.rows, A.cols, A.ub, A.coeff 0 0, A.coeff 1 0))
      = some (2, 1, false, some (Flt.fin (-3 / 2)), some (Flt.fin (3 / 2))) ∧
    pca qsqrt htslibCodec oneSampleCfg [triSite] = .error .dosageRange := by
  refine ⟨by decide!, by decide!, by decide!, by decide!⟩

/-! ## Phased missing alleles and the buffer of the loadings -/

/-- C2. One sample, expected-frequency policy, one panel site with `AF = 1/3`
and the loadings `1, 2`; the genotype record is diploid and phased
half-missing, `1|.`, which htslib encodes as the codes `4` and `1`.  The code
`1` is a missing allele (`bcf_gt_is_missing`), so the claim gives the dosage
`d = 2*af` and the scores `0, 0`.  The test of line 167 compares with
`bcf_gt_missing = 0` only: `pca` takes the allele index `-1` from the code
`1`, uses `d = 1 + (-1) = 0` and prints `-1, -2`.  On the unphased `1/.`
(codes `4` and `0`) it prints the scores of the claim. -/
theorem pca_phased_missing_dosage :
    bcf_gt_is_missing 1 = true ∧ htslibCodec.bcf_gt_allele 1 = -1 ∧
    ¬ PlainCodes htslibCodec oneSampleCfg.N (phasedHalfSite.gt.getD []) ∧
    phasedHalfSite.ngt = 2 * oneSampleCfg.N ∧ phasedHalfSite.scored = true ∧
    pcaDosage htslibCodec oneSampleCfg phasedHalfSite 0 = Flt.fin 0 ∧
    claimDosage htslibCodec oneSampleCfg phasedHalfSite 0 = Flt.fin (2 / 3) ∧
    pca qsqrt htslibCodec oneSampleCfg [phasedHalfSite] = .ok [[Flt.fin (-1), Flt.fin (-2)]] ∧
    (List.range oneSampleCfg.N).map (fun n =>
        (List.range (firstCount oneSampleCfg [phasedHalfSite])).map
          (fun k => claimScore qsqrt htslibCodec oneSampleCfg [phasedHalfSite] n k))
      = [[Flt.fin 0, Flt.fin 0]] ∧
    pca qsqrt htslibCodec oneSampleCfg [halfMissSite] = .ok [[Flt.fin 0, Flt.fin 0]] := by
  refine ⟨by decide, by decide, by decide, by decide, by decide, by decide!, by decide!,
    by decide!, by decide!, by decide!⟩

/-- C4. One sample, no `-N`.  The first record is a panel site whose loading
vector has three entries and begins with NaN; the second is the first site
`pca` scores and has two loadings, `1, 2`.  The claim gives `K = 2`, the length
of the loading vector of that site, whatever NaN-leading sites come before.
`pca` takes `K = nwts`, and `nwts` is the size of the buffer that the call of
line 200 left at 3 on the first record: `K = 3`, and the third score is made
with the stale third entry of the buffer, `3`.  Without the NaN-leading record
the same site gives `K = 2`. -/
theorem pca_component_count_buffer_size :
    nanSite3.nanLeading = true ∧ hetSite.scored = true ∧
    hetSite.loading.length = 2 ∧ hetSite.wt_ret = 2 ∧
    (pcaLoop qsqrt htslibCodec oneSampleCfg PcaState.init [nanSite3, hetSite]).toOption.map
        (fun s => (s.nPC, s.Npca, s.wts)) = some (3, 3, [Flt.fin 1, Flt.fin 2, Flt.fin 3]) ∧
    pca qsqrt htslibCodec oneSampleCfg [nanSite3, hetSite]
      = .ok [[Flt.fin (1 / 2), Flt.fin 1, Flt.fin (3 / 2)]] ∧
    (pcaLoop qsqrt htslibCodec oneSampleCfg PcaState.init [hetSite]).toOption.map
        (fun s => (s.nPC, s.Npca, s.wts)) = some (2, 2, [Flt.fin 1, Flt.fin 2]) ∧
    pca qsqrt htslibCodec oneSampleCfg [hetSite] = .ok [[Flt.fin (1 / 2), Flt.fin 1]] := by
  refine ⟨by decide, by decide, by decide, by decide, by decide!, by decide!, by decide!,
    by decide!⟩

/-- C11. Three samples with genotypes `0/1`, `1/1` and the phased missing
genotype `.|.`, which htslib encodes as the codes `0` and `1`, both missing
alleles (`bcf_gt_is_missing`): each sample is fully called or fully missing,
and with `m = 0`, `k = 1` the site is retained.  The claim gives
`frq = 3/4`, the imputed dosage and the stored mean `3/2`, and the entry 0 for
the third sample.  The tests of lines 485 and 514 compare with
`bcf_gt_missing = 0` only: `calcpca` counts one missing allele, adds the
allele index `-1` of the code `1` to `mac`, and gets `frq = 2/5`; it pushes
`1, 2, 4/5`, stores the mean `19/15`, and the mode-0 entry of the third
sample is `-7/15`.  On the unphased `./.` it does what the claim says. -/
theorem calcpca_phased_missing_imputed :
    bcf_gt_is_missing 0 = true ∧ bcf_gt_is_missing 1 = true ∧
    WholeCalls 3 [2, 4, 4, 4, 0, 1] ∧ imputedAt htslibCodec [2, 4, 4, 4, 0, 1] 2 ∧
    alleleCount htslibCodec 3 [2, 4, 4, 4, 0, 1] = (2, 1) ∧
    calcFrq htslibCodec 3 [2, 4, 4, 4, 0, 1] = Flt.fin (2 / 5) ∧
    (calcLoop htslibCodec threeCfg (CalcState.init [0, 0, 0, 0, 0, 0]) [phasedMissLine]).toOption.map
        (fun s => (s.nkept, s.G, s.AF))
      = some (1, [Flt.fin 1, Flt.fin 2, Flt.fin (4 / 5)], [Flt.fin (19 / 15)]) ∧
    (calcpcaMatrix qsqrt htslibCodec threeCfg [0, 0, 0, 0, 0, 0] 0 [phasedMissLine]).toOption.map
        (fun A => (A.rows, A.cols, A.coeff 2 0)) = some (3, 1, some (Flt.fin (-7 / 15))) ∧
    (calcLoop htslibCodec threeCfg (CalcState.init [0, 0, 0, 0, 0, 0]) [plainMissLine]).toOption.map
        (fun s => (s.nkept, s.G, s.AF))
      = some (1, [Flt.fin 1, Flt.fin 2, Flt.fin (3 / 2)], [Flt.fin (3 / 2)]) ∧
    (calcpcaMatrix qsqrt htslibCodec threeCfg [0, 0, 0, 0, 0, 0] 0 [plainMissLine]).toOption.map
        (fun A => (A.rows, A.cols, A.coeff 2 0)) = some (3, 1, some (Flt.fin 0)) := by
  refine ⟨by decide, by decide, by decide, by decide, by decide!, by decide!, by decide!,
    by decide!, by decide!, by decide!⟩

end Akt
